import Mathlib

/-!
# Ordered maps of `spbspu-labs-2025-aads-a`

A verification development for the two balanced search trees of the repository:

* `Averenkov` : `Tree< Key, Value, Compare >` of `averenkov.eugene/S4/BiTree.hpp`
  (sentinel `fake_root`, iterative `push` with an explicit path stack, `erase(iterator)`);
* `Smirnov` : `AvlTree< Key, Value, Compare >` of `smirnov.alexandr/S4/avlTree.hpp`
  (null-terminated, recursive `addOrGet`, stored heights).

The pointer graphs are embedded as inductive trees. A position (what an iterator or a
reference designates) is the path of child links from the root to the node. An operation that
would leave the embedding (a null dereference, relinking of the sentinel) yields `none`.
The comparator `Compare` is a parameter `comp : K → K → Bool`.
-/

/-- One step of a path from the root: the `left` or the `right` link of a node. -/
inductive Dir where
  | L
  | R
deriving DecidableEq, Repr

/-- A position in a tree: the child links followed from the root to reach the node. -/
abbrev Pos := List Dir

/-- The C++ requirements on `Compare`: a strict weak ordering, that is an irreflexive and
transitive relation whose incomparability relation `!comp(a,b) && !comp(b,a)` is transitive. -/
structure StrictWeakOrder {K : Type} (comp : K → K → Bool) : Prop where
  irrefl : ∀ a, comp a a = false
  trans : ∀ a b c, comp a b = true → comp b c = true → comp a c = true
  equiv_trans : ∀ a b c, comp a b = false → comp b a = false → comp b c = false →
    comp c b = false → comp a c = false ∧ comp c a = false

/-- Equivalence of keys as the trees derive it: `!comp(a,b) && !comp(b,a)`. -/
def keyEquiv {K : Type} (comp : K → K → Bool) (a b : K) : Bool :=
  !comp a b && !comp b a

/-- The list obtained by putting `(k, v)` in front of the first pair whose key is greater
than `k` under `comp` (at the end when there is none): sorted insertion. -/
def insertSorted {K V : Type} (comp : K → K → Bool) (k : K) (v : V) :
    List (K × V) → List (K × V)
  | [] => [(k, v)]
  | e :: es => if comp k e.1 then (k, v) :: e :: es else e :: insertSorted comp k v es

/-- A list of pairs is strictly ascending by key under `comp`. -/
def Ascending {K V : Type} (comp : K → K → Bool) (l : List (K × V)) : Prop :=
  l.Pairwise (fun a b => comp a.1 b.1 = true)

/-- The comparator `std::less< Key >` on natural-number keys. -/
def natLess (a b : Nat) : Bool := decide (a < b)

namespace Averenkov

/-- A subtree of `Tree`: `nil` is the sentinel `fake_root` standing in a child slot (an absent
child), `mk` is a `Node< Key, Value >` with its `left`, `data.first`, `data.second`, `height`
and `right` members. The `parent` member is not stored: it is the node one step up the path. -/
inductive Node (K V : Type) where
  | nil : Node K V
  | mk (left : Node K V) (key : K) (value : V) (height : Int) (right : Node K V) : Node K V
deriving DecidableEq, Repr

/-- The state of a `Tree` object: the subtree at `fake_root->left` and the member `size_`.
`size_` is a `size_t` that only changes by `size_++` and `size_--`; it is a natural number
here: it counts nodes, which cannot number 2^64, and the decrement never meets 0
(`run_count_le_size`). -/
structure Tree (K V : Type) where
  root : Node K V
  size_ : Nat
deriving DecidableEq, Repr

variable {K V : Type}

/-- Modelled from the spec: the constructor `Node(key, value, parent)` of `node.hpp`, which is
not among the sources. Both child slots of a fresh node are absent, which in this tree means
they hold the sentinel (spec §3, §4.4); `h0` is the value the constructor gives `height`. -/
def newNode (h0 : Int) (key : K) (value : V) : Node K V :=
  Node.mk Node.nil key value h0 Node.nil

/-- The default-constructed `Tree()`: `fake_root->left == fake_root`, `size_ == 0`. -/
def Tree.empty : Tree K V := ⟨Node.nil, 0⟩

/-- `Tree::size`. -/
def Tree.size (t : Tree K V) : Nat := t.size_

/-- In-order sequence of the key-value pairs of a subtree. -/
def Node.toList : Node K V → List (K × V)
  | Node.nil => []
  | Node.mk l k v _ r => l.toList ++ (k, v) :: r.toList

/-- Number of nodes reachable from a subtree root. -/
def Node.count : Node K V → Nat
  | Node.nil => 0
  | Node.mk l _ _ _ r => l.count + 1 + r.count

/-- The member `height` as `update_height` reads it through a non-null link: the sentinel is
a node built by the same constructor and never updated, so it carries `h0`. -/
def storedHeight (h0 : Int) : Node K V → Int
  | Node.nil => h0
  | Node.mk _ _ _ h _ => h

/-- `Tree::update_height`: no effect on the sentinel, otherwise
`height = 1 + max(left->height, right->height)`. -/
def update_height (h0 : Int) : Node K V → Node K V
  | Node.nil => Node.nil
  | Node.mk l k v _ r => Node.mk l k v (1 + max (storedHeight h0 l) (storedHeight h0 r)) r

/-- `Tree::get_height`: -1 for the sentinel, `1 + max` of the children otherwise. The source
computes the value with an explicit stack and a memo table over the same recurrence. -/
def get_height : Node K V → Int
  | Node.nil => -1
  | Node.mk l _ _ _ r => 1 + max (get_height l) (get_height r)

/-- `Tree::get_balance_factor`: 0 for the sentinel, else height of left minus height of right,
an absent child counting -1. -/
def get_balance_factor : Node K V → Int
  | Node.nil => 0
  | Node.mk l _ _ _ r => get_height l - get_height r

/-- `Tree::rotate_right`: returns `y` itself when `y` or `y->left` is the sentinel; otherwise
`x = y->left` becomes the subtree root with `y` as its right child. No height is rewritten. -/
def rotate_right : Node K V → Node K V
  | Node.mk (Node.mk xl xk xv xh t2) yk yv yh yr =>
      Node.mk xl xk xv xh (Node.mk t2 yk yv yh yr)
  | y => y

/-- `Tree::rotate_left`: returns the sentinel unchanged; otherwise `y = x->right` becomes the
subtree root with `x` as its left child, and `update_height(x)`, `update_height(y)` run.
When `x->right` is the sentinel the source relinks the sentinel itself: `none`. -/
def rotate_left (h0 : Int) : Node K V → Option (Node K V)
  | Node.nil => some Node.nil
  | Node.mk _ _ _ _ Node.nil => none
  | Node.mk xl xk xv xh (Node.mk yl yk yv yh yr) =>
      some (update_height h0 (Node.mk (update_height h0 (Node.mk xl xk xv xh yl)) yk yv yh yr))

/-- `Tree::balance`. -/
def balance (h0 : Int) : Node K V → Option (Node K V)
  | Node.nil => some Node.nil
  | Node.mk l k v h r =>
    if get_balance_factor (Node.mk l k v h r) > 1 then
      if get_balance_factor l ≥ 0 then
        some (rotate_right (Node.mk l k v h r))
      else
        (rotate_left h0 l).bind fun l' => some (rotate_right (Node.mk l' k v h r))
    else if get_balance_factor (Node.mk l k v h r) < -1 then
      if get_balance_factor r ≤ 0 then
        rotate_left h0 (Node.mk l k v h r)
      else
        rotate_left h0 (Node.mk l k v h (rotate_right r))
    else
      some (Node.mk l k v h r)

/-- An entry of the `path` stack of `push` below the top: the node that was visited, recorded
as the child slot the walk left it through together with the rest of the node. -/
inductive Frame (K V : Type) where
  | left (key : K) (value : V) (height : Int) (right : Node K V) : Frame K V
  | right (left : Node K V) (key : K) (value : V) (height : Int) : Frame K V
deriving DecidableEq, Repr

/-- Store a subtree in the child slot a frame stands for (`parent_node->left = balanced_node`
or `parent_node->right = balanced_node`). -/
def Frame.plug : Frame K V → Node K V → Node K V
  | Frame.left k v h r, n => Node.mk n k v h r
  | Frame.right l k v h, n => Node.mk l k v h n

/-- The `while (current != fake_root)` loop of `push`: walk down from `current`, pushing each
visited node. `some path` when the sentinel is reached (top of the stack first), `none` when
a key equivalent to `key` is met (the `return` inside the loop). -/
def descend (comp : K → K → Bool) (key : K) : Node K V → List (Frame K V) → Option (List (Frame K V))
  | Node.nil, path => some path
  | Node.mk l k v h r, path =>
    if comp key k then descend comp key l (Frame.left k v h r :: path)
    else if comp k key then descend comp key r (Frame.right l k v h :: path)
    else none

/-- `Tree::rebalance_path` on a stack whose top is `node` and whose remaining entries are
`path`: balance the top, store the result in the slot of the next entry, continue; the last
result is `new_root`. -/
def rebalance_path (h0 : Int) : Node K V → List (Frame K V) → Option (Node K V)
  | node, [] => balance h0 node
  | node, f :: rest => (balance h0 node).bind fun b => rebalance_path h0 (f.plug b) rest

/-- `Tree::push`. `none` only if a rotation left the embedding. -/
def push (h0 : Int) (comp : K → K → Bool) (t : Tree K V) (key : K) (value : V) :
    Option (Tree K V) :=
  match t.root with
  | Node.nil => some ⟨newNode h0 key value, t.size_ + 1⟩
  | Node.mk l k v h r =>
    match descend comp key (Node.mk l k v h r) [] with
    | none => some t
    | some path =>
      (rebalance_path h0 (newNode h0 key value) path).bind fun new_root =>
        some ⟨new_root, t.size_ + 1⟩

/-- The subtree a position designates, `none` when the path leaves the tree. -/
def Node.subtree : Node K V → Pos → Option (Node K V)
  | n, [] => some n
  | Node.nil, _ :: _ => none
  | Node.mk l _ _ _ _, Dir.L :: p => l.subtree p
  | Node.mk _ _ _ _ r, Dir.R :: p => r.subtree p

/-- `Tree::find_NodeType`: the position of the node the walk stops at, `none` for `nullptr`. -/
def find_NodeType (comp : K → K → Bool) (key : K) : Node K V → Option Pos
  | Node.nil => none
  | Node.mk l k _ _ r =>
    if comp key k then (find_NodeType comp key l).map (Dir.L :: ·)
    else if comp k key then (find_NodeType comp key r).map (Dir.R :: ·)
    else some []

/-- `Tree::find`: an iterator, `none` being `end()`. -/
def find (comp : K → K → Bool) (t : Tree K V) (key : K) : Option Pos :=
  find_NodeType comp key t.root

/-- The pair an iterator dereferences to. -/
def Node.entry (n : Node K V) (p : Pos) : Option (K × V) :=
  match n.subtree p with
  | some (Node.mk _ k v _ _) => some (k, v)
  | _ => none

/-- `Tree::at`: `none` is the `std::out_of_range` exit. -/
def Tree.at (comp : K → K → Bool) (t : Tree K V) (key : K) : Option V :=
  match find_NodeType comp key t.root with
  | none => none
  | some p => (t.root.entry p).map Prod.snd

/-- `Tree::insert(const std::pair&)`: `push`, then the iterator `find` gives. -/
def insert (h0 : Int) (comp : K → K → Bool) (t : Tree K V) (kv : K × V) :
    Option (Tree K V × Option Pos) :=
  (push h0 comp t kv.1 kv.2).bind fun t' => some (t', find comp t' kv.1)

/-- The two-children case of `erase` when `min_right` is not the right child itself. Entered
at a node of the right subtree whose `left` is not the sentinel: follow `left` links down to
the node whose left child `min_right` has the sentinel as `left`; that node is
`parent = min_right->parent`, given here after `parent->left = min_right->right`. -/
def spliceMin : Node K V → Option (Node K V)
  | Node.mk (Node.mk Node.nil _ _ _ mr) pk pv ph pr => some (Node.mk mr pk pv ph pr)
  | Node.mk (Node.mk (Node.mk a b c d e) mk mv mh mr) _ _ _ _ =>
      spliceMin (Node.mk (Node.mk a b c d e) mk mv mh mr)
  | _ => none

/-- The subtree rooted at `parent` at the moment `erase` calls `rebalance_path`, the links
already rewired. The second argument is the subtree of the target node; `par` is the slot
that holds the target with the subtree of the target's parent node, or `none` when the
target is the root, whose parent is the sentinel.
Leaf and one-child cases: `parent` is the target's parent with that slot set to the sentinel
or to the sole child; the result `nil` stands for `parent == fake_root`.
Two-children case: `parent` is `min_right->parent`, which is the target itself, carrying the
data of `min_right`, when `min_right` is its right child, and a node further down otherwise
(`spliceMin`). -/
def eraseParent (par : Option (Dir × Node K V)) : Node K V → Option (Node K V)
  | Node.nil => none
  | Node.mk Node.nil _ _ _ Node.nil =>
    match par with
    | none => some Node.nil
    | some (Dir.L, Node.mk _ pk pv ph pr) => some (Node.mk Node.nil pk pv ph pr)
    | some (Dir.R, Node.mk pl pk pv ph _) => some (Node.mk pl pk pv ph Node.nil)
    | some (_, Node.nil) => none
  | Node.mk Node.nil _ _ _ (Node.mk cl ck cv ch cr) =>
    match par with
    | none => some Node.nil
    | some (Dir.L, Node.mk _ pk pv ph pr) => some (Node.mk (Node.mk cl ck cv ch cr) pk pv ph pr)
    | some (Dir.R, Node.mk pl pk pv ph _) => some (Node.mk pl pk pv ph (Node.mk cl ck cv ch cr))
    | some (_, Node.nil) => none
  | Node.mk (Node.mk cl ck cv ch cr) _ _ _ Node.nil =>
    match par with
    | none => some Node.nil
    | some (Dir.L, Node.mk _ pk pv ph pr) => some (Node.mk (Node.mk cl ck cv ch cr) pk pv ph pr)
    | some (Dir.R, Node.mk pl pk pv ph _) => some (Node.mk pl pk pv ph (Node.mk cl ck cv ch cr))
    | some (_, Node.nil) => none
  | Node.mk (Node.mk ll lk lv lh lr) _ _ h (Node.mk Node.nil mk mv _ mr) =>
      some (Node.mk (Node.mk ll lk lv lh lr) mk mv h mr)
  | Node.mk (Node.mk _ _ _ _ _) _ _ _ (Node.mk (Node.mk a b c d e) rk rv rh rr) =>
      spliceMin (Node.mk (Node.mk a b c d e) rk rv rh rr)

/-- The node a position hangs off: its slot and the subtree of its parent node, `none` for
the root (whose parent is the sentinel). -/
def Node.parentOf (n : Node K V) (p : Pos) : Option (Dir × Node K V) :=
  match p.getLast? with
  | none => none
  | some d => (n.subtree p.dropLast).map fun q => (d, q)

/-- `Tree::erase(iterator pos)`: the tree afterwards. `pos` is the path to what the iterator
designates: a node, or a sentinel slot, which is `end()` and makes the call return at once;
a path that leaves the tree designates nothing (`none`). For a node, the one-entry stack
holding `parent` goes through `rebalance_path`, whose result `new_root` is stored in
`fake_root->left`, and `size_--`. The iterator returned designates `parent`; it is not part
of this state function. Only nodes reachable from the root have a position: a node an
earlier `erase` unlinked without deleting it is outside this function and is covered by
`Heap.erase`. -/
def erase (h0 : Int) (t : Tree K V) (pos : Pos) : Option (Tree K V) :=
  match t.root.subtree pos with
  | none => none
  | some Node.nil => some t
  | some (Node.mk l k v h r) =>
    (eraseParent (t.root.parentOf pos) (Node.mk l k v h r)).bind fun parent =>
      (rebalance_path h0 parent []).bind fun new_root =>
        some ⟨new_root, t.size_ - 1⟩

/-- A public mutating call of the tree: `push(key, value)` or `erase(pos)` with `pos` a
position in the tree reachable from the root. -/
inductive Op (K V : Type) where
  | push (key : K) (value : V) : Op K V
  | erase (pos : Pos) : Op K V
deriving DecidableEq, Repr

/-- Run a sequence of calls; `none` when an `erase` is given a position that designates
nothing, or a call leaves the embedding. -/
def run (h0 : Int) (comp : K → K → Bool) : Tree K V → List (Op K V) → Option (Tree K V)
  | t, [] => some t
  | t, Op.push k v :: ops => (push h0 comp t k v).bind fun t' => run h0 comp t' ops
  | t, Op.erase p :: ops => (erase h0 t p).bind fun t' => run h0 comp t' ops

/-- The tree after `push` of each pair in turn, starting from the empty tree. -/
def pushAll (h0 : Int) (comp : K → K → Bool) (kvs : List (K × V)) : Option (Tree K V) :=
  run h0 comp Tree.empty (kvs.map fun kv => Op.push kv.1 kv.2)

/-- Every node has children whose heights differ by at most 1. -/
def Node.Balanced : Node K V → Prop
  | Node.nil => True
  | Node.mk l _ _ _ r =>
      l.Balanced ∧ r.Balanced ∧ get_height l - get_height r ≤ 1 ∧ get_height r - get_height l ≤ 1

/-- The bottom-up pass of `rebalance_path` seen from a subtree that is already balanced:
store it in the slot of the next entry, balance that node, continue to the root. -/
def rebalance_up (h0 : Int) : Node K V → List (Frame K V) → Option (Node K V)
  | n, [] => some n
  | n, f :: rest => (balance h0 (f.plug n)).bind fun b => rebalance_up h0 b rest

/-- The walk of `push` and the pass of `rebalance_path` folded into one recursion over the
subtree: the subtree after the new node is attached and every node of the walk is balanced;
`none` when the walk meets an equivalent key. Used to reason about `push`. -/
def pushRec (h0 : Int) (comp : K → K → Bool) (key : K) (value : V) : Node K V → Option (Node K V)
  | Node.nil => balance h0 (newNode h0 key value)
  | Node.mk l k v h r =>
    if comp key k then
      (pushRec h0 comp key value l).bind fun l' => balance h0 (Node.mk l' k v h r)
    else if comp k key then
      (pushRec h0 comp key value r).bind fun r' => balance h0 (Node.mk l k v h r')
    else none

/-- Both children are balanced and their heights differ by at most 2: the state of a node
whose subtree just gained or lost one node, before `balance` runs on it. -/
def Node.AlmostBalanced : Node K V → Prop
  | Node.nil => True
  | Node.mk l _ _ _ r =>
      l.Balanced ∧ r.Balanced ∧ get_height l - get_height r ≤ 2 ∧ get_height r - get_height l ≤ 2

/-- The subtree `erase` works in: the target's own subtree when it hangs off the sentinel,
the subtree of its parent node otherwise. -/
def enclosing (par : Option (Dir × Node K V)) (target : Node K V) : Node K V :=
  match par with
  | none => target
  | some (_, P) => P

/-- Write through a reference to the `data.second` of the node at a position. -/
def Node.assign : Node K V → Pos → V → Node K V
  | Node.nil, _, _ => Node.nil
  | Node.mk l k _ h r, [], b => Node.mk l k b h r
  | Node.mk l k v h r, Dir.L :: p, b => Node.mk (l.assign p b) k v h r
  | Node.mk l k v h r, Dir.R :: p, b => Node.mk l k v h (r.assign p b)

/-- `tree[key] = b`-style write through the reference `operator[]` returned. -/
def Tree.assign (t : Tree K V) (p : Pos) (b : V) : Tree K V := ⟨t.root.assign p b, t.size_⟩

/-- Modelled from the spec: the non-const `Tree::operator[]`, whose body reaches the stored
value through members of `Iterator` (`iterator.hpp` is not among the sources). It runs
`insert(std::make_pair(key, Value()))` and, as the spec has it, returns a reference to the
value stored at the position `insert` gave; `dflt` is `Value()`. The reference is the
position; `none` would be a dereference of `end()`. -/
def subscript (h0 : Int) (comp : K → K → Bool) (dflt : V) (t : Tree K V) (key : K) :
    Option (Tree K V × Pos) :=
  (insert h0 comp t (key, dflt)).bind fun res =>
    match res.2 with
    | none => none
    | some p => if (res.1.root.entry p).isSome then some (res.1, p) else none

/-- Balance of a subtree can be checked by evaluation. -/
def Node.decBalanced : (n : Node K V) → Decidable n.Balanced
  | Node.nil => isTrue trivial
  | Node.mk l _ _ _ r =>
    match Node.decBalanced l, Node.decBalanced r with
    | isTrue hl, isTrue hr =>
      if h1 : get_height l - get_height r ≤ 1 then
        if h2 : get_height r - get_height l ≤ 1 then isTrue ⟨hl, hr, h1, h2⟩
        else isFalse fun h => h2 h.2.2.2
      else isFalse fun h => h1 h.2.2.1
    | isFalse hl, _ => isFalse fun h => hl h.1
    | _, isFalse hr => isFalse fun h => hr h.2.1

instance (n : Node K V) : Decidable n.Balanced := Node.decBalanced n

end Averenkov

/-- Ascending order of a concrete list can be checked by evaluation. -/
instance {K V : Type} (comp : K → K → Bool) (l : List (K × V)) : Decidable (Ascending comp l) :=
  inferInstanceAs (Decidable (l.Pairwise (fun (a b : K × V) => comp a.1 b.1 = true)))

namespace Averenkov

variable {K V : Type}

/-- The const overload of `Tree::at`: the same walk over `find_NodeType` and the same
`std::out_of_range` exit (`none`) as the mutable one. -/
def Tree.at_const (comp : K → K → Bool) (t : Tree K V) (key : K) : Option V :=
  match find_NodeType comp key t.root with
  | none => none
  | some p => (t.root.entry p).map Prod.snd

/-- The const `Tree::operator[]`: `return at(key);`. -/
def Tree.subscript_const (comp : K → K → Bool) (t : Tree K V) (key : K) : Option V :=
  Tree.at_const comp t key

/-- The loop of `Tree::lower_bound`: `current` is the subtree at position `pos`, `result` the
node recorded so far (`none` is `fake_root`). A node whose key is not less than `key` is
recorded and the walk goes left, otherwise it goes right. -/
def lower_bound_loop (comp : K → K → Bool) (key : K) : Node K V → Pos → Option Pos → Option Pos
  | Node.nil, _, result => result
  | Node.mk l k _ _ r, pos, result =>
    if !comp k key then lower_bound_loop comp key l (pos ++ [Dir.L]) (some pos)
    else lower_bound_loop comp key r (pos ++ [Dir.R]) result

/-- `Tree::lower_bound`: an iterator, `none` being `end()`. -/
def lower_bound (comp : K → K → Bool) (t : Tree K V) (key : K) : Option Pos :=
  lower_bound_loop comp key t.root [] none

/-- The loop of `Tree::upper_bound`: a node whose key is greater than `key` is recorded and
the walk goes left, otherwise it goes right. -/
def upper_bound_loop (comp : K → K → Bool) (key : K) : Node K V → Pos → Option Pos → Option Pos
  | Node.nil, _, result => result
  | Node.mk l k _ _ r, pos, result =>
    if comp key k then upper_bound_loop comp key l (pos ++ [Dir.L]) (some pos)
    else upper_bound_loop comp key r (pos ++ [Dir.R]) result

/-- `Tree::upper_bound`: an iterator, `none` being `end()`. -/
def upper_bound (comp : K → K → Bool) (t : Tree K V) (key : K) : Option Pos :=
  upper_bound_loop comp key t.root [] none

/-- `Tree::find_min`, called on a node: the position reached by following `left` links
while they hold a node. -/
def find_min : Node K V → Pos
  | Node.mk (Node.mk a b c d e) _ _ _ _ => Dir.L :: find_min (Node.mk a b c d e)
  | _ => []

/-- `Tree::begin`: `end()` (`none`) when the root slot holds the sentinel, otherwise the
leftmost node. -/
def Tree.begin (t : Tree K V) : Option Pos :=
  match t.root with
  | Node.nil => none
  | Node.mk l k v h r => some (find_min (Node.mk l k v h r))

/-- `Tree::empty()`, the member function: `size_ == 0`. (`Tree.empty` is the
default-constructed tree.) -/
def Tree.isEmpty (t : Tree K V) : Bool := t.size_ == 0

/-- Where the node `parent` stands below the subtree root `balance(parent)` returns: it is
the right child after a right rotation, the left child after a left rotation, the root when
nothing rotates; `none` when `parent` is the sentinel, which `iterator(parent)` makes
`end()`. -/
def parentAfterBalance : Node K V → Option Pos
  | Node.nil => none
  | Node.mk l k v h r =>
    if get_balance_factor (Node.mk l k v h r) > 1 then some [Dir.R]
    else if get_balance_factor (Node.mk l k v h r) < -1 then some [Dir.L]
    else some []

/-- The iterator `Tree::erase(iterator pos)` returns, as a position in the tree afterwards
(`erase` gives that tree): `end()` at once for `pos == end()`, otherwise `iterator(parent)`.
Since `balance(parent)` becomes the root, the position is counted from it. The outer `none`
is a `pos` that designates nothing. -/
def erase_iter (h0 : Int) (t : Tree K V) (pos : Pos) : Option (Option Pos) :=
  match t.root.subtree pos with
  | none => none
  | some Node.nil => some none
  | some (Node.mk l k v h r) =>
    (eraseParent (t.root.parentOf pos) (Node.mk l k v h r)).bind fun parent =>
      (rebalance_path h0 parent []).bind fun _ => some (parentAfterBalance parent)

/-- `Tree::erase(const Key&)`: the tree afterwards and the count returned. -/
def erase_key (h0 : Int) (comp : K → K → Bool) (t : Tree K V) (key : K) :
    Option (Tree K V × Nat) :=
  match find comp t key with
  | none => some (t, 0)
  | some p => (erase h0 t p).bind fun t' => some (t', 1)

/-- `Tree::erase(iterator first, iterator last)` for `last == end()`, the sentinel being the
one position no `erase` moves: `while (first != last) first = erase(first);`. `first` is
`none` for `end()`. The result is the tree when the loop ends; `fuel` bounds the number of
rounds, and `none` is fuel used up or a `first` that designates nothing. -/
def erase_range_to_end (h0 : Int) : Nat → Tree K V → Option Pos → Option (Tree K V)
  | _, t, none => some t
  | 0, _, some _ => none
  | fuel + 1, t, some p =>
    (erase h0 t p).bind fun t' =>
      (erase_iter h0 t p).bind fun next => erase_range_to_end h0 fuel t' next

end Averenkov

namespace Averenkov

variable {K V : Type}

/-- Height of a subtree counted in nodes on the longest path from its root down to a leaf:
0 for an absent child. It is `get_height` plus one. -/
def Node.depth : Node K V → Nat
  | Node.nil => 0
  | Node.mk l _ _ _ r => 1 + max l.depth r.depth

/-- The shape and keys of a subtree: values and stored heights blanked. `get_height`, the
comparisons of `push` and the links the rotations rewrite depend on nothing else. -/
def Node.skeleton : Node K V → Node K Unit
  | Node.nil => Node.nil
  | Node.mk l k _ _ r => Node.mk l.skeleton k () 0 r.skeleton

/-- `Tree::copy_tree(node, parent)` as the copy constructor of a new tree calls it on the
nodes of another tree `other`. The test `node == fake_root` compares with the sentinel of
the tree under construction, which no link of `other` holds, and no link of `other` is
null: an absent child of `other` is `other.fake_root`, a node whose `left` is the root of
`other`. So on `nil` the function builds a node from the sentinel's `data` and goes on with
`node->left`, which is `root`; on a node it copies `node->left`, then `node->right`, then
balances the copy. `fuel` bounds the depth of the recursion; `none` is a call that does not
return within it. What the sentinel's `right` holds is never reached, the call on its `left`
coming first; it stands here as an absent child. -/
def copy_tree (h0 : Int) (root : Node K V) (sentinelData : K × V) :
    Nat → Node K V → Option (Node K V)
  | 0, _ => none
  | fuel + 1, Node.nil =>
    (copy_tree h0 root sentinelData fuel root).bind fun l =>
      (copy_tree h0 root sentinelData fuel Node.nil).bind fun r =>
        balance h0 (Node.mk l sentinelData.1 sentinelData.2 h0 r)
  | fuel + 1, Node.mk l k v h r =>
    (copy_tree h0 root sentinelData fuel l).bind fun l' =>
      (copy_tree h0 root sentinelData fuel r).bind fun r' =>
        balance h0 (Node.mk l' k v h r')

/-- The copy constructor `Tree(const Tree& other)`:
`setRoot(copy_tree(other.getRoot(), fake_root)); size_ = other.size_;`. -/
def copy_construct (h0 : Int) (sentinelData : K × V) (fuel : Nat) (other : Tree K V) :
    Option (Tree K V) :=
  (copy_tree h0 other.root sentinelData fuel other.root).bind fun root =>
    some ⟨root, other.size_⟩

/-- The move constructor `Tree(Tree&& other)`: the new tree takes over `other.fake_root`
with everything that hangs off it and `other.size_`; `other` gets
`new NodeType(Key(), Value(), nullptr)` as its sentinel and `size_ = 0`. The constructor
does not write the links of that node; as the node constructor leaves them (spec §5: a
fresh sentinel, a valid empty state) its `left` is null or the node itself, and `begin()`
tests `!getRoot() || getRoot() == fake_root`, so both read as the absent root `Node.nil`.
The pair is the new tree and `other` afterwards. -/
def move_construct (other : Tree K V) : Tree K V × Tree K V :=
  (⟨other.root, other.size_⟩, ⟨Node.nil, 0⟩)

/-- Every stored `height` is one more than the larger stored height of the two children, an
absent child (the sentinel) counting 0. -/
def Node.StoredHeightsOk : Node K V → Prop
  | Node.nil => True
  | Node.mk l _ _ h r =>
      l.StoredHeightsOk ∧ r.StoredHeightsOk ∧ h = 1 + max (storedHeight 0 l) (storedHeight 0 r)

end Averenkov

namespace Averenkov

/-- A node of `Tree` with its address and its `parent` member spelled out, for the statements on
parent links. Addresses are natural numbers; 0 is the address of the sentinel `fake_root`.
`nil` is the sentinel standing in a child slot, as in `Node`; `left` and `right` are the
nodes the child links hold, `parent` is the address the `parent` member holds. -/
inductive PNode (K V : Type) where
  | nil : PNode K V
  | mk (addr : Nat) (parent : Nat) (left : PNode K V) (key : K) (value : V) (height : Int)
      (right : PNode K V) : PNode K V
deriving DecidableEq, Repr

/-- The state of a `Tree` with addresses: `root` is what `fake_root->left` holds, `fresh` is
the address the next `new NodeType` returns (addresses are handed out in increasing order,
none twice). -/
structure PTree (K V : Type) where
  root : PNode K V
  size_ : Nat
  fresh : Nat
deriving DecidableEq, Repr

namespace Linked

variable {K V : Type}

/-- The default-constructed `Tree()`: the sentinel alone, at address 0. -/
def empty : PTree K V := ⟨PNode.nil, 0, 1⟩

/-- The node without address and `parent`: the `Node` of the model without addresses. -/
def forget : PNode K V → Node K V
  | PNode.nil => Node.nil
  | PNode.mk _ _ l k v h r => Node.mk (forget l) k v h (forget r)

/-- The tree without addresses. -/
def forgetTree (t : PTree K V) : Tree K V := ⟨forget t.root, t.size_⟩

/-- The assignment `n->parent = p` on a node; the callers guard it with
`n != fake_root`, so the sentinel is left alone. -/
def setParent : PNode K V → Nat → PNode K V
  | PNode.nil, _ => PNode.nil
  | PNode.mk a _ l k v h r, p => PNode.mk a p l k v h r

/-- The member `height` read through a non-null link; the sentinel carries `h0`. -/
def storedHeight (h0 : Int) : PNode K V → Int
  | PNode.nil => h0
  | PNode.mk _ _ _ _ _ h _ => h

/-- `Tree::update_height`. -/
def update_height (h0 : Int) : PNode K V → PNode K V
  | PNode.nil => PNode.nil
  | PNode.mk a p l k v _ r =>
      PNode.mk a p l k v (1 + max (storedHeight h0 l) (storedHeight h0 r)) r

/-- `Tree::get_height`. -/
def get_height : PNode K V → Int
  | PNode.nil => -1
  | PNode.mk _ _ l _ _ _ r => 1 + max (get_height l) (get_height r)

/-- `Tree::get_balance_factor`. -/
def get_balance_factor : PNode K V → Int
  | PNode.nil => 0
  | PNode.mk _ _ l _ _ _ r => get_height l - get_height r

/-- `Tree::rotate_right` with its writes to `parent`: `x->parent = y->parent`,
`y->parent = x`, and `T2->parent = y` when `T2` is not the sentinel. -/
def rotate_right : PNode K V → PNode K V
  | PNode.mk ya yp (PNode.mk xa _ xl xk xv xh t2) yk yv yh yr =>
      PNode.mk xa yp xl xk xv xh (PNode.mk ya xa (setParent t2 ya) yk yv yh yr)
  | y => y

/-- `Tree::rotate_left` with its writes to `parent`: `y->left->parent = x` when `y->left` is
not the sentinel, `y->parent = x->parent`, `x->parent = y`; then `update_height(x)`,
`update_height(y)`. `none` when `x->right` is the sentinel. -/
def rotate_left (h0 : Int) : PNode K V → Option (PNode K V)
  | PNode.nil => some PNode.nil
  | PNode.mk _ _ _ _ _ _ PNode.nil => none
  | PNode.mk xa xp xl xk xv xh (PNode.mk ya _ yl yk yv yh yr) =>
      some (update_height h0
        (PNode.mk ya xp (update_height h0 (PNode.mk xa ya xl xk xv xh (setParent yl xa)))
          yk yv yh yr))

/-- `Tree::balance`; the assignments `node->left = rotate_left(node->left)` and
`node->right = rotate_right(node->right)` write a child link only. -/
def balance (h0 : Int) : PNode K V → Option (PNode K V)
  | PNode.nil => some PNode.nil
  | PNode.mk a p l k v h r =>
    if get_balance_factor (PNode.mk a p l k v h r) > 1 then
      if get_balance_factor l ≥ 0 then
        some (rotate_right (PNode.mk a p l k v h r))
      else
        (rotate_left h0 l).bind fun l' => some (rotate_right (PNode.mk a p l' k v h r))
    else if get_balance_factor (PNode.mk a p l k v h r) < -1 then
      if get_balance_factor r ≤ 0 then
        rotate_left h0 (PNode.mk a p l k v h r)
      else
        rotate_left h0 (PNode.mk a p l k v h (rotate_right r))
    else
      some (PNode.mk a p l k v h r)

/-- An entry of the `path` stack of `push` below the top: the visited node without the child
the walk went into. -/
inductive Frame (K V : Type) where
  | left (addr : Nat) (parent : Nat) (key : K) (value : V) (height : Int)
      (right : PNode K V) : Frame K V
  | right (addr : Nat) (parent : Nat) (left : PNode K V) (key : K) (value : V)
      (height : Int) : Frame K V
deriving DecidableEq, Repr

/-- The address of the node a frame stands for. -/
def Frame.addr : Frame K V → Nat
  | Frame.left a _ _ _ _ _ => a
  | Frame.right a _ _ _ _ _ => a

/-- The assignment `parent_node->left = balanced_node` or `parent_node->right =
balanced_node` of `rebalance_path`: a child link is written, no `parent` member. -/
def Frame.plug : Frame K V → PNode K V → PNode K V
  | Frame.left a p k v h r, n => PNode.mk a p n k v h r
  | Frame.right a p l k v h, n => PNode.mk a p l k v h n

/-- The `while (current != fake_root)` loop of `push`. -/
def descend (comp : K → K → Bool) (key : K) :
    PNode K V → List (Frame K V) → Option (List (Frame K V))
  | PNode.nil, path => some path
  | PNode.mk a p l k v h r, path =>
    if comp key k then descend comp key l (Frame.left a p k v h r :: path)
    else if comp k key then descend comp key r (Frame.right a p l k v h :: path)
    else none

/-- The variable `parent` of `push` when the loop ends: the node visited last, the sentinel
when none was. -/
def parentAddr : List (Frame K V) → Nat
  | [] => 0
  | f :: _ => f.addr

/-- The loop of `Tree::rebalance_path`, up to `new_root`. -/
def rebalance_path (h0 : Int) : PNode K V → List (Frame K V) → Option (PNode K V)
  | node, [] => balance h0 node
  | node, f :: rest => (balance h0 node).bind fun b => rebalance_path h0 (f.plug b) rest

/-- `Tree::push` on the tree with addresses. The node `new NodeType(key, value, parent)` gets
the address `fresh`. Modelled from the spec: the constructor of `node.hpp`, which is not
among the sources, stores its third argument in the `parent` member (spec §4.2: the new node
becomes root with parent = sentinel) and leaves both child slots absent. After the loop
`rebalance_path` stores `new_root` in `fake_root->left` and sets
`new_root->parent = fake_root`. -/
def push (h0 : Int) (comp : K → K → Bool) (t : PTree K V) (key : K) (value : V) :
    Option (PTree K V) :=
  match t.root with
  | PNode.nil =>
      some ⟨PNode.mk t.fresh 0 PNode.nil key value h0 PNode.nil, t.size_ + 1, t.fresh + 1⟩
  | PNode.mk a p l k v h r =>
    match descend comp key (PNode.mk a p l k v h r) [] with
    | none => some t
    | some path =>
      (rebalance_path h0
          (PNode.mk t.fresh (parentAddr path) PNode.nil key value h0 PNode.nil) path).bind
        fun new_root => some ⟨setParent new_root 0, t.size_ + 1, t.fresh + 1⟩

/-- The tree after `push` of each pair in turn. -/
def pushAll (h0 : Int) (comp : K → K → Bool) : PTree K V → List (K × V) → Option (PTree K V)
  | t, [] => some t
  | t, kv :: kvs => (push h0 comp t kv.1 kv.2).bind fun t' => pushAll h0 comp t' kvs

/-- The `parent` member of the subtree root holds the address `q`, and below it every node's
`parent` member holds the address of the node whose child link holds it. -/
def ParentsOk : PNode K V → Nat → Prop
  | PNode.nil, _ => True
  | PNode.mk a p l _ _ _ r, q => p = q ∧ ParentsOk l a ∧ ParentsOk r a

/-- The addresses of the nodes of a subtree, in in-order. -/
def addrs : PNode K V → List Nat
  | PNode.nil => []
  | PNode.mk a _ l _ _ _ r => addrs l ++ a :: addrs r

/-- The stack entry without address and `parent`. -/
def forgetFrame : Frame K V → Averenkov.Frame K V
  | Frame.left _ _ k v h r => Averenkov.Frame.left k v h (forget r)
  | Frame.right _ _ l k v h => Averenkov.Frame.right (forget l) k v h

/-- The `parent` members along a stack are consistent: each entry's `parent` holds the
address of the entry below it (the sentinel's for the last one), and the child the walk did
not take is a subtree with consistent `parent` members. -/
def PathOk : List (Frame K V) → Prop
  | [] => True
  | Frame.left a p _ _ _ r :: rest => p = parentAddr rest ∧ ParentsOk r a ∧ PathOk rest
  | Frame.right a p l _ _ _ :: rest => p = parentAddr rest ∧ ParentsOk l a ∧ PathOk rest

/-- The tree a stack and the subtree at its top stand for: every entry holds in its open
child slot what is above it. -/
def plugAll : PNode K V → List (Frame K V) → PNode K V
  | n, [] => n
  | n, f :: rest => plugAll (f.plug n) rest

end Linked

end Averenkov

namespace Averenkov

variable {K V : Type}

/-- `Tree::equal_range`: `{ lower_bound(key), upper_bound(key) }`. -/
def equal_range (comp : K → K → Bool) (t : Tree K V) (key : K) : Option Pos × Option Pos :=
  (lower_bound comp t key, upper_bound comp t key)

/-- The test `heights.find(child) != heights.end()` of `get_height` together with the value
found. The map `heights` is keyed by node; a node is named by its position below the node
`get_height` was called on. The sentinel is in the map from the start with -1, so an absent
child is always found. -/
def heightsFind (heights : List (Pos × Int)) (p : Pos) : Node K V → Option Int
  | Node.nil => some (-1)
  | Node.mk _ _ _ _ _ => heights.lookup p

/-- The `while (!nodes.empty())` loop of `Tree::get_height`: `nodes` is the stack (top
first) of nodes with their positions, `heights` the map (latest entry first). When both
children of the top are in the map its height is stored and it is popped; otherwise the
children not in the map are pushed, the right one first. `fuel` bounds the number of
iterations; `none` is a loop that has not ended within it (or reached the sentinel, which
is never pushed). -/
def get_height_loop :
    Nat → List (Pos × Node K V) → List (Pos × Int) → Option (List (Pos × Int))
  | _, [], heights => some heights
  | 0, _ :: _, _ => none
  | _ + 1, (_, Node.nil) :: _, _ => none
  | fuel + 1, (p, Node.mk l k v h r) :: rest, heights =>
    match heightsFind heights (p ++ [Dir.L]) l, heightsFind heights (p ++ [Dir.R]) r with
    | some hl, some hr => get_height_loop fuel rest ((p, 1 + max hl hr) :: heights)
    | some _, none =>
        get_height_loop fuel ((p ++ [Dir.R], r) :: (p, Node.mk l k v h r) :: rest) heights
    | none, some _ =>
        get_height_loop fuel ((p ++ [Dir.L], l) :: (p, Node.mk l k v h r) :: rest) heights
    | none, none =>
        get_height_loop fuel
          ((p ++ [Dir.L], l) :: (p ++ [Dir.R], r) :: (p, Node.mk l k v h r) :: rest) heights

/-- `Tree::get_height` as the source computes it, with an explicit stack and a map: -1 at
once for the sentinel, otherwise the loop from the stack holding `node` alone, then
`heights[node]` (0 if the map had no entry). `get_height` is the recursive definition it
is compared with. -/
def get_height_iterative (fuel : Nat) : Node K V → Option Int
  | Node.nil => some (-1)
  | Node.mk l k v h r =>
    (get_height_loop fuel [([], Node.mk l k v h r)] []).map fun heights =>
      (heights.lookup []).getD 0

/-- `Tree::get_balance_factor` over the iterative `get_height`: 0 for the sentinel, else
`left_height - right_height`, each being -1 for an absent child and `get_height(child)`
otherwise. -/
def get_balance_factor_iterative (fuel : Nat) : Node K V → Option Int
  | Node.nil => some 0
  | Node.mk l _ _ _ r =>
    (match l with
      | Node.nil => some (-1)
      | Node.mk a b c d e => get_height_iterative fuel (Node.mk a b c d e)).bind
      fun left_height =>
        (match r with
          | Node.nil => some (-1)
          | Node.mk a b c d e => get_height_iterative fuel (Node.mk a b c d e)).map
          fun right_height => left_height - right_height

end Averenkov

namespace Averenkov

namespace Heap

/-- A `Node< Key, Value >` in memory. Links are addresses; 0 is the address of the sentinel
`fake_root`, which is what an absent child holds. -/
structure Cell (K V : Type) where
  left : Nat
  right : Nat
  parent : Nat
  key : K
  value : V
  height : Int
deriving DecidableEq, Repr

/-- The memory of a `Tree` object: the nodes allocated and not yet deleted, by address (a
node can be live without being reachable from the root), the `left` and `right` links of the
sentinel, `size_`, and the address the next `new NodeType` returns. The `parent` member of
the sentinel is written but never read by the functions below and is not kept. -/
structure State (K V : Type) where
  cells : List (Nat × Cell K V)
  rootLink : Nat
  maxLink : Nat
  size_ : Nat
  fresh : Nat
deriving DecidableEq, Repr

variable {K V : Type}

/-- The default-constructed `Tree()`: `fake_root->left = fake_root->right = fake_root`,
`size_ = 0`. -/
def empty : State K V := ⟨[], 0, 0, 0, 1⟩

/-- The node at an address; `none` for an address that holds no live node (the sentinel's
members are read through `getLeft` and `getRight`). -/
def cell (s : State K V) (a : Nat) : Option (Cell K V) := s.cells.lookup a

/-- The read `a->left`. -/
def getLeft (s : State K V) (a : Nat) : Option Nat :=
  if a = 0 then some s.rootLink else (cell s a).map fun c => c.left

/-- The read `a->right`. -/
def getRight (s : State K V) (a : Nat) : Option Nat :=
  if a = 0 then some s.maxLink else (cell s a).map fun c => c.right

/-- The read `a->parent` of a node. -/
def getParent (s : State K V) (a : Nat) : Option Nat :=
  (cell s a).map fun c => c.parent

/-- The read `a->height`; the sentinel carries the value `h0` its constructor gave it. -/
def storedHeight (h0 : Int) (s : State K V) (a : Nat) : Option Int :=
  if a = 0 then some h0 else (cell s a).map fun c => c.height

/-- A write to members of the live node at `a`. -/
def modify (s : State K V) (a : Nat) (f : Cell K V → Cell K V) : Option (State K V) :=
  (cell s a).map fun _ =>
    ⟨s.cells.map fun e => if e.1 = a then (e.1, f e.2) else e, s.rootLink, s.maxLink, s.size_,
      s.fresh⟩

/-- The write `a->left = v`. -/
def setLeft (s : State K V) (a v : Nat) : Option (State K V) :=
  if a = 0 then some ⟨s.cells, v, s.maxLink, s.size_, s.fresh⟩
  else modify s a fun c => ⟨v, c.right, c.parent, c.key, c.value, c.height⟩

/-- The write `a->right = v`. -/
def setRight (s : State K V) (a v : Nat) : Option (State K V) :=
  if a = 0 then some ⟨s.cells, s.rootLink, v, s.size_, s.fresh⟩
  else modify s a fun c => ⟨c.left, v, c.parent, c.key, c.value, c.height⟩

/-- The write `a->parent = v`. -/
def setParent (s : State K V) (a v : Nat) : Option (State K V) :=
  if a = 0 then some s
  else modify s a fun c => ⟨c.left, c.right, v, c.key, c.value, c.height⟩

/-- `Tree::get_height` on the nodes in memory: -1 for the sentinel, one more than the larger
height of the children otherwise. `fuel` bounds the depth; `none` is a walk that does not
end within it or reads a deleted node. -/
def get_height : Nat → State K V → Nat → Option Int
  | 0, _, _ => none
  | fuel + 1, s, a =>
    if a = 0 then some (-1)
    else
      (cell s a).bind fun c =>
        (get_height fuel s c.left).bind fun hl =>
          (get_height fuel s c.right).map fun hr => 1 + max hl hr

/-- `Tree::get_balance_factor`. -/
def get_balance_factor (fuel : Nat) (s : State K V) (a : Nat) : Option Int :=
  if a = 0 then some 0
  else
    (cell s a).bind fun c =>
      (get_height fuel s c.left).bind fun left_height =>
        (get_height fuel s c.right).map fun right_height => left_height - right_height

/-- `Tree::update_height`. -/
def update_height (h0 : Int) (s : State K V) (a : Nat) : Option (State K V) :=
  if a = 0 then some s
  else
    (cell s a).bind fun c =>
      (storedHeight h0 s c.left).bind fun left_height =>
        (storedHeight h0 s c.right).bind fun right_height =>
          modify s a fun c =>
            ⟨c.left, c.right, c.parent, c.key, c.value, 1 + max left_height right_height⟩

/-- `Tree::rotate_right`: the state afterwards and the node returned. -/
def rotate_right (s : State K V) (y : Nat) : Option (State K V × Nat) :=
  if y = 0 then some (s, y)
  else
    (getLeft s y).bind fun x =>
      if x = 0 then some (s, y)
      else
        (getRight s x).bind fun t2 =>
          (setRight s x y).bind fun s1 =>
            (setLeft s1 y t2).bind fun s2 =>
              (getParent s2 y).bind fun yp =>
                (setParent s2 x yp).bind fun s3 =>
                  (setParent s3 y x).bind fun s4 =>
                    (if t2 = 0 then some s4 else setParent s4 t2 y).bind fun s5 =>
                      some (s5, x)

/-- `Tree::rotate_left`: the state afterwards and the node returned. -/
def rotate_left (h0 : Int) (s : State K V) (x : Nat) : Option (State K V × Nat) :=
  if x = 0 then some (s, x)
  else
    (getRight s x).bind fun y =>
      (getLeft s y).bind fun yl =>
        (setRight s x yl).bind fun s1 =>
          (if yl = 0 then some s1 else setParent s1 yl x).bind fun s2 =>
            (setLeft s2 y x).bind fun s3 =>
              (getParent s3 x).bind fun xp =>
                (setParent s3 y xp).bind fun s4 =>
                  (setParent s4 x y).bind fun s5 =>
                    (update_height h0 s5 x).bind fun s6 =>
                      (update_height h0 s6 y).bind fun s7 =>
                        some (s7, y)

/-- `Tree::balance`: the state afterwards and the node returned. -/
def balance (fuel : Nat) (h0 : Int) (s : State K V) (node : Nat) : Option (State K V × Nat) :=
  if node = 0 then some (s, node)
  else
    (get_balance_factor fuel s node).bind fun balance_factor =>
      if balance_factor > 1 then
        (getLeft s node).bind fun l =>
          (get_balance_factor fuel s l).bind fun bl =>
            if bl ≥ 0 then rotate_right s node
            else
              (rotate_left h0 s l).bind fun res =>
                (setLeft res.1 node res.2).bind fun s1 => rotate_right s1 node
      else if balance_factor < -1 then
        (getRight s node).bind fun r =>
          (get_balance_factor fuel s r).bind fun br =>
            if br ≤ 0 then rotate_left h0 s node
            else
              (rotate_right s r).bind fun res =>
                (setRight res.1 node res.2).bind fun s1 => rotate_left h0 s1 node
      else some (s, node)

/-- `Tree::rebalance_path` on the stack `path` (top first): each node is balanced and the
result stored in the child slot of the next entry that held the node; the result for the
last entry is `new_root`, which is stored in `fake_root->left` with
`new_root->parent = fake_root`. `none` in the result is `nullptr`, for an empty stack. -/
def rebalance_path (fuel : Nat) (h0 : Int) :
    State K V → List Nat → Option (State K V × Option Nat)
  | s, [] => some (s, none)
  | s, [node] =>
    (balance fuel h0 s node).bind fun res =>
      (setLeft res.1 0 res.2).bind fun s1 =>
        (setParent s1 res.2 0).bind fun s2 => some (s2, some res.2)
  | s, node :: parent_node :: rest =>
    (balance fuel h0 s node).bind fun res =>
      (getLeft res.1 parent_node).bind fun pl =>
        (if pl = node then setLeft res.1 parent_node res.2
          else setRight res.1 parent_node res.2).bind fun s1 =>
          rebalance_path fuel h0 s1 (parent_node :: rest)

/-- The `while (current != fake_root)` loop of `push`: `some (parent, path)` when the
sentinel is reached, `none` inside when an equivalent key is met. -/
def descend (comp : K → K → Bool) (key : K) (s : State K V) :
    Nat → Nat → Nat → List Nat → Option (Option (Nat × List Nat))
  | 0, _, _, _ => none
  | fuel + 1, current, parent, path =>
    if current = 0 then some (some (parent, path))
    else
      (cell s current).bind fun c =>
        if comp key c.key then descend comp key s fuel c.left current (current :: path)
        else if comp c.key key then descend comp key s fuel c.right current (current :: path)
        else some none

/-- Modelled from the spec: `new NodeType(key, value, parent)`; `node.hpp` is not among the
sources. The node gets the address `fresh`, both child slots absent (the sentinel), the
third argument as `parent` (spec §4.2) and the height `h0`. -/
def newNode (h0 : Int) (s : State K V) (key : K) (value : V) (parent : Nat) : State K V :=
  ⟨(s.fresh, ⟨0, 0, parent, key, value, h0⟩) :: s.cells, s.rootLink, s.maxLink, s.size_,
    s.fresh + 1⟩

/-- `Tree::push`. -/
def push (fuel : Nat) (h0 : Int) (comp : K → K → Bool) (s : State K V) (key : K) (value : V) :
    Option (State K V) :=
  if s.rootLink = 0 then
    some ⟨(s.fresh, ⟨0, 0, 0, key, value, h0⟩) :: s.cells, s.fresh, s.fresh, s.size_ + 1,
      s.fresh + 1⟩
  else
    (descend comp key s fuel s.rootLink 0 []).bind fun found =>
      match found with
      | none => some s
      | some (parent, path) =>
        (cell s parent).bind fun pc =>
          (if comp key pc.key then setLeft (newNode h0 s key value parent) parent s.fresh
            else setRight (newNode h0 s key value parent) parent s.fresh).bind fun s1 =>
            (rebalance_path fuel h0 s1 (s.fresh :: path)).bind fun res =>
              some ⟨res.1.cells, res.1.rootLink, res.1.maxLink, res.1.size_ + 1, res.1.fresh⟩

/-- The walk of `Tree::find_NodeType`; 0 stands for the `nullptr` it returns when the key is
not met. -/
def find_NodeType (comp : K → K → Bool) (key : K) (s : State K V) : Nat → Nat → Option Nat
  | 0, _ => none
  | fuel + 1, current =>
    if current = 0 then some 0
    else
      (cell s current).bind fun c =>
        if comp key c.key then find_NodeType comp key s fuel c.left
        else if comp c.key key then find_NodeType comp key s fuel c.right
        else some current

/-- `Tree::find`: the address of the node the iterator designates, 0 (the sentinel) for
`end()`. -/
def find (fuel : Nat) (comp : K → K → Bool) (s : State K V) (key : K) : Option Nat :=
  find_NodeType comp key s fuel s.rootLink

/-- The loop `while (min_right->left != fake_root) min_right = min_right->left;`. -/
def leftmost (s : State K V) : Nat → Nat → Option Nat
  | 0, _ => none
  | fuel + 1, a =>
    (getLeft s a).bind fun l => if l = 0 then some a else leftmost s fuel l

/-- The end of `erase`: `rebalance_path(path)`, the root links, `delete`, `size_--`,
`return iterator(parent)`. -/
def eraseFinish (fuel : Nat) (h0 : Int) (s : State K V) (parent victim : Nat) :
    Option (State K V × Nat) :=
  (rebalance_path fuel h0 s [parent]).bind fun res =>
    (match res.2 with
      | none => some res.1
      | some new_root =>
        (setLeft res.1 0 new_root).bind fun s1 => setParent s1 new_root 0).bind fun s2 =>
      some (⟨s2.cells.filter fun e => e.1 != victim, s2.rootLink, s2.maxLink, s2.size_ - 1,
        s2.fresh⟩, parent)

/-- `Tree::erase(iterator pos)`: the state afterwards and the node the iterator returned
designates. Modelled from the spec: an iterator holds the address of the node it designates
(`pos.node`, `pos.current`; `iterator.hpp` is not among the sources), 0 for `end()`. The
node need not be reachable from the root: it only has to be live. -/
def erase (fuel : Nat) (h0 : Int) (s : State K V) (pos : Nat) : Option (State K V × Nat) :=
  if pos = 0 then some (s, 0)
  else
    (cell s pos).bind fun c =>
      if c.left = 0 ∧ c.right = 0 then
        (getLeft s c.parent).bind fun pl =>
          (if pl = pos then setLeft s c.parent 0 else setRight s c.parent 0).bind fun s1 =>
            eraseFinish fuel h0 s1 c.parent pos
      else if c.left = 0 ∨ c.right = 0 then
        (getLeft s c.parent).bind fun pl =>
          (if pl = pos then setLeft s c.parent (if c.left = 0 then c.right else c.left)
            else setRight s c.parent (if c.left = 0 then c.right else c.left)).bind fun s1 =>
            (setParent s1 (if c.left = 0 then c.right else c.left) c.parent).bind fun s2 =>
              eraseFinish fuel h0 s2 c.parent pos
      else
        (leftmost s fuel c.right).bind fun min_right =>
          (cell s min_right).bind fun m =>
            (modify s pos fun d => ⟨d.left, d.right, d.parent, m.key, m.value, d.height⟩).bind
              fun s1 =>
                (getParent s1 min_right).bind fun parent =>
                  (getLeft s1 parent).bind fun pl =>
                    (if pl = min_right then setLeft s1 parent m.right
                      else setRight s1 parent m.right).bind fun s2 =>
                      (if m.right = 0 then some s2 else setParent s2 m.right parent).bind
                        fun s3 => eraseFinish fuel h0 s3 parent min_right

/-- A call on a `Tree`: `push(key, value)`, `erase(find(key))`, or `erase(it)` with an
iterator obtained earlier that designates the node at the given address. -/
inductive Call (K V : Type) where
  | push (key : K) (value : V) : Call K V
  | eraseFound (key : K) : Call K V
  | eraseAt (it : Nat) : Call K V
deriving DecidableEq, Repr

/-- Run a sequence of calls. -/
def run (fuel : Nat) (h0 : Int) (comp : K → K → Bool) :
    State K V → List (Call K V) → Option (State K V)
  | s, [] => some s
  | s, Call.push k v :: calls =>
      (push fuel h0 comp s k v).bind fun s1 => run fuel h0 comp s1 calls
  | s, Call.eraseFound k :: calls =>
      (find fuel comp s k).bind fun it =>
        (erase fuel h0 s it).bind fun res => run fuel h0 comp res.1 calls
  | s, Call.eraseAt it :: calls =>
      (erase fuel h0 s it).bind fun res => run fuel h0 comp res.1 calls

end Heap

end Averenkov

namespace Smirnov

/-- A subtree of `AvlTree`: `nil` is `nullptr`, `mk` is a `Node< Key, Value >` with its
`left`, `data.first`, `data.second`, `height` and `right` members. The `parent` member is not
stored: it is the node one step up the path. -/
inductive Node (K V : Type) where
  | nil : Node K V
  | mk (left : Node K V) (key : K) (value : V) (height : Int) (right : Node K V) : Node K V
deriving DecidableEq, Repr

/-- The state of an `AvlTree` object: the members `root_` and `size_`. `size_` is a `size_t`
that only changes by `++size`; it is a natural number here: it counts nodes, which cannot
number 2^64. -/
structure AvlTree (K V : Type) where
  root_ : Node K V
  size_ : Nat
deriving DecidableEq, Repr

variable {K V : Type}

/-- Modelled from the spec: the node `new NodeType(key, value)` builds in `addOrGet`; the
tree's `node.hpp` is not among the sources. A fresh node has no children and, as a leaf,
height 1 (spec §3: `height = 1 + max` of the children's heights, an absent child counting
0). -/
def newNode (key : K) (value : V) : Node K V :=
  Node.mk Node.nil key value 1 Node.nil

/-- The default-constructed `AvlTree()`. -/
def AvlTree.empty : AvlTree K V := ⟨Node.nil, 0⟩

/-- `AvlTree::size`. -/
def AvlTree.size (t : AvlTree K V) : Nat := t.size_

/-- In-order sequence of the key-value pairs of a subtree. -/
def Node.toList : Node K V → List (K × V)
  | Node.nil => []
  | Node.mk l k v _ r => l.toList ++ (k, v) :: r.toList

/-- Structural height: 0 for an absent child, one more than the higher child otherwise. -/
def Node.depth : Node K V → Int
  | Node.nil => 0
  | Node.mk l _ _ _ r => 1 + max l.depth r.depth

/-- Every node has children whose structural heights differ by at most 1. -/
def Node.Balanced : Node K V → Prop
  | Node.nil => True
  | Node.mk l _ _ _ r =>
      l.Balanced ∧ r.Balanced ∧ l.depth - r.depth ≤ 1 ∧ r.depth - l.depth ≤ 1

/-- Every stored `height` is `1 + max` of the children's heights, an absent child counting
0; this makes the stored height the structural one. -/
def Node.HeightsOk : Node K V → Prop
  | Node.nil => True
  | Node.mk l _ _ h r => l.HeightsOk ∧ r.HeightsOk ∧ h = 1 + max l.depth r.depth

/-- The `left` link of a node. -/
def Node.left : Node K V → Node K V
  | Node.nil => Node.nil
  | Node.mk l _ _ _ _ => l

/-- The `right` link of a node. -/
def Node.right : Node K V → Node K V
  | Node.nil => Node.nil
  | Node.mk _ _ _ _ r => r

/-- The assignment `node->left = l`. -/
def Node.setLeft : Node K V → Node K V → Node K V
  | Node.nil, _ => Node.nil
  | Node.mk _ k v h r, l => Node.mk l k v h r

/-- The assignment `node->right = r`. -/
def Node.setRight : Node K V → Node K V → Node K V
  | Node.nil, _ => Node.nil
  | Node.mk l k v h _, r => Node.mk l k v h r

/-- `AvlTree::height`: 0 for `nullptr`, the stored `height` otherwise. -/
def height : Node K V → Int
  | Node.nil => 0
  | Node.mk _ _ _ h _ => h

/-- `AvlTree::updateHeight`; `none` is the dereference of `nullptr`. -/
def updateHeight : Node K V → Option (Node K V)
  | Node.nil => none
  | Node.mk l k v _ r =>
      some (Node.mk l k v (if height l > height r then height l + 1 else height r + 1) r)

/-- `AvlTree::getBalanceFactor`; `none` is the dereference of `nullptr`. -/
def getBalanceFactor : Node K V → Option Int
  | Node.nil => none
  | Node.mk l _ _ _ r => some (height l - height r)

/-- `AvlTree::rotateLeft`: `newRoot = node->right` takes the place of `node`, which becomes
its left child; then `updateHeight(node)`, `updateHeight(newRoot)`. `none` when `node` or
`node->right` is `nullptr`. -/
def rotateLeft : Node K V → Option (Node K V)
  | Node.mk l k v h (Node.mk rl rk rv rh rr) =>
      (updateHeight (Node.mk l k v h rl)).bind fun node =>
        updateHeight (Node.mk node rk rv rh rr)
  | _ => none

/-- `AvlTree::rotateRight`, the mirror image of `rotateLeft`. -/
def rotateRight : Node K V → Option (Node K V)
  | Node.mk (Node.mk ll lk lv lh lr) k v h r =>
      (updateHeight (Node.mk lr k v h r)).bind fun node =>
        updateHeight (Node.mk ll lk lv lh node)
  | _ => none

/-- `AvlTree::balance`. -/
def balance (node : Node K V) : Option (Node K V) :=
  (updateHeight node).bind fun node =>
    (getBalanceFactor node).bind fun balanceFactor =>
      if balanceFactor > 1 then
        (getBalanceFactor node.left).bind fun leftFactor =>
          if leftFactor < 0 then
            (rotateLeft node.left).bind fun l => rotateRight (node.setLeft l)
          else rotateRight node
      else if balanceFactor < -1 then
        (getBalanceFactor node.right).bind fun rightFactor =>
          if rightFactor > 0 then
            (rotateRight node.right).bind fun r => rotateLeft (node.setRight r)
          else rotateLeft node
      else some node

/-- `AvlTree::addOrGet`: the new subtree root together with the updated `size`. -/
def addOrGet (comp : K → K → Bool) : Node K V → K → V → Nat → Option (Node K V × Nat)
  | Node.nil, key, value, size => some (newNode key value, size + 1)
  | Node.mk l k v h r, key, value, size =>
    if comp key k then
      (addOrGet comp l key value size).bind fun res =>
        (balance (Node.mk res.1 k v h r)).map fun b => (b, res.2)
    else if comp k key then
      (addOrGet comp r key value size).bind fun res =>
        (balance (Node.mk l k v h res.1)).map fun b => (b, res.2)
    else
      (balance (Node.mk l k value h r)).map fun b => (b, size)

/-- `AvlTree::findNode`: the position of the node found, `none` for `nullptr`. -/
def findNode (comp : K → K → Bool) : Node K V → K → Option Pos
  | Node.nil, _ => none
  | Node.mk l k _ _ r, key =>
    if comp key k then (findNode comp l key).map (Dir.L :: ·)
    else if comp k key then (findNode comp r key).map (Dir.R :: ·)
    else some []

/-- The subtree a position designates, `none` when the path leaves the tree. -/
def Node.subtree : Node K V → Pos → Option (Node K V)
  | n, [] => some n
  | Node.nil, _ :: _ => none
  | Node.mk l _ _ _ _, Dir.L :: p => l.subtree p
  | Node.mk _ _ _ _ r, Dir.R :: p => r.subtree p

/-- The pair stored in the node at a position. -/
def Node.entry (n : Node K V) (p : Pos) : Option (K × V) :=
  match n.subtree p with
  | some (Node.mk _ k v _ _) => some (k, v)
  | _ => none

/-- Write through a reference to the `data.second` of the node at a position. -/
def Node.assign : Node K V → Pos → V → Node K V
  | Node.nil, _, _ => Node.nil
  | Node.mk l k _ h r, [], b => Node.mk l k b h r
  | Node.mk l k v h r, Dir.L :: p, b => Node.mk (l.assign p b) k v h r
  | Node.mk l k v h r, Dir.R :: p, b => Node.mk l k v h (r.assign p b)

/-- The non-const `AvlTree::operator[]`: `addOrGet` with `Value()` (here `dflt`), then
`findNode`; the reference returned is the position of the node found. `none` is the
dereference of a null `node`. -/
def subscript (comp : K → K → Bool) (dflt : V) (t : AvlTree K V) (key : K) :
    Option (AvlTree K V × Pos) :=
  (addOrGet comp t.root_ key dflt t.size_).bind fun res =>
    match findNode comp res.1 key with
    | none => none
    | some p => some (⟨res.1, res.2⟩, p)

/-- `AvlTree::at`: `none` is the `std::out_of_range` exit. -/
def AvlTree.at (comp : K → K → Bool) (t : AvlTree K V) (key : K) : Option V :=
  match findNode comp t.root_ key with
  | none => none
  | some p => (t.root_.entry p).map Prod.snd

/-- A statement using the non-const `operator[]`: the bare call `tree[key];` or the
assignment `tree[key] = value;` through the reference returned. -/
inductive Op (K V : Type) where
  | get (key : K) : Op K V
  | set (key : K) (value : V) : Op K V
deriving DecidableEq, Repr

/-- Run a sequence of `operator[]` statements; `none` when a call dereferences `nullptr`. -/
def run (comp : K → K → Bool) (dflt : V) : AvlTree K V → List (Op K V) → Option (AvlTree K V)
  | t, [] => some t
  | t, Op.get k :: ops =>
      (subscript comp dflt t k).bind fun res => run comp dflt res.1 ops
  | t, Op.set k v :: ops =>
      (subscript comp dflt t k).bind fun res =>
        run comp dflt ⟨res.1.root_.assign res.2 v, res.1.size_⟩ ops

/-- Balance of a subtree can be checked by evaluation. -/
def Node.decBalanced : (n : Node K V) → Decidable n.Balanced
  | Node.nil => isTrue trivial
  | Node.mk l _ _ _ r =>
    match Node.decBalanced l, Node.decBalanced r with
    | isTrue hl, isTrue hr =>
      if h1 : l.depth - r.depth ≤ 1 then
        if h2 : r.depth - l.depth ≤ 1 then isTrue ⟨hl, hr, h1, h2⟩
        else isFalse fun h => h2 h.2.2.2
      else isFalse fun h => h1 h.2.2.1
    | isFalse hl, _ => isFalse fun h => hl h.1
    | _, isFalse hr => isFalse fun h => hr h.2.1

instance (n : Node K V) : Decidable n.Balanced := Node.decBalanced n

/-- Consistency of the stored heights can be checked by evaluation. -/
def Node.decHeightsOk : (n : Node K V) → Decidable n.HeightsOk
  | Node.nil => isTrue trivial
  | Node.mk l _ _ h r =>
    match Node.decHeightsOk l, Node.decHeightsOk r with
    | isTrue hl, isTrue hr =>
      if h1 : h = 1 + max l.depth r.depth then isTrue ⟨hl, hr, h1⟩
      else isFalse fun hh => h1 hh.2.2
    | isFalse hl, _ => isFalse fun hh => hl hh.1
    | _, isFalse hr => isFalse fun hh => hr hh.2.1

instance (n : Node K V) : Decidable n.HeightsOk := Node.decHeightsOk n

end Smirnov

namespace Smirnov

variable {K V : Type}

/-- `AvlTree::find`: a const iterator on the node `findNode` gives, `none` being `cend()`. -/
def find (comp : K → K → Bool) (t : AvlTree K V) (key : K) : Option Pos :=
  findNode comp t.root_ key

/-- The const overload of `AvlTree::at`: the same body as the mutable one. -/
def AvlTree.at_const (comp : K → K → Bool) (t : AvlTree K V) (key : K) : Option V :=
  match findNode comp t.root_ key with
  | none => none
  | some p => (t.root_.entry p).map Prod.snd

/-- The const `AvlTree::operator[]`: `findNode`, `std::out_of_range` (`none`) for a null
node, the stored value otherwise. -/
def AvlTree.subscript_const (comp : K → K → Bool) (t : AvlTree K V) (key : K) : Option V :=
  match findNode comp t.root_ key with
  | none => none
  | some p => (t.root_.entry p).map Prod.snd

end Smirnov

namespace Smirnov

variable {K V : Type}

/-- The shape, keys and stored heights of a subtree: values blanked. -/
def Node.skeleton : Node K V → Node K Unit
  | Node.nil => Node.nil
  | Node.mk l k _ h r => Node.mk l.skeleton k () h r.skeleton

/-- The key a statement applies `operator[]` to. -/
def Op.key : Op K V → K
  | Op.get k => k
  | Op.set k _ => k

/-- The statement `t[k];` for `none`, `t[k] = v;` for `some v`. -/
def subscriptStmt (k : K) : Option V → Op K V
  | none => Op.get k
  | some v => Op.set k v

/-- Modelled from the spec: the traversal `for (it = other.cbegin(); it != other.cend();
++it)` of the copy operations; `constIterator.hpp` is not among the sources. By spec §4.5 it
visits the pairs in in-order. Each visit runs `operator[](it->first) = it->second` on the
tree under construction. -/
def copy_ops (other : AvlTree K V) : List (Op K V) :=
  other.root_.toList.map fun kv => Op.set kv.1 kv.2

/-- The copy constructor `AvlTree(const AvlTree& other)`: from `root_ = nullptr`, `size_ = 0`
run the statements of `copy_ops`. `other` is a reference to const, read only through
`cbegin`, `cend` and the iterator. The pair is the new tree and `other` afterwards. -/
def copy_construct (comp : K → K → Bool) (dflt : V) (other : AvlTree K V) :
    Option (AvlTree K V × AvlTree K V) :=
  (run comp dflt ⟨Node.nil, 0⟩ (copy_ops other)).map fun c => (c, other)

/-- The copy assignment `operator=(const AvlTree& other)` to a different object (on the
object itself the guard `this != std::addressof(other)` skips the body): `clear()`, which
leaves `root_ = nullptr`, `size_ = 0` whatever the object held, then the statements of
`copy_ops`. The pair is the assigned tree and `other` afterwards. -/
def copy_assign (comp : K → K → Bool) (dflt : V) (_self other : AvlTree K V) :
    Option (AvlTree K V × AvlTree K V) :=
  (run comp dflt ⟨Node.nil, 0⟩ (copy_ops other)).map fun c => (c, other)

/-- The move constructor `AvlTree(AvlTree&& other)`: the new tree takes `other.root_` and
`other.size_`; `other` is left with `root_ = nullptr`, `size_ = 0`. The pair is the new tree
and `other` afterwards. -/
def move_construct (other : AvlTree K V) : AvlTree K V × AvlTree K V :=
  (⟨other.root_, other.size_⟩, ⟨Node.nil, 0⟩)

/-- `AvlTree::minNode`: `nullptr` (`none`) for `nullptr`, else the position reached by
following `left` links while they are not null. -/
def minNode : Node K V → Option Pos
  | Node.nil => none
  | Node.mk Node.nil _ _ _ _ => some []
  | Node.mk (Node.mk a b c d e) _ _ _ _ =>
      (minNode (Node.mk a b c d e)).map (Dir.L :: ·)

/-- `AvlTree::cbegin`: `const_iterator(minNode(root_))`; `none` is the iterator on `nullptr`,
which is `cend()`. -/
def AvlTree.cbegin (t : AvlTree K V) : Option Pos := minNode t.root_

/-- `AvlTree::empty()`: `size_ == 0`. -/
def AvlTree.isEmpty (t : AvlTree K V) : Bool := t.size_ == 0

/-- Every stored `height` is `1 + max(height(left), height(right))`, where `height` reads the
stored field of a child and gives 0 for `nullptr`. -/
def Node.StoredOk : Node K V → Prop
  | Node.nil => True
  | Node.mk l _ _ h r => l.StoredOk ∧ r.StoredOk ∧ h = 1 + max (height l) (height r)

/-- Consistency of the stored heights with each other can be checked by evaluation. -/
def Node.decStoredOk : (n : Node K V) → Decidable n.StoredOk
  | Node.nil => isTrue trivial
  | Node.mk l _ _ h r =>
    match Node.decStoredOk l, Node.decStoredOk r with
    | isTrue hl, isTrue hr =>
      if h1 : h = 1 + max (height l) (height r) then isTrue ⟨hl, hr, h1⟩
      else isFalse fun hh => h1 hh.2.2
    | isFalse hl, _ => isFalse fun hh => hl hh.1
    | _, isFalse hr => isFalse fun hh => hr hh.2.1

instance (n : Node K V) : Decidable n.StoredOk := Node.decStoredOk n

end Smirnov

namespace Averenkov

namespace S2

/-- The largest `long long`, `LLONG_MAX` of `<climits>` on a 64-bit two's complement target. -/
def LLONG_MAX : Int := 9223372036854775807

/-- The smallest `long long`, `LLONG_MIN`. -/
def LLONG_MIN : Int := -9223372036854775808

/-- The `long long` a machine addition or subtraction leaves when the exact result is `x`:
`x` reduced modulo `2^64` into `[LLONG_MIN, LLONG_MAX]`. It is `x` itself when `x` is in
range; out of range the C++ operation is undefined and the usual targets wrap. -/
def wrap (x : Int) : Int := (x - LLONG_MIN) % 2 ^ 64 + LLONG_MIN

/-- The `long long` division `a / b`: the quotient truncated toward zero; `none` for a
division by zero and for `LLONG_MIN / -1`, whose quotient is not a `long long`. -/
def div (a b : Int) : Option Int :=
  if b = 0 ∨ (a = LLONG_MIN ∧ b = -1) then none else some (Int.tdiv a b)

/-- The function `isOverflow(a, b)` of `main.cpp`; `none` when one of its divisions is a
division by zero or `LLONG_MIN / -1`. -/
def isOverflow (a b : Int) : Option Bool :=
  if a = 0 ∨ b = 0 then some false
  else if a > 0 then
    if b > 0 then (div LLONG_MAX b).map fun q => decide (a > q)
    else (div LLONG_MIN a).map fun q => decide (b < q)
  else
    if b > 0 then (div LLONG_MIN b).map fun q => decide (a < q)
    else (div LLONG_MAX b).map fun q => decide (a < q)

/-- The arm `case '+':` of the switch in `evaluatePostfix`, on the operands `a` and `b`
popped from the stack: `none` is `throw std::runtime_error("Overflow error")`, `some r` is
the `result` that is pushed. The guard is evaluated left to right, so `LLONG_MAX - b` is
computed for `b > 0` only and is exact. -/
def addStep (a b : Int) : Option Int :=
  if a > 0 ∧ b > 0 ∧ a > LLONG_MAX - b then none else some (wrap (a + b))

/-- The arm `case '-':` of the switch in `evaluatePostfix`: `LLONG_MIN + b` is computed for
`b > 0` only and is exact. -/
def subStep (a b : Int) : Option Int :=
  if b > 0 ∧ a < LLONG_MIN + b then none else some (wrap (a - b))

/-- A value is a `long long`. -/
def InRange (x : Int) : Prop := LLONG_MIN ≤ x ∧ x ≤ LLONG_MAX

end S2

end Averenkov

section ListLemmas
variable {K V : Type}

theorem StrictWeakOrder.asymm {comp : K → K → Bool} (hc : StrictWeakOrder comp) (a b : K)
    (h : comp a b = true) : comp b a = false := by
  cases hba : comp b a with
  | false => rfl
  | true =>
    have := hc.trans a b a h hba
    rw [hc.irrefl] at this
    exact absurd this (by decide)

theorem mem_insertSorted (comp : K → K → Bool) (k : K) (v : V) (l : List (K × V))
    (x : K × V) : x ∈ insertSorted comp k v l ↔ x = (k, v) ∨ x ∈ l := by
  induction l with
  | nil => simp [insertSorted]
  | cons e es ih =>
    simp only [insertSorted]
    split_ifs
    · simp
    · simp only [List.mem_cons, ih]; tauto

theorem insertSorted_append_left (comp : K → K → Bool) (k : K) (v : V) (A B : List (K × V))
    (d : K × V) (h : comp k d.1 = true) :
    insertSorted comp k v (A ++ d :: B) = insertSorted comp k v A ++ d :: B := by
  induction A with
  | nil => simp [insertSorted, h]
  | cons a A ih =>
    rw [List.cons_append, insertSorted, insertSorted]
    split_ifs
    · rfl
    · rw [ih]; rfl

theorem insertSorted_append_right (comp : K → K → Bool) (k : K) (v : V) (A B : List (K × V))
    (d : K × V) (hA : ∀ a ∈ A, comp k a.1 = false) (h : comp k d.1 = false) :
    insertSorted comp k v (A ++ d :: B) = A ++ d :: insertSorted comp k v B := by
  induction A with
  | nil => simp [insertSorted, h]
  | cons a A ih =>
    have ha : comp k a.1 = false := hA a (List.mem_cons_self _ _)
    rw [List.cons_append, insertSorted, ih (fun x hx => hA x (List.mem_cons_of_mem _ hx))]
    simp [ha]

theorem insertSorted_ascending {comp : K → K → Bool} (hc : StrictWeakOrder comp) (k : K) (v : V)
    (l : List (K × V)) (hl : Ascending comp l)
    (hk : ∀ e ∈ l, keyEquiv comp k e.1 = false) :
    Ascending comp (insertSorted comp k v l) := by
  induction l with
  | nil => simp [insertSorted, Ascending]
  | cons e es ih =>
    unfold Ascending at hl ih ⊢
    rw [List.pairwise_cons] at hl
    simp only [insertSorted]
    split_ifs with h1
    · rw [List.pairwise_cons]
      refine ⟨?_, List.pairwise_cons.2 hl⟩
      intro x hx
      rcases List.mem_cons.1 hx with rfl | hx
      · exact h1
      · exact hc.trans _ _ _ h1 (hl.1 x hx)
    · rw [List.pairwise_cons]
      refine ⟨?_, ih hl.2 (fun x hx => hk x (List.mem_cons_of_mem _ hx))⟩
      intro x hx
      rcases (mem_insertSorted comp k v es x).1 hx with rfl | hx
      · have := hk e (List.mem_cons_self _ _)
        simp only [keyEquiv] at this
        cases hek : comp e.1 k with
        | true => rfl
        | false => simp [hek, h1] at this
      · exact hl.1 x hx

end ListLemmas

theorem natLess_strictWeakOrder : StrictWeakOrder natLess := by
  constructor
  · intro a; simp [natLess]
  · intro a b c; simp only [natLess, decide_eq_true_eq]; omega
  · intro a b c; simp only [natLess, decide_eq_false_iff_not]; omega

theorem ascending_equiv_unique {K V : Type} {comp : K → K → Bool} (l : List (K × V))
    (hl : Ascending comp l) (x y : K × V) (hx : x ∈ l) (hy : y ∈ l)
    (he : keyEquiv comp x.1 y.1 = true) : x = y := by
  simp only [keyEquiv, Bool.and_eq_true, Bool.not_eq_true'] at he
  induction l with
  | nil => cases hx
  | cons a l ih =>
    unfold Ascending at hl ih
    rw [List.pairwise_cons] at hl
    rcases List.mem_cons.1 hx with rfl | hx' <;> rcases List.mem_cons.1 hy with rfl | hy'
    · rfl
    · have := hl.1 y hy'; simp [he.1] at this
    · have := hl.1 x hx'; simp [he.2] at this
    · exact ih hl.2 hx' hy'

theorem keyEquiv_refl {K : Type} {comp : K → K → Bool} (hc : StrictWeakOrder comp) (k : K) :
    keyEquiv comp k k = true := by
  simp [keyEquiv, hc.irrefl]

theorem keyEquiv_trans_left {K : Type} {comp : K → K → Bool} (hc : StrictWeakOrder comp)
    (a b c : K) (h1 : keyEquiv comp b a = true) (h2 : keyEquiv comp b c = true) :
    keyEquiv comp a c = true := by
  simp only [keyEquiv, Bool.and_eq_true, Bool.not_eq_true'] at h1 h2 ⊢
  exact hc.equiv_trans a b c h1.2 h1.1 h2.1 h2.2

namespace Averenkov
variable {K V : Type}

theorem get_height_ge (t : Node K V) : -1 ≤ get_height t := by
  induction t with
  | nil => simp [get_height]
  | mk l k v h r ihl ihr => simp only [get_height]; omega

theorem rotate_left_toList (h0 : Int) (t t' : Node K V) (h : rotate_left h0 t = some t') :
    t'.toList = t.toList := by
  match t, h with
  | Node.nil, h => simp [rotate_left] at h; subst h; rfl
  | Node.mk xl xk xv xh (Node.mk yl yk yv yh yr), h =>
    simp [rotate_left, update_height] at h; subst h; simp [Node.toList]

theorem rotate_right_toList (t : Node K V) : (rotate_right t).toList = t.toList := by
  unfold rotate_right
  split <;> simp [Node.toList]

theorem balance_toList (h0 : Int) (t t' : Node K V) (h : balance h0 t = some t') :
    t'.toList = t.toList := by
  cases t with
  | nil => simp [balance] at h; subst h; rfl
  | mk l k v ht r =>
    simp only [balance] at h
    split_ifs at h
    · simp at h; subst h; exact rotate_right_toList _
    · simp [Option.bind_eq_some] at h
      obtain ⟨l', hl', rfl⟩ := h
      rw [rotate_right_toList]
      simp [Node.toList, rotate_left_toList h0 l l' hl']
    · exact rotate_left_toList h0 _ _ h
    · rw [rotate_left_toList h0 _ _ h]
      simp [Node.toList, rotate_right_toList]
    · simp at h; subst h; rfl

theorem balance_isSome (h0 : Int) (t : Node K V) : ∃ t', balance h0 t = some t' := by
  cases t with
  | nil => exact ⟨_, rfl⟩
  | mk l k v ht r =>
    simp only [balance]
    split_ifs with h1 h2 h3 h4
    · exact ⟨_, rfl⟩
    · -- left-right case: l has a right child
      match l, h1, h2 with
      | Node.mk ll lk lv lh (Node.mk a b c d e), _, _ => exact ⟨_, rfl⟩
      | Node.mk ll lk lv lh Node.nil, _, h2 =>
        exfalso; simp [get_balance_factor, get_height] at h2
        have := get_height_ge ll; omega
      | Node.nil, h1, _ =>
        exfalso; simp [get_balance_factor, get_height] at h1
        have := get_height_ge r; omega
    · match r, h3 with
      | Node.mk a b c d e, _ => exact ⟨_, rfl⟩
      | Node.nil, h3 =>
        exfalso; simp [get_balance_factor, get_height] at h3
        have := get_height_ge l; omega
    · match r, h3, h4 with
      | Node.mk (Node.mk a1 b1 c1 d1 e1) b c d e, _, _ => exact ⟨_, rfl⟩
      | Node.mk Node.nil b c d e, _, h4 =>
        exfalso; simp [get_balance_factor, get_height] at h4
        have := get_height_ge e; omega
      | Node.nil, h3, _ =>
        exfalso; simp [get_balance_factor, get_height] at h3
        have := get_height_ge l; omega
    · exact ⟨_, rfl⟩

theorem balance_balanced (h0 : Int) (l r : Node K V) (k : K) (v : V) (h : Int)
    (hl : l.Balanced) (hr : r.Balanced)
    (h2 : get_height l - get_height r ≤ 2) (h2' : get_height r - get_height l ≤ 2)
    (t' : Node K V) (hb : balance h0 (Node.mk l k v h r) = some t') :
    t'.Balanced ∧ get_height t' ≤ 1 + max (get_height l) (get_height r) ∧
      max (get_height l) (get_height r) ≤ get_height t' ∧
      (get_height l - get_height r ≤ 1 → get_height r - get_height l ≤ 1 →
        get_height t' = 1 + max (get_height l) (get_height r)) := by
  simp only [balance] at hb
  split_ifs at hb with h1 h3 h4 h5
  · match l, hl, h1, h3, h2, h2', hb with
    | Node.mk ll lk lv lh lr, hl, h1, h3, h2, h2', hb =>
      simp [rotate_right] at hb; subst hb
      simp only [Node.Balanced, get_height, get_balance_factor] at hl h1 h3 h2 h2' ⊢
      obtain ⟨b1, b2, b3, b4⟩ := hl
      have := get_height_ge ll; have := get_height_ge lr; have := get_height_ge r
      refine ⟨⟨b1, ⟨b2, hr, ?_, ?_⟩, ?_, ?_⟩, ?_, ?_, ?_⟩ <;> intros <;> omega
    | Node.nil, _, h1, _, _, _, _ =>
      exfalso; simp [get_balance_factor, get_height] at h1
      have := get_height_ge r; omega
  · match l, hl, h1, h3, h2, h2', hb with
    | Node.mk ll lk lv lh (Node.mk a b c d e), hl, h1, h3, h2, h2', hb =>
      simp [rotate_right, rotate_left, update_height] at hb; subst hb
      simp only [Node.Balanced, get_height, get_balance_factor] at hl h1 h3 h2 h2' ⊢
      obtain ⟨b1, ⟨c1, c2, c3, c4⟩, b3, b4⟩ := hl
      have := get_height_ge ll; have := get_height_ge a; have := get_height_ge e
      have := get_height_ge r
      refine ⟨⟨⟨b1, c1, ?_, ?_⟩, ⟨c2, hr, ?_, ?_⟩, ?_, ?_⟩, ?_, ?_, ?_⟩ <;> intros <;> omega
    | Node.mk ll lk lv lh Node.nil, _, _, h3, _, _, _ =>
      exfalso; simp [get_balance_factor, get_height] at h3
      have := get_height_ge ll; omega
    | Node.nil, _, h1, _, _, _, _ =>
      exfalso; simp [get_balance_factor, get_height] at h1
      have := get_height_ge r; omega
  · match r, hr, h1, h4, h5, h2, h2', hb with
    | Node.mk rl rk rv rh rr, hr, h1, h4, h5, h2, h2', hb =>
      simp [rotate_left, update_height] at hb; subst hb
      simp only [Node.Balanced, get_height, get_balance_factor] at hr h1 h4 h5 h2 h2' ⊢
      obtain ⟨b1, b2, b3, b4⟩ := hr
      have := get_height_ge rl; have := get_height_ge rr; have := get_height_ge l
      refine ⟨⟨⟨hl, b1, ?_, ?_⟩, b2, ?_, ?_⟩, ?_, ?_, ?_⟩ <;> intros <;> omega
    | Node.nil, _, _, h4, _, _, _, _ =>
      exfalso; simp [get_balance_factor, get_height] at h4
      have := get_height_ge l; omega
  · match r, hr, h1, h4, h5, h2, h2', hb with
    | Node.mk (Node.mk a b c d e) rk rv rh rr, hr, h1, h4, h5, h2, h2', hb =>
      simp [rotate_right, rotate_left, update_height] at hb; subst hb
      simp only [Node.Balanced, get_height, get_balance_factor] at hr h1 h4 h5 h2 h2' ⊢
      obtain ⟨⟨c1, c2, c3, c4⟩, b2, b3, b4⟩ := hr
      have := get_height_ge a; have := get_height_ge e; have := get_height_ge rr
      have := get_height_ge l
      refine ⟨⟨⟨hl, c1, ?_, ?_⟩, ⟨c2, b2, ?_, ?_⟩, ?_, ?_⟩, ?_, ?_, ?_⟩ <;> intros <;> omega
    | Node.mk Node.nil rk rv rh rr, _, _, _, h5, _, _, _ =>
      exfalso; simp [get_balance_factor, get_height] at h5
      have := get_height_ge rr; omega
    | Node.nil, _, _, h4, _, _, _, _ =>
      exfalso; simp [get_balance_factor, get_height] at h4
      have := get_height_ge l; omega
  · simp at hb; subst hb
    simp only [Node.Balanced, get_height, get_balance_factor] at h1 h4 ⊢
    refine ⟨⟨hl, hr, ?_, ?_⟩, ?_, ?_, ?_⟩ <;> intros <;> first | omega | trivial

theorem rebalance_path_eq (h0 : Int) (n : Node K V) (path : List (Frame K V)) :
    rebalance_path h0 n path = (balance h0 n).bind fun b => rebalance_up h0 b path := by
  induction path generalizing n with
  | nil => simp [rebalance_path, rebalance_up]
  | cons f rest ih =>
    simp only [rebalance_path, rebalance_up]
    congr 1
    funext b
    exact ih _

theorem descend_rebalance (h0 : Int) (comp : K → K → Bool) (key : K) (value : V)
    (t : Node K V) (path path' : List (Frame K V))
    (hd : descend comp key t path = some path') :
    rebalance_path h0 (newNode h0 key value) path' =
      (pushRec h0 comp key value t).bind fun b => rebalance_up h0 b path := by
  induction t generalizing path with
  | nil =>
    simp only [descend, Option.some.injEq] at hd
    subst hd
    rw [rebalance_path_eq]; rfl
  | mk l k v h r ihl ihr =>
    simp only [descend] at hd
    simp only [pushRec]
    split_ifs at hd ⊢ with h1 h2
    · rw [ihl _ hd, Option.bind_assoc]; rfl
    · rw [ihr _ hd, Option.bind_assoc]; rfl

theorem descend_none_iff (comp : K → K → Bool) (key : K) (t : Node K V)
    (path : List (Frame K V)) :
    descend comp key t path = none ↔ (find_NodeType comp key t).isSome = true := by
  induction t generalizing path with
  | nil => simp [descend, find_NodeType]
  | mk l k v h r ihl ihr =>
    simp only [descend, find_NodeType]
    split_ifs with h1 h2
    · simp [ihl]
    · simp [ihr]
    · simp

theorem pushRec_isSome (h0 : Int) (comp : K → K → Bool) (key : K) (value : V)
    (t : Node K V) (hf : find_NodeType comp key t = none) :
    ∃ t', pushRec h0 comp key value t = some t' := by
  induction t with
  | nil => exact balance_isSome h0 _
  | mk l k v h r ihl ihr =>
    simp only [find_NodeType] at hf
    simp only [pushRec]
    split_ifs at hf ⊢ with h1 h2
    · obtain ⟨l', hl'⟩ := ihl (by simpa using hf)
      rw [hl']; exact balance_isSome h0 (Node.mk l' k v h r)
    · obtain ⟨r', hr'⟩ := ihr (by simpa using hf)
      rw [hr']; exact balance_isSome h0 (Node.mk l k v h r')

/-- What `push` does, in terms of `find_NodeType` and `pushRec`. -/
theorem push_eq (h0 : Int) (comp : K → K → Bool) (t : Tree K V) (key : K) (value : V) :
    push h0 comp t key value =
      match find_NodeType comp key t.root with
      | some _ => some t
      | none => (pushRec h0 comp key value t.root).bind fun b => some ⟨b, t.size_ + 1⟩ := by
  obtain ⟨root, sz⟩ := t
  cases root with
  | nil =>
    simp [push, find_NodeType, pushRec, balance, newNode, get_balance_factor, get_height]
  | mk l k v h r =>
    simp only [push]
    cases hd : descend comp key (Node.mk l k v h r) [] with
    | none =>
      have := (descend_none_iff comp key _ _).1 hd
      cases hf : find_NodeType comp key (Node.mk l k v h r) with
      | none => simp [hf] at this
      | some p => rfl
    | some path =>
      have hne : ¬ (find_NodeType comp key (Node.mk l k v h r)).isSome = true := by
        rw [← descend_none_iff comp key _ []]; simp [hd]
      cases hf : find_NodeType comp key (Node.mk l k v h r) with
      | some p => simp [hf] at hne
      | none =>
        simp only
        rw [descend_rebalance h0 comp key value _ [] path hd]
        obtain ⟨b, hb⟩ := pushRec_isSome h0 comp key value _ hf
        simp [hb, rebalance_up]

theorem find_NodeType_entry (comp : K → K → Bool) (key : K) (t : Node K V) (p : Pos)
    (hf : find_NodeType comp key t = some p) :
    ∃ k v, t.entry p = some (k, v) ∧ (k, v) ∈ t.toList ∧ keyEquiv comp key k = true := by
  induction t generalizing p with
  | nil => simp [find_NodeType] at hf
  | mk l k v h r ihl ihr =>
    simp only [find_NodeType] at hf
    split_ifs at hf with h1 h2
    · simp only [Option.map_eq_some'] at hf
      obtain ⟨q, hq, rfl⟩ := hf
      obtain ⟨k', v', he, hm, hk⟩ := ihl q hq
      refine ⟨k', v', ?_, ?_, hk⟩
      · simpa [Node.entry, Node.subtree] using he
      · simp [Node.toList, hm]
    · simp only [Option.map_eq_some'] at hf
      obtain ⟨q, hq, rfl⟩ := hf
      obtain ⟨k', v', he, hm, hk⟩ := ihr q hq
      refine ⟨k', v', ?_, ?_, hk⟩
      · simpa [Node.entry, Node.subtree] using he
      · simp [Node.toList, hm]
    · simp only [Option.some.injEq] at hf
      subst hf
      refine ⟨k, v, by simp [Node.entry, Node.subtree], by simp [Node.toList], ?_⟩
      simp only [Bool.not_eq_true] at h1 h2
      simp [keyEquiv, h1, h2]

theorem find_NodeType_of_equiv {comp : K → K → Bool} (hc : StrictWeakOrder comp) (key : K)
    (t : Node K V) (ht : Ascending comp t.toList) (e : K × V) (he : e ∈ t.toList)
    (hk : keyEquiv comp key e.1 = true) : ∃ p, find_NodeType comp key t = some p := by
  induction t with
  | nil => simp [Node.toList] at he
  | mk l k v h r ihl ihr =>
    simp only [keyEquiv, Bool.and_eq_true, Bool.not_eq_true'] at hk
    unfold Ascending at ht ihl ihr
    simp only [Node.toList, List.pairwise_append, List.pairwise_cons, List.mem_cons] at ht
    simp only [Node.toList, List.mem_append, List.mem_cons] at he
    simp only [find_NodeType]
    split_ifs with h1 h2
    · rcases he with he | rfl | he
      · obtain ⟨p, hp⟩ := ihl ht.1 he
        exact ⟨_, by rw [hp]; rfl⟩
      · simp [hk.1] at h1
      · have := hc.trans _ _ _ h1 (ht.2.1.1 e he)
        simp [hk.1] at this
    · rcases he with he | rfl | he
      · have := hc.trans _ _ _ (ht.2.2 e he (k, v) (Or.inl rfl)) h2
        simp [hk.2] at this
      · simp [hk.2] at h2
      · obtain ⟨p, hp⟩ := ihr ht.2.1.2 he
        exact ⟨_, by rw [hp]; rfl⟩
    · exact ⟨_, rfl⟩

theorem pushRec_toList {comp : K → K → Bool} (hc : StrictWeakOrder comp) (h0 : Int) (key : K)
    (value : V) (t t' : Node K V) (ht : Ascending comp t.toList)
    (hf : find_NodeType comp key t = none) (hp : pushRec h0 comp key value t = some t') :
    t'.toList = insertSorted comp key value t.toList := by
  induction t generalizing t' with
  | nil =>
    simp only [pushRec] at hp
    rw [balance_toList h0 _ _ hp]
    simp [newNode, Node.toList, insertSorted]
  | mk l k v h r ihl ihr =>
    unfold Ascending at ht ihl ihr
    simp only [Node.toList, List.pairwise_append, List.pairwise_cons, List.mem_cons] at ht
    simp only [find_NodeType] at hf
    simp only [pushRec] at hp
    split_ifs at hf hp with h1 h2
    · simp only [Option.map_eq_none'] at hf
      simp only [Option.bind_eq_some] at hp
      obtain ⟨l', hl', hb⟩ := hp
      rw [balance_toList h0 _ _ hb]
      simp only [Node.toList]
      rw [ihl l' ht.1 hf hl', insertSorted_append_left comp key value _ _ (k, v) h1]
    · simp only [Option.map_eq_none'] at hf
      simp only [Option.bind_eq_some] at hp
      obtain ⟨r', hr', hb⟩ := hp
      rw [balance_toList h0 _ _ hb]
      simp only [Node.toList]
      rw [ihr r' ht.2.1.2 hf hr', insertSorted_append_right comp key value _ _ (k, v)]
      · intro a ha
        exact hc.asymm _ _ (hc.trans _ _ _ (ht.2.2 a ha (k, v) (Or.inl rfl)) h2)
      · simpa using h1

theorem pushRec_balanced (h0 : Int) (comp : K → K → Bool) (key : K) (value : V)
    (t t' : Node K V) (ht : t.Balanced) (hp : pushRec h0 comp key value t = some t') :
    t'.Balanced ∧ get_height t ≤ get_height t' ∧ get_height t' ≤ get_height t + 1 := by
  induction t generalizing t' with
  | nil =>
    simp [pushRec, balance, newNode, get_balance_factor, get_height] at hp
    subst hp
    simp [Node.Balanced, get_height]
  | mk l k v h r ihl ihr =>
    simp only [Node.Balanced] at ht
    obtain ⟨bl, br, d1, d2⟩ := ht
    simp only [pushRec] at hp
    split_ifs at hp with h1 h2
    · simp only [Option.bind_eq_some] at hp
      obtain ⟨l', hl', hb⟩ := hp
      obtain ⟨bl', g1, g2⟩ := ihl l' bl hl'
      obtain ⟨b', e1, e2, e3⟩ := balance_balanced h0 l' r k v h bl' br (by omega) (by omega) t' hb
      refine ⟨b', ?_, ?_⟩
      · simp only [get_height]
        by_cases hd : get_height l' - get_height r ≤ 1
        · have := e3 hd (by omega); omega
        · omega
      · simp only [get_height]; omega
    · simp only [Option.bind_eq_some] at hp
      obtain ⟨r', hr', hb⟩ := hp
      obtain ⟨br', g1, g2⟩ := ihr r' br hr'
      obtain ⟨b', e1, e2, e3⟩ := balance_balanced h0 l r' k v h bl br' (by omega) (by omega) t' hb
      refine ⟨b', ?_, ?_⟩
      · simp only [get_height]
        by_cases hd : get_height r' - get_height l ≤ 1
        · have := e3 (by omega) hd; omega
        · omega
      · simp only [get_height]; omega

theorem Node.Balanced.almost {n : Node K V} (h : n.Balanced) : n.AlmostBalanced := by
  cases n with
  | nil => trivial
  | mk l k v ht r =>
    simp only [Node.Balanced] at h
    simp only [Node.AlmostBalanced]
    obtain ⟨a, b, c, d⟩ := h
    exact ⟨a, b, by omega, by omega⟩

theorem subtree_append (n : Node K V) (p q : Pos) :
    n.subtree (p ++ q) = (n.subtree p).bind fun m => m.subtree q := by
  induction p generalizing n with
  | nil => simp [Node.subtree]
  | cons d p ih =>
    cases n with
    | nil => simp [Node.subtree]
    | mk l k v h r =>
      cases d <;> simp [Node.subtree, ih]

theorem subtree_balanced (n m : Node K V) (p : Pos) (h : n.subtree p = some m)
    (hb : n.Balanced) : m.Balanced := by
  induction p generalizing n with
  | nil => simp [Node.subtree] at h; subst h; exact hb
  | cons d p ih =>
    cases n with
    | nil => simp [Node.subtree] at h
    | mk l k v ht r =>
      simp only [Node.Balanced] at hb
      cases d
      · exact ih l (by simpa [Node.subtree] using h) hb.1
      · exact ih r (by simpa [Node.subtree] using h) hb.2.1

theorem subtree_sublist (n m : Node K V) (p : Pos) (h : n.subtree p = some m) :
    m.toList.Sublist n.toList := by
  induction p generalizing n with
  | nil => simp [Node.subtree] at h; subst h; exact List.Sublist.refl _
  | cons d p ih =>
    cases n with
    | nil => simp [Node.subtree] at h
    | mk l k v ht r =>
      cases d
      · exact (ih l (by simpa [Node.subtree] using h)).trans
          (by simp only [Node.toList]; exact List.sublist_append_left _ _)
      · exact (ih r (by simpa [Node.subtree] using h)).trans
          (by simp only [Node.toList]
              exact (List.sublist_cons_self _ _).trans (List.sublist_append_right _ _))

theorem parentOf_some (n : Node K V) (p : Pos) (d : Dir) (P : Node K V)
    (h : n.parentOf p = some (d, P)) :
    n.subtree p.dropLast = some P ∧ n.subtree p = P.subtree [d] := by
  unfold Node.parentOf at h
  cases hl : p.getLast? with
  | none => simp [hl] at h
  | some d' =>
    simp only [hl, Option.map_eq_some', Prod.mk.injEq] at h
    obtain ⟨q, hq, rfl, rfl⟩ := h
    refine ⟨hq, ?_⟩
    have := List.dropLast_append_getLast? d' hl
    conv_lhs => rw [← this]
    rw [subtree_append, hq]; rfl

theorem spliceMin_spec (X P : Node K V) (h : spliceMin X = some P) :
    (X.Balanced → P.AlmostBalanced) ∧ P.toList.Sublist X.toList := by
  induction X generalizing P with
  | nil => simp [spliceMin] at h
  | mk l k v ht r ihl _ =>
    match l, ihl, h with
    | Node.nil, _, h => simp [spliceMin] at h
    | Node.mk Node.nil mk mv mh mr, _, h =>
      simp only [spliceMin, Option.some.injEq] at h
      subst h
      constructor
      · intro hb
        simp only [Node.Balanced, get_height] at hb
        simp only [Node.AlmostBalanced]
        obtain ⟨⟨_, b2, _, _⟩, b3, _, _⟩ := hb
        have := get_height_ge mr
        exact ⟨b2, b3, by omega, by omega⟩
      · simp only [Node.toList, List.nil_append, List.cons_append]
        exact List.sublist_cons_self _ _
    | Node.mk (Node.mk a b c d e) mk mv mh mr, ihl, h =>
      simp only [spliceMin] at h
      obtain ⟨i1, i2⟩ := ihl P h
      constructor
      · intro hb
        simp only [Node.Balanced] at hb
        exact i1 (by simpa only [Node.Balanced] using hb.1)
      · exact i2.trans (by simp only [Node.toList]; exact List.sublist_append_left _ _)

theorem eraseParent_spec (par : Option (Dir × Node K V)) (target parent : Node K V)
    (hpar : ∀ d P, par = some (d, P) → P.subtree [d] = some target)
    (he : eraseParent par target = some parent) :
    ((enclosing par target).Balanced → parent.AlmostBalanced) ∧
      parent.toList.Sublist (enclosing par target).toList := by
  -- the two-children case works inside the target's own subtree
  have lift : ((target.Balanced → parent.AlmostBalanced) ∧ parent.toList.Sublist target.toList) →
      ((enclosing par target).Balanced → parent.AlmostBalanced) ∧
        parent.toList.Sublist (enclosing par target).toList := by
    intro ⟨h1, h2⟩
    match par, hpar with
    | none, _ => exact ⟨h1, h2⟩
    | some (d, P), hpar =>
      have hs := hpar d P rfl
      exact ⟨fun hb => h1 (subtree_balanced P target [d] hs hb),
        h2.trans (subtree_sublist P target [d] hs)⟩
  match target, he, lift, hpar with
  | Node.nil, he, _, _ => simp [eraseParent] at he
  | Node.mk (Node.mk ll lk lv lh lr) k v h (Node.mk Node.nil mk mv mh mr), he, lift, _ =>
    simp only [eraseParent, Option.some.injEq] at he
    subst he
    apply lift
    constructor
    · intro hb
      simp only [Node.Balanced, get_height] at hb
      simp only [Node.AlmostBalanced, Node.Balanced, get_height]
      obtain ⟨b1, ⟨_, b2, _, _⟩, _, _⟩ := hb
      have := get_height_ge mr
      exact ⟨b1, b2, by omega, by omega⟩
    · simp only [Node.toList, List.nil_append]
      exact List.Sublist.append_left (List.sublist_cons_self _ _) _
  | Node.mk (Node.mk ll lk lv lh lr) k v h (Node.mk (Node.mk a b c d e) rk rv rh rr), he, lift, _ =>
    simp only [eraseParent] at he
    apply lift
    obtain ⟨i1, i2⟩ := spliceMin_spec _ _ he
    constructor
    · intro hb
      simp only [Node.Balanced] at hb
      exact i1 (by simpa only [Node.Balanced] using hb.2.1)
    · exact i2.trans (by
        simp only [Node.toList]
        exact (List.sublist_cons_self _ _).trans (List.sublist_append_right _ _))
  | Node.mk Node.nil k v h Node.nil, he, _, hpar =>
    match par, he, hpar with
    | none, he, _ =>
      simp only [eraseParent, Option.some.injEq] at he
      subst he
      exact ⟨fun _ => trivial, List.nil_sublist _⟩
    | some (Dir.L, Node.mk pl pk pv ph pr), he, hpar =>
      have hs := hpar _ _ rfl
      simp only [Node.subtree, Option.some.injEq] at hs
      subst hs
      simp only [eraseParent, Option.some.injEq] at he
      subst he
      simp only [enclosing, Node.Balanced, Node.AlmostBalanced, get_height, Node.toList]
      refine ⟨fun hb => ⟨trivial, hb.2.1, ?_, ?_⟩, ?_⟩
      · have := get_height_ge pr; omega
      · have := hb.2.2; omega
      · simp
    | some (Dir.R, Node.mk pl pk pv ph pr), he, hpar =>
      have hs := hpar _ _ rfl
      simp only [Node.subtree, Option.some.injEq] at hs
      subst hs
      simp only [eraseParent, Option.some.injEq] at he
      subst he
      simp only [enclosing, Node.Balanced, Node.AlmostBalanced, get_height, Node.toList]
      refine ⟨fun hb => ⟨hb.1, trivial, ?_, ?_⟩, ?_⟩
      · have := hb.2.2; omega
      · have := get_height_ge pl; omega
      · simp
    | some (d, Node.nil), he, hpar =>
      cases d <;> simp [eraseParent] at he
  | Node.mk Node.nil k v h (Node.mk cl ck cv ch cr), he, _, hpar =>
    match par, he, hpar with
    | none, he, _ =>
      simp only [eraseParent, Option.some.injEq] at he
      subst he
      exact ⟨fun _ => trivial, List.nil_sublist _⟩
    | some (Dir.L, Node.mk pl pk pv ph pr), he, hpar =>
      have hs := hpar _ _ rfl
      simp only [Node.subtree, Option.some.injEq] at hs
      subst hs
      simp only [eraseParent, Option.some.injEq] at he
      subst he
      simp only [enclosing, Node.Balanced, Node.AlmostBalanced, get_height, Node.toList]
      refine ⟨fun hb => ⟨hb.1.2.1, hb.2.1, ?_, ?_⟩, ?_⟩
      · have := hb.2.2; have := hb.1.2.2; have := get_height_ge cl; have := get_height_ge cr; omega
      · have := hb.2.2; have := hb.1.2.2; have := get_height_ge cl; have := get_height_ge cr; omega
      · simp
    | some (Dir.R, Node.mk pl pk pv ph pr), he, hpar =>
      have hs := hpar _ _ rfl
      simp only [Node.subtree, Option.some.injEq] at hs
      subst hs
      simp only [eraseParent, Option.some.injEq] at he
      subst he
      simp only [enclosing, Node.Balanced, Node.AlmostBalanced, get_height, Node.toList]
      refine ⟨fun hb => ⟨hb.1, hb.2.1.2.1, ?_, ?_⟩, ?_⟩
      · have := hb.2.2; have := hb.2.1.2.2; have := get_height_ge cl; have := get_height_ge cr; omega
      · have := hb.2.2; have := hb.2.1.2.2; have := get_height_ge cl; have := get_height_ge cr; omega
      · simp
    | some (d, Node.nil), he, hpar =>
      cases d <;> simp [eraseParent] at he
  | Node.mk (Node.mk cl ck cv ch cr) k v h Node.nil, he, _, hpar =>
    match par, he, hpar with
    | none, he, _ =>
      simp only [eraseParent, Option.some.injEq] at he
      subst he
      exact ⟨fun _ => trivial, List.nil_sublist _⟩
    | some (Dir.L, Node.mk pl pk pv ph pr), he, hpar =>
      have hs := hpar _ _ rfl
      simp only [Node.subtree, Option.some.injEq] at hs
      subst hs
      simp only [eraseParent, Option.some.injEq] at he
      subst he
      simp only [enclosing, Node.Balanced, Node.AlmostBalanced, get_height, Node.toList]
      refine ⟨fun hb => ⟨hb.1.1, hb.2.1, ?_, ?_⟩, ?_⟩
      · have := hb.2.2; have := hb.1.2.2; have := get_height_ge cl; have := get_height_ge cr; omega
      · have := hb.2.2; have := hb.1.2.2; have := get_height_ge cl; have := get_height_ge cr; omega
      · simp
    | some (Dir.R, Node.mk pl pk pv ph pr), he, hpar =>
      have hs := hpar _ _ rfl
      simp only [Node.subtree, Option.some.injEq] at hs
      subst hs
      simp only [eraseParent, Option.some.injEq] at he
      subst he
      simp only [enclosing, Node.Balanced, Node.AlmostBalanced, get_height, Node.toList]
      refine ⟨fun hb => ⟨hb.1, hb.2.1.1, ?_, ?_⟩, ?_⟩
      · have := hb.2.2; have := hb.2.1.2.2; have := get_height_ge cl; have := get_height_ge cr; omega
      · have := hb.2.2; have := hb.2.1.2.2; have := get_height_ge cl; have := get_height_ge cr; omega
      · simp
    | some (d, Node.nil), he, hpar =>
      cases d <;> simp [eraseParent] at he

theorem rebalance_path_nil (h0 : Int) (n : Node K V) :
    rebalance_path h0 n [] = balance h0 n := rfl

theorem balance_almost (h0 : Int) (n n' : Node K V) (hn : n.AlmostBalanced)
    (hb : balance h0 n = some n') : n'.Balanced := by
  cases n with
  | nil => simp [balance] at hb; subst hb; trivial
  | mk l k v h r =>
    simp only [Node.AlmostBalanced] at hn
    exact (balance_balanced h0 l r k v h hn.1 hn.2.1 hn.2.2.1 hn.2.2.2 n' hb).1

theorem erase_parent (h0 : Int) (t t' : Tree K V) (pos : Pos) (he : erase h0 t pos = some t') :
    t' = t ∨ ∃ C parent : Node K V, C.toList.Sublist t.root.toList ∧
      (t.root.Balanced → C.Balanced) ∧
      (C.Balanced → parent.AlmostBalanced) ∧ parent.toList.Sublist C.toList ∧
      balance h0 parent = some t'.root ∧ t'.size_ = t.size_ - 1 := by
  unfold erase at he
  cases hs : t.root.subtree pos with
  | none => simp [hs] at he
  | some target =>
    cases target with
    | nil => simp only [hs, Option.some.injEq] at he; exact Or.inl he.symm
    | mk l k v h r =>
      right
      simp only [hs, Option.bind_eq_some, rebalance_path_nil, Option.some.injEq] at he
      obtain ⟨parent, hp, nr, hb, rfl⟩ := he
      have hpar : ∀ d P, t.root.parentOf pos = some (d, P) →
          P.subtree [d] = some (Node.mk l k v h r) := by
        intro d P h
        rw [← (parentOf_some _ _ _ _ h).2, hs]
      obtain ⟨s1, s2⟩ := eraseParent_spec _ _ _ hpar hp
      refine ⟨enclosing (t.root.parentOf pos) (Node.mk l k v h r), parent, ?_, ?_, s1, s2, hb,
        rfl⟩
      · cases hq : t.root.parentOf pos with
        | none => exact subtree_sublist _ _ _ hs
        | some dP => exact subtree_sublist _ _ _ (parentOf_some _ _ dP.1 dP.2 hq).1
      · intro hbal
        cases hq : t.root.parentOf pos with
        | none => exact subtree_balanced _ _ _ hs hbal
        | some dP => exact subtree_balanced _ _ _ (parentOf_some _ _ dP.1 dP.2 hq).1 hbal

theorem erase_balanced (h0 : Int) (t t' : Tree K V) (pos : Pos) (he : erase h0 t pos = some t')
    (hb : t.root.Balanced) : t'.root.Balanced := by
  rcases erase_parent h0 t t' pos he with rfl | ⟨C, parent, _, h2, h3, _, h5, _⟩
  · exact hb
  · exact balance_almost h0 _ _ (h3 (h2 hb)) h5

theorem erase_sublist (h0 : Int) (t t' : Tree K V) (pos : Pos) (he : erase h0 t pos = some t') :
    t'.root.toList.Sublist t.root.toList := by
  rcases erase_parent h0 t t' pos he with rfl | ⟨C, parent, h1, _, _, h4, h5, _⟩
  · exact List.Sublist.refl _
  · rw [balance_toList h0 _ _ h5]
    exact h4.trans h1

theorem push_balanced (h0 : Int) (comp : K → K → Bool) (t t' : Tree K V) (key : K) (value : V)
    (hp : push h0 comp t key value = some t') (hb : t.root.Balanced) : t'.root.Balanced := by
  rw [push_eq] at hp
  cases hf : find_NodeType comp key t.root with
  | some p => simp [hf] at hp; subst hp; exact hb
  | none =>
    simp only [hf, Option.bind_eq_some, Option.some.injEq] at hp
    obtain ⟨b, hb', rfl⟩ := hp
    exact (pushRec_balanced h0 comp key value _ _ hb hb').1

theorem not_equiv_of_find_none {comp : K → K → Bool} (hc : StrictWeakOrder comp) (key : K)
    (n : Node K V) (hn : Ascending comp n.toList) (hf : find_NodeType comp key n = none) :
    ∀ e ∈ n.toList, keyEquiv comp key e.1 = false := by
  intro e he
  cases hk : keyEquiv comp key e.1 with
  | false => rfl
  | true =>
    obtain ⟨p, hp⟩ := find_NodeType_of_equiv hc key n hn e he hk
    rw [hf] at hp; cases hp

theorem find_none_of_not_equiv (comp : K → K → Bool) (key : K) (n : Node K V)
    (hk : ∀ e ∈ n.toList, keyEquiv comp key e.1 = false) : find_NodeType comp key n = none := by
  cases hf : find_NodeType comp key n with
  | none => rfl
  | some p =>
    obtain ⟨k, v, _, hm, he⟩ := find_NodeType_entry comp key n p hf
    have := hk _ hm
    simp [he] at this

/-- `push` of a key that the walk does not meet: sorted insertion into the in-order list. -/
theorem push_absent {comp : K → K → Bool} (hc : StrictWeakOrder comp) (h0 : Int)
    (t : Tree K V) (key : K) (value : V) (ht : Ascending comp t.root.toList)
    (hf : find_NodeType comp key t.root = none) :
    ∃ t', push h0 comp t key value = some t' ∧
      t'.root.toList = insertSorted comp key value t.root.toList ∧
      Ascending comp t'.root.toList ∧ t'.size_ = t.size_ + 1 := by
  obtain ⟨b, hb⟩ := pushRec_isSome h0 comp key value _ hf
  refine ⟨⟨b, t.size_ + 1⟩, ?_, ?_, ?_, rfl⟩
  · rw [push_eq]; simp [hf, hb]
  · exact pushRec_toList hc h0 key value _ _ ht hf hb
  · show Ascending comp b.toList
    rw [pushRec_toList hc h0 key value _ _ ht hf hb]
    exact insertSorted_ascending hc key value _ ht (not_equiv_of_find_none hc key _ ht hf)

theorem push_ascending {comp : K → K → Bool} (hc : StrictWeakOrder comp) (h0 : Int)
    (t t' : Tree K V) (key : K) (value : V) (hp : push h0 comp t key value = some t')
    (ht : Ascending comp t.root.toList) : Ascending comp t'.root.toList := by
  cases hf : find_NodeType comp key t.root with
  | some p => rw [push_eq] at hp; simp [hf] at hp; subst hp; exact ht
  | none =>
    obtain ⟨t'', h1, _, h3, _⟩ := push_absent hc h0 t key value ht hf
    rw [h1] at hp; cases hp; exact h3

theorem push_isSome (h0 : Int) (comp : K → K → Bool) (t : Tree K V) (key : K) (value : V) :
    ∃ t', push h0 comp t key value = some t' := by
  rw [push_eq]
  cases hf : find_NodeType comp key t.root with
  | some p => exact ⟨t, rfl⟩
  | none =>
    obtain ⟨b, hb⟩ := pushRec_isSome h0 comp key value _ hf
    exact ⟨⟨b, t.size_ + 1⟩, by simp [hb]⟩

theorem run_balanced (h0 : Int) (comp : K → K → Bool) (ops : List (Op K V)) (t t' : Tree K V)
    (hr : run h0 comp t ops = some t') (hb : t.root.Balanced) : t'.root.Balanced := by
  induction ops generalizing t with
  | nil => simp [run] at hr; subst hr; exact hb
  | cons op ops ih =>
    cases op with
    | push k v =>
      simp only [run, Option.bind_eq_some] at hr
      obtain ⟨t1, h1, h2⟩ := hr
      exact ih t1 h2 (push_balanced h0 comp t t1 k v h1 hb)
    | erase p =>
      simp only [run, Option.bind_eq_some] at hr
      obtain ⟨t1, h1, h2⟩ := hr
      exact ih t1 h2 (erase_balanced h0 t t1 p h1 hb)

theorem run_ascending {comp : K → K → Bool} (hc : StrictWeakOrder comp) (h0 : Int)
    (ops : List (Op K V)) (t t' : Tree K V)
    (hr : run h0 comp t ops = some t') (hb : Ascending comp t.root.toList) :
    Ascending comp t'.root.toList := by
  induction ops generalizing t with
  | nil => simp [run] at hr; subst hr; exact hb
  | cons op ops ih =>
    cases op with
    | push k v =>
      simp only [run, Option.bind_eq_some] at hr
      obtain ⟨t1, h1, h2⟩ := hr
      exact ih t1 h2 (push_ascending hc h0 t t1 k v h1 hb)
    | erase p =>
      simp only [run, Option.bind_eq_some] at hr
      obtain ⟨t1, h1, h2⟩ := hr
      exact ih t1 h2 (List.Pairwise.sublist (erase_sublist h0 t t1 p h1) hb)

/-- Every sequence of `push` calls runs to completion. -/
theorem pushAll_isSome (h0 : Int) (comp : K → K → Bool) (kvs : List (K × V)) :
    ∃ t, pushAll h0 comp kvs = some t := by
  unfold pushAll
  generalize (Tree.empty : Tree K V) = t
  induction kvs generalizing t with
  | nil => exact ⟨t, rfl⟩
  | cons kv kvs ih =>
    obtain ⟨t1, h1⟩ := push_isSome h0 comp t kv.1 kv.2
    obtain ⟨t2, h2⟩ := ih t1
    exact ⟨t2, by simp [run, h1, h2]⟩

theorem find_NodeType_assign (comp : K → K → Bool) (key : K) (n : Node K V) (p : Pos) (b : V) :
    find_NodeType comp key (n.assign p b) = find_NodeType comp key n := by
  induction n generalizing p with
  | nil => simp [Node.assign]
  | mk l k v h r ihl ihr =>
    match p with
    | [] => simp [Node.assign, find_NodeType]
    | Dir.L :: p => simp [Node.assign, find_NodeType, ihl]
    | Dir.R :: p => simp [Node.assign, find_NodeType, ihr]

theorem entry_assign (n : Node K V) (p : Pos) (b : V) (k : K) (v : V)
    (he : n.entry p = some (k, v)) : (n.assign p b).entry p = some (k, b) := by
  induction n generalizing p with
  | nil => cases p <;> simp [Node.entry, Node.subtree] at he
  | mk l k' v' h r ihl ihr =>
    match p, he with
    | [], he =>
      simp [Node.entry, Node.subtree] at he
      simp [Node.assign, Node.entry, Node.subtree, he.1]
    | Dir.L :: p, he =>
      have := ihl p (by simpa [Node.entry, Node.subtree] using he)
      simpa [Node.assign, Node.entry, Node.subtree] using this
    | Dir.R :: p, he =>
      have := ihr p (by simpa [Node.entry, Node.subtree] using he)
      simpa [Node.assign, Node.entry, Node.subtree] using this

theorem spliceMin_isSome (ll : Node K V) (lk : K) (lv : V) (lh : Int) (lr : Node K V)
    (k : K) (v : V) (h : Int) (r : Node K V) :
    ∃ P, spliceMin (Node.mk (Node.mk ll lk lv lh lr) k v h r) = some P := by
  induction ll generalizing lk lv lh lr k v h r with
  | nil => exact ⟨_, rfl⟩
  | mk a b c d e iha _ =>
    simp only [spliceMin]
    exact iha b c d e lk lv lh lr

/-- `erase` at a position that designates a node runs to completion. -/
theorem erase_isSome (h0 : Int) (t : Tree K V) (pos : Pos) (l r : Node K V) (k : K) (v : V)
    (h : Int) (hs : t.root.subtree pos = some (Node.mk l k v h r)) :
    ∃ t', erase h0 t pos = some t' := by
  have hpar : ∀ d P, t.root.parentOf pos = some (d, P) →
      P.subtree [d] = some (Node.mk l k v h r) := by
    intro d P hp
    rw [← (parentOf_some _ _ _ _ hp).2, hs]
  have hparent : ∃ parent, eraseParent (t.root.parentOf pos) (Node.mk l k v h r) = some parent := by
    match l, r, hpar with
    | Node.mk ll lk lv lh lr, Node.mk Node.nil mk mv mh mr, _ => exact ⟨_, rfl⟩
    | Node.mk ll lk lv lh lr, Node.mk (Node.mk a b c d e) rk rv rh rr, _ =>
      simp only [eraseParent]
      exact spliceMin_isSome a b c d e rk rv rh rr
    | Node.nil, Node.nil, hpar =>
      match t.root.parentOf pos, hpar with
      | none, _ => exact ⟨_, rfl⟩
      | some (Dir.L, Node.mk _ _ _ _ _), _ => exact ⟨_, rfl⟩
      | some (Dir.R, Node.mk _ _ _ _ _), _ => exact ⟨_, rfl⟩
      | some (d, Node.nil), hpar => have := hpar d _ rfl; simp [Node.subtree] at this
    | Node.nil, Node.mk _ _ _ _ _, hpar =>
      match t.root.parentOf pos, hpar with
      | none, _ => exact ⟨_, rfl⟩
      | some (Dir.L, Node.mk _ _ _ _ _), _ => exact ⟨_, rfl⟩
      | some (Dir.R, Node.mk _ _ _ _ _), _ => exact ⟨_, rfl⟩
      | some (d, Node.nil), hpar => have := hpar d _ rfl; simp [Node.subtree] at this
    | Node.mk _ _ _ _ _, Node.nil, hpar =>
      match t.root.parentOf pos, hpar with
      | none, _ => exact ⟨_, rfl⟩
      | some (Dir.L, Node.mk _ _ _ _ _), _ => exact ⟨_, rfl⟩
      | some (Dir.R, Node.mk _ _ _ _ _), _ => exact ⟨_, rfl⟩
      | some (d, Node.nil), hpar => have := hpar d _ rfl; simp [Node.subtree] at this
  obtain ⟨parent, hp⟩ := hparent
  obtain ⟨nr, hn⟩ := balance_isSome h0 parent
  exact ⟨⟨nr, t.size_ - 1⟩, by simp [erase, hs, hp, rebalance_path, hn]⟩

theorem count_eq_length (n : Node K V) : n.count = n.toList.length := by
  induction n with
  | nil => rfl
  | mk l k v h r ihl ihr => simp [Node.count, Node.toList, ihl, ihr]; omega

theorem balance_count (h0 : Int) (n n' : Node K V) (h : balance h0 n = some n') :
    n'.count = n.count := by
  rw [count_eq_length, count_eq_length, balance_toList h0 n n' h]

theorem subtree_count_le (n m : Node K V) (p : Pos) (h : n.subtree p = some m) :
    m.count ≤ n.count := by
  rw [count_eq_length, count_eq_length]
  exact (subtree_sublist n m p h).length_le

theorem spliceMin_count (X P : Node K V) (h : spliceMin X = some P) : P.count < X.count := by
  induction X generalizing P with
  | nil => simp [spliceMin] at h
  | mk l k v ht r ihl _ =>
    match l, ihl, h with
    | Node.nil, _, h => simp [spliceMin] at h
    | Node.mk Node.nil mk mv mh mr, _, h =>
      simp only [spliceMin, Option.some.injEq] at h
      subst h
      simp only [Node.count]; omega
    | Node.mk (Node.mk a b c d e) mk mv mh mr, ihl, h =>
      simp only [spliceMin] at h
      have := ihl P h
      simp only [Node.count] at this ⊢; omega

theorem eraseParent_count (par : Option (Dir × Node K V)) (target parent : Node K V)
    (hpar : ∀ d P, par = some (d, P) → P.subtree [d] = some target)
    (he : eraseParent par target = some parent) :
    parent.count < (enclosing par target).count := by
  have lift : parent.count < target.count → parent.count < (enclosing par target).count := by
    intro h1
    match par, hpar with
    | none, _ => exact h1
    | some (d, P), hpar =>
      exact Nat.lt_of_lt_of_le h1 (subtree_count_le P target [d] (hpar d P rfl))
  match target, he, lift, hpar with
  | Node.nil, he, _, _ => simp [eraseParent] at he
  | Node.mk (Node.mk ll lk lv lh lr) k v h (Node.mk Node.nil mk mv mh mr), he, lift, _ =>
    simp only [eraseParent, Option.some.injEq] at he
    subst he
    apply lift
    simp only [Node.count]; omega
  | Node.mk (Node.mk ll lk lv lh lr) k v h (Node.mk (Node.mk a b c d e) rk rv rh rr), he, lift, _ =>
    simp only [eraseParent] at he
    apply lift
    have := spliceMin_count _ _ he
    simp only [Node.count] at this ⊢; omega
  | Node.mk Node.nil k v h Node.nil, he, lift, hpar =>
    match par, he, lift, hpar with
    | none, he, lift, _ =>
      simp only [eraseParent, Option.some.injEq] at he
      subst he
      apply lift; simp [Node.count]
    | some (Dir.L, Node.mk pl pk pv ph pr), he, _, hpar =>
      have hs := hpar _ _ rfl
      simp only [Node.subtree, Option.some.injEq] at hs
      subst hs
      simp only [eraseParent, Option.some.injEq] at he
      subst he
      simp only [enclosing, Node.count]; omega
    | some (Dir.R, Node.mk pl pk pv ph pr), he, _, hpar =>
      have hs := hpar _ _ rfl
      simp only [Node.subtree, Option.some.injEq] at hs
      subst hs
      simp only [eraseParent, Option.some.injEq] at he
      subst he
      simp only [enclosing, Node.count]; omega
    | some (d, Node.nil), he, _, _ =>
      cases d <;> simp [eraseParent] at he
  | Node.mk Node.nil k v h (Node.mk cl ck cv ch cr), he, lift, hpar =>
    match par, he, lift, hpar with
    | none, he, lift, _ =>
      simp only [eraseParent, Option.some.injEq] at he
      subst he
      apply lift; simp [Node.count]
    | some (Dir.L, Node.mk pl pk pv ph pr), he, _, hpar =>
      have hs := hpar _ _ rfl
      simp only [Node.subtree, Option.some.injEq] at hs
      subst hs
      simp only [eraseParent, Option.some.injEq] at he
      subst he
      simp only [enclosing, Node.count]; omega
    | some (Dir.R, Node.mk pl pk pv ph pr), he, _, hpar =>
      have hs := hpar _ _ rfl
      simp only [Node.subtree, Option.some.injEq] at hs
      subst hs
      simp only [eraseParent, Option.some.injEq] at he
      subst he
      simp only [enclosing, Node.count]; omega
    | some (d, Node.nil), he, _, _ =>
      cases d <;> simp [eraseParent] at he
  | Node.mk (Node.mk cl ck cv ch cr) k v h Node.nil, he, lift, hpar =>
    match par, he, lift, hpar with
    | none, he, lift, _ =>
      simp only [eraseParent, Option.some.injEq] at he
      subst he
      apply lift; simp [Node.count]
    | some (Dir.L, Node.mk pl pk pv ph pr), he, _, hpar =>
      have hs := hpar _ _ rfl
      simp only [Node.subtree, Option.some.injEq] at hs
      subst hs
      simp only [eraseParent, Option.some.injEq] at he
      subst he
      simp only [enclosing, Node.count]; omega
    | some (Dir.R, Node.mk pl pk pv ph pr), he, _, hpar =>
      have hs := hpar _ _ rfl
      simp only [Node.subtree, Option.some.injEq] at hs
      subst hs
      simp only [eraseParent, Option.some.injEq] at he
      subst he
      simp only [enclosing, Node.count]; omega
    | some (d, Node.nil), he, _, _ =>
      cases d <;> simp [eraseParent] at he

theorem pushRec_count (h0 : Int) (comp : K → K → Bool) (key : K) (value : V)
    (t t' : Node K V) (hp : pushRec h0 comp key value t = some t') :
    t'.count = t.count + 1 := by
  induction t generalizing t' with
  | nil =>
    simp only [pushRec] at hp
    rw [balance_count h0 _ _ hp]; rfl
  | mk l k v h r ihl ihr =>
    simp only [pushRec] at hp
    split_ifs at hp with h1 h2
    · simp only [Option.bind_eq_some] at hp
      obtain ⟨l', hl', hb⟩ := hp
      rw [balance_count h0 _ _ hb]
      simp only [Node.count, ihl l' hl']; omega
    · simp only [Option.bind_eq_some] at hp
      obtain ⟨r', hr', hb⟩ := hp
      rw [balance_count h0 _ _ hb]
      simp only [Node.count, ihr r' hr']; omega

/-- Along every sequence of `push` and `erase` calls from the empty tree, `size_` is at least
the number of reachable nodes: the decrement in `erase` never meets `size_ == 0`. -/
theorem run_count_le_size (h0 : Int) (comp : K → K → Bool) (ops : List (Op K V))
    (t t' : Tree K V) (hr : run h0 comp t ops = some t') (hc : t.root.count ≤ t.size_) :
    t'.root.count ≤ t'.size_ := by
  induction ops generalizing t with
  | nil => simp [run] at hr; subst hr; exact hc
  | cons op ops ih =>
    cases op with
    | push k v =>
      simp only [run, Option.bind_eq_some] at hr
      obtain ⟨t1, h1, h2⟩ := hr
      apply ih t1 h2
      rw [push_eq] at h1
      cases hf : find_NodeType comp k t.root with
      | some p => simp [hf] at h1; subst h1; exact hc
      | none =>
        simp only [hf, Option.bind_eq_some, Option.some.injEq] at h1
        obtain ⟨b, hb, rfl⟩ := h1
        show b.count ≤ t.size_ + 1
        rw [pushRec_count h0 comp k v _ _ hb]; omega
    | erase p =>
      simp only [run, Option.bind_eq_some] at hr
      obtain ⟨t1, h1, h2⟩ := hr
      apply ih t1 h2
      unfold erase at h1
      cases hs : t.root.subtree p with
      | none => simp [hs] at h1
      | some target =>
        cases target with
        | nil => simp only [hs, Option.some.injEq] at h1; subst h1; exact hc
        | mk l k v h r =>
          simp only [hs, Option.bind_eq_some, rebalance_path_nil, Option.some.injEq] at h1
          obtain ⟨parent, hp, nr, hb, rfl⟩ := h1
          have hpar : ∀ d P, t.root.parentOf p = some (d, P) →
              P.subtree [d] = some (Node.mk l k v h r) := by
            intro d P hh
            rw [← (parentOf_some _ _ _ _ hh).2, hs]
          have h3 := eraseParent_count _ _ _ hpar hp
          have h4 : (enclosing (t.root.parentOf p) (Node.mk l k v h r)).count ≤ t.root.count := by
            cases hq : t.root.parentOf p with
            | none => exact subtree_count_le _ _ _ hs
            | some dP => exact subtree_count_le _ _ _ (parentOf_some _ _ dP.1 dP.2 hq).1
          show nr.count ≤ t.size_ - 1
          rw [balance_count h0 _ _ hb]; omega

end Averenkov

namespace Averenkov
variable {K V : Type}

theorem find_NodeType_spec {comp : K → K → Bool} (hc : StrictWeakOrder comp) (key : K)
    (n : Node K V) (hn : Ascending comp n.toList) :
    (∀ e ∈ n.toList, keyEquiv comp key e.1 = true →
        ∃ p, find_NodeType comp key n = some p ∧ n.entry p = some e) ∧
      (find_NodeType comp key n = none ↔ ∀ e ∈ n.toList, keyEquiv comp key e.1 = false) := by
  refine ⟨?_, ⟨not_equiv_of_find_none hc key n hn, find_none_of_not_equiv comp key n⟩⟩
  intro e he hk
  obtain ⟨p, hp⟩ := find_NodeType_of_equiv hc key n hn e he hk
  obtain ⟨k', v', hent, hm, hke⟩ := find_NodeType_entry comp key n p hp
  have : ((k', v') : K × V) = e :=
    ascending_equiv_unique _ hn (k', v') e hm he (keyEquiv_trans_left hc _ _ _ hke hk)
  exact ⟨p, hp, by rw [hent, this]⟩

theorem at_spec {comp : K → K → Bool} (hc : StrictWeakOrder comp) (key : K)
    (t : Tree K V) (ht : Ascending comp t.root.toList) :
    (Tree.at comp t key = none ↔ ∀ e ∈ t.root.toList, keyEquiv comp key e.1 = false) ∧
      (∀ e ∈ t.root.toList, keyEquiv comp key e.1 = true → Tree.at comp t key = some e.2) := by
  obtain ⟨h1, h2⟩ := find_NodeType_spec hc key t.root ht
  constructor
  · rw [← h2]
    unfold Tree.at
    cases hf : find_NodeType comp key t.root with
    | none => simp
    | some p =>
      obtain ⟨k', v', hent, _, _⟩ := find_NodeType_entry comp key t.root p hf
      simp [hent]
  · intro e he hk
    obtain ⟨p, hp, hent⟩ := h1 e he hk
    simp [Tree.at, hp, hent]

theorem entry_subtree (n : Node K V) (p : Pos) (e : K × V) (h : n.entry p = some e) :
    ∃ l r ht, n.subtree p = some (Node.mk l e.1 e.2 ht r) := by
  unfold Node.entry at h
  cases hs : n.subtree p with
  | none => simp [hs] at h
  | some m =>
    cases m with
    | nil => simp [hs] at h
    | mk l k v ht r =>
      simp only [hs, Option.some.injEq] at h
      subst h
      exact ⟨l, r, ht, rfl⟩

theorem subtree_entry_append (n m : Node K V) (p q : Pos) (h : n.subtree p = some m) :
    n.entry (p ++ q) = m.entry q := by
  unfold Node.entry
  rw [subtree_append, h]
  rfl

theorem lower_bound_loop_spec {comp : K → K → Bool} (hc : StrictWeakOrder comp) (key : K)
    (n : Node K V) (hn : Ascending comp n.toList) (pos : Pos) (result : Option Pos) :
    (n.toList.find? (fun e => !comp e.1 key) = none →
        lower_bound_loop comp key n pos result = result) ∧
      (∀ e, n.toList.find? (fun e => !comp e.1 key) = some e →
        ∃ q, lower_bound_loop comp key n pos result = some (pos ++ q) ∧ n.entry q = some e) := by
  induction n generalizing pos result with
  | nil => simp [lower_bound_loop, Node.toList]
  | mk l k v h r ihl ihr =>
    unfold Ascending at hn ihl ihr
    simp only [Node.toList, List.pairwise_append, List.pairwise_cons, List.mem_cons] at hn
    simp only [Node.toList, lower_bound_loop, List.find?_append, List.find?_cons]
    cases hk : comp k key with
    | false =>
      simp only [Bool.not_false, if_true]
      obtain ⟨i1, i2⟩ := ihl hn.1 (pos ++ [Dir.L]) (some pos)
      cases hfl : l.toList.find? (fun e => !comp e.1 key) with
      | none =>
        simp only [hfl] at i1
        simp only [Option.none_or, reduceCtorEq, false_implies, Option.some.injEq, true_and]
        intro e he
        subst he
        exact ⟨[], by simp [i1], by simp [Node.entry, Node.subtree]⟩
      | some e' =>
        simp only [Option.or_some, reduceCtorEq, false_implies, Option.some.injEq, true_and]
        intro e he
        subst he
        obtain ⟨q, hq, hent⟩ := i2 e' hfl
        exact ⟨Dir.L :: q, by simp [hq], by simpa [Node.entry, Node.subtree] using hent⟩
    | true =>
      simp only [Bool.not_true, Bool.false_eq_true, if_false]
      have hleft : l.toList.find? (fun e => !comp e.1 key) = none := by
        rw [List.find?_eq_none]
        intro x hx
        have := hc.trans _ _ _ (hn.2.2 x hx (k, v) (Or.inl rfl)) hk
        simp [this]
      simp only [hleft, Option.none_or]
      obtain ⟨i1, i2⟩ := ihr hn.2.1.2 (pos ++ [Dir.R]) result
      refine ⟨i1, ?_⟩
      intro e he
      obtain ⟨q, hq, hent⟩ := i2 e he
      exact ⟨Dir.R :: q, by simp [hq], by simpa [Node.entry, Node.subtree] using hent⟩

theorem upper_bound_loop_spec {comp : K → K → Bool} (hc : StrictWeakOrder comp) (key : K)
    (n : Node K V) (hn : Ascending comp n.toList) (pos : Pos) (result : Option Pos) :
    (n.toList.find? (fun e => comp key e.1) = none →
        upper_bound_loop comp key n pos result = result) ∧
      (∀ e, n.toList.find? (fun e => comp key e.1) = some e →
        ∃ q, upper_bound_loop comp key n pos result = some (pos ++ q) ∧ n.entry q = some e) := by
  induction n generalizing pos result with
  | nil => simp [upper_bound_loop, Node.toList]
  | mk l k v h r ihl ihr =>
    unfold Ascending at hn ihl ihr
    simp only [Node.toList, List.pairwise_append, List.pairwise_cons, List.mem_cons] at hn
    simp only [Node.toList, upper_bound_loop, List.find?_append, List.find?_cons]
    cases hk : comp key k with
    | true =>
      simp only [if_true]
      obtain ⟨i1, i2⟩ := ihl hn.1 (pos ++ [Dir.L]) (some pos)
      cases hfl : l.toList.find? (fun e => comp key e.1) with
      | none =>
        simp only [hfl] at i1
        simp only [Option.none_or, reduceCtorEq, false_implies, Option.some.injEq, true_and]
        intro e he
        subst he
        exact ⟨[], by simp [i1], by simp [Node.entry, Node.subtree]⟩
      | some e' =>
        simp only [Option.or_some, reduceCtorEq, false_implies, Option.some.injEq, true_and]
        intro e he
        subst he
        obtain ⟨q, hq, hent⟩ := i2 e' hfl
        exact ⟨Dir.L :: q, by simp [hq], by simpa [Node.entry, Node.subtree] using hent⟩
    | false =>
      simp only [Bool.false_eq_true, if_false]
      have hleft : l.toList.find? (fun e => comp key e.1) = none := by
        rw [List.find?_eq_none]
        intro x hx hkx
        have := hc.trans _ _ _ hkx (hn.2.2 x hx (k, v) (Or.inl rfl))
        simp [hk] at this
      simp only [hleft, Option.none_or]
      obtain ⟨i1, i2⟩ := ihr hn.2.1.2 (pos ++ [Dir.R]) result
      refine ⟨i1, ?_⟩
      intro e he
      obtain ⟨q, hq, hent⟩ := i2 e he
      exact ⟨Dir.R :: q, by simp [hq], by simpa [Node.entry, Node.subtree] using hent⟩

theorem ascending_not_mem {comp : K → K → Bool} (hc : StrictWeakOrder comp)
    (A B : List (K × V)) (x : K × V) (h : Ascending comp (A ++ x :: B)) : x ∉ A ++ B := by
  unfold Ascending at h
  rw [List.pairwise_append, List.pairwise_cons] at h
  intro hx
  rcases List.mem_append.1 hx with h1 | h1
  · have := h.2.2 x h1 x (List.mem_cons_self _ _)
    rw [hc.irrefl] at this; cases this
  · have := h.2.1.1 x h1
    rw [hc.irrefl] at this; cases this

theorem subtree_split (n m : Node K V) (p : Pos) (h : n.subtree p = some m) :
    ∃ pre post, n.toList = pre ++ m.toList ++ post := by
  induction p generalizing n with
  | nil => simp [Node.subtree] at h; subst h; exact ⟨[], [], by simp⟩
  | cons d p ih =>
    cases n with
    | nil => simp [Node.subtree] at h
    | mk l k v ht r =>
      cases d
      · obtain ⟨pre, post, e⟩ := ih l (by simpa [Node.subtree] using h)
        exact ⟨pre, post ++ (k, v) :: r.toList, by simp [Node.toList, e]⟩
      · obtain ⟨pre, post, e⟩ := ih r (by simpa [Node.subtree] using h)
        exact ⟨l.toList ++ (k, v) :: pre, post, by simp [Node.toList, e]⟩

theorem eraseParent_split (par : Option (Dir × Node K V)) (l r : Node K V) (k : K) (v : V)
    (h : Int) (parent : Node K V)
    (hpar : ∀ d P, par = some (d, P) → P.subtree [d] = some (Node.mk l k v h r))
    (he : eraseParent par (Node.mk l k v h r) = some parent) :
    ∃ A B, (enclosing par (Node.mk l k v h r)).toList = A ++ (k, v) :: B ∧
      parent.toList.Sublist (A ++ B) := by
  -- the two-children case works inside the target's own subtree
  have lift : parent.toList.Sublist (l.toList ++ r.toList) →
      ∃ A B, (enclosing par (Node.mk l k v h r)).toList = A ++ (k, v) :: B ∧
        parent.toList.Sublist (A ++ B) := by
    intro h1
    match par, hpar with
    | none, _ => exact ⟨l.toList, r.toList, rfl, h1⟩
    | some (d, P), hpar =>
      obtain ⟨pre, post, e⟩ := subtree_split P _ [d] (hpar d P rfl)
      refine ⟨pre ++ l.toList, r.toList ++ post, by simp [enclosing, e, Node.toList], ?_⟩
      have : (pre ++ l.toList) ++ (r.toList ++ post) = pre ++ ((l.toList ++ r.toList) ++ post) := by
        simp
      rw [this]
      exact (h1.trans (List.sublist_append_left _ _)).trans (List.sublist_append_right _ _)
  match l, r, he, lift, hpar with
  | Node.mk ll lk lv lh lr, Node.mk Node.nil mk mv mh mr, he, lift, _ =>
    simp only [eraseParent, Option.some.injEq] at he
    subst he
    apply lift
    simp only [Node.toList, List.nil_append]
    exact List.Sublist.refl _
  | Node.mk ll lk lv lh lr, Node.mk (Node.mk a b c d e) rk rv rh rr, he, lift, _ =>
    simp only [eraseParent] at he
    apply lift
    exact ((spliceMin_spec _ _ he).2).trans (List.sublist_append_right _ _)
  | Node.nil, Node.nil, he, _, hpar =>
    match par, he, hpar with
    | none, he, _ =>
      simp only [eraseParent, Option.some.injEq] at he
      subst he
      exact ⟨[], [], by simp [enclosing, Node.toList], List.nil_sublist _⟩
    | some (Dir.L, Node.mk pl pk pv ph pr), he, hpar =>
      have hs := hpar _ _ rfl
      simp only [Node.subtree, Option.some.injEq] at hs
      subst hs
      simp only [eraseParent, Option.some.injEq] at he
      subst he
      exact ⟨[], (pk, pv) :: pr.toList, by simp [enclosing, Node.toList],
        by simp [Node.toList]⟩
    | some (Dir.R, Node.mk pl pk pv ph pr), he, hpar =>
      have hs := hpar _ _ rfl
      simp only [Node.subtree, Option.some.injEq] at hs
      subst hs
      simp only [eraseParent, Option.some.injEq] at he
      subst he
      exact ⟨pl.toList ++ [(pk, pv)], [], by simp [enclosing, Node.toList],
        by simp [Node.toList]⟩
    | some (d, Node.nil), he, _ =>
      cases d <;> simp [eraseParent] at he
  | Node.nil, Node.mk cl ck cv ch cr, he, _, hpar =>
    match par, he, hpar with
    | none, he, _ =>
      simp only [eraseParent, Option.some.injEq] at he
      subst he
      exact ⟨[], (Node.mk cl ck cv ch cr).toList, by simp [enclosing, Node.toList],
        List.nil_sublist _⟩
    | some (Dir.L, Node.mk pl pk pv ph pr), he, hpar =>
      have hs := hpar _ _ rfl
      simp only [Node.subtree, Option.some.injEq] at hs
      subst hs
      simp only [eraseParent, Option.some.injEq] at he
      subst he
      exact ⟨[], (Node.mk cl ck cv ch cr).toList ++ (pk, pv) :: pr.toList,
        by simp [enclosing, Node.toList], by simp [Node.toList]⟩
    | some (Dir.R, Node.mk pl pk pv ph pr), he, hpar =>
      have hs := hpar _ _ rfl
      simp only [Node.subtree, Option.some.injEq] at hs
      subst hs
      simp only [eraseParent, Option.some.injEq] at he
      subst he
      exact ⟨pl.toList ++ [(pk, pv)], (Node.mk cl ck cv ch cr).toList,
        by simp [enclosing, Node.toList], by simp [Node.toList]⟩
    | some (d, Node.nil), he, _ =>
      cases d <;> simp [eraseParent] at he
  | Node.mk cl ck cv ch cr, Node.nil, he, _, hpar =>
    match par, he, hpar with
    | none, he, _ =>
      simp only [eraseParent, Option.some.injEq] at he
      subst he
      exact ⟨(Node.mk cl ck cv ch cr).toList, [], by simp [enclosing, Node.toList],
        List.nil_sublist _⟩
    | some (Dir.L, Node.mk pl pk pv ph pr), he, hpar =>
      have hs := hpar _ _ rfl
      simp only [Node.subtree, Option.some.injEq] at hs
      subst hs
      simp only [eraseParent, Option.some.injEq] at he
      subst he
      exact ⟨(Node.mk cl ck cv ch cr).toList, (pk, pv) :: pr.toList,
        by simp [enclosing, Node.toList], by simp [Node.toList]⟩
    | some (Dir.R, Node.mk pl pk pv ph pr), he, hpar =>
      have hs := hpar _ _ rfl
      simp only [Node.subtree, Option.some.injEq] at hs
      subst hs
      simp only [eraseParent, Option.some.injEq] at he
      subst he
      exact ⟨pl.toList ++ (pk, pv) :: (Node.mk cl ck cv ch cr).toList, [],
        by simp [enclosing, Node.toList], by simp [Node.toList]⟩
    | some (d, Node.nil), he, _ =>
      cases d <;> simp [eraseParent] at he

/-- After `erase` at a node of a tree in search-tree order, the pair that node held is not in
the tree, and every pair in the tree was there before. -/
theorem erase_not_mem {comp : K → K → Bool} (hc : StrictWeakOrder comp) (h0 : Int)
    (t t' : Tree K V) (pos : Pos) (l r : Node K V) (k : K) (v : V) (h : Int)
    (ht : Ascending comp t.root.toList)
    (hs : t.root.subtree pos = some (Node.mk l k v h r))
    (he : erase h0 t pos = some t') :
    (k, v) ∉ t'.root.toList ∧ t'.root.toList.Sublist t.root.toList := by
  refine ⟨?_, erase_sublist h0 t t' pos he⟩
  unfold erase at he
  simp only [hs, Option.bind_eq_some, rebalance_path_nil, Option.some.injEq] at he
  obtain ⟨parent, hp, nr, hb, rfl⟩ := he
  have hpar : ∀ d P, t.root.parentOf pos = some (d, P) →
      P.subtree [d] = some (Node.mk l k v h r) := by
    intro d P hh
    rw [← (parentOf_some _ _ _ _ hh).2, hs]
  obtain ⟨A, B, e1, e2⟩ := eraseParent_split _ l r k v h parent hpar hp
  have hC : (enclosing (t.root.parentOf pos) (Node.mk l k v h r)).toList.Sublist
      t.root.toList := by
    cases hq : t.root.parentOf pos with
    | none => exact subtree_sublist _ _ _ hs
    | some dP => exact subtree_sublist _ _ _ (parentOf_some _ _ dP.1 dP.2 hq).1
  have hasc : Ascending comp (A ++ (k, v) :: B) := by
    rw [← e1]; exact List.Pairwise.sublist hC ht
  have hnot := ascending_not_mem hc A B (k, v) hasc
  show (k, v) ∉ nr.toList
  rw [balance_toList h0 _ _ hb]
  exact fun hm => hnot (e2.subset hm)

/-- The position `parentAfterBalance` gives is where `balance` puts the node it was called
on: the entry there is that node's pair. -/
theorem parentAfterBalance_entry (h0 : Int) (l r : Node K V) (k : K) (v : V) (h : Int)
    (nr : Node K V) (hb : balance h0 (Node.mk l k v h r) = some nr) :
    ∃ q, parentAfterBalance (Node.mk l k v h r) = some q ∧ nr.entry q = some (k, v) := by
  simp only [balance] at hb
  simp only [parentAfterBalance]
  split_ifs at hb ⊢ with h1 h3 h4 h5
  · match l, h1, hb with
    | Node.mk ll lk lv lh lr, _, hb =>
      simp [rotate_right] at hb; subst hb
      exact ⟨_, rfl, by simp [Node.entry, Node.subtree]⟩
    | Node.nil, h1, _ =>
      exfalso; simp [get_balance_factor, get_height] at h1
      have := get_height_ge r; omega
  · match l, h1, h3, hb with
    | Node.mk ll lk lv lh (Node.mk a b c d e), _, _, hb =>
      simp [rotate_right, rotate_left, update_height] at hb; subst hb
      exact ⟨_, rfl, by simp [Node.entry, Node.subtree]⟩
    | Node.mk ll lk lv lh Node.nil, _, _, hb =>
      simp [rotate_left] at hb
    | Node.nil, h1, _, _ =>
      exfalso; simp [get_balance_factor, get_height] at h1
      have := get_height_ge r; omega
  · match r, h4, hb with
    | Node.mk rl rk rv rh rr, _, hb =>
      simp [rotate_left, update_height] at hb; subst hb
      exact ⟨_, rfl, by simp [Node.entry, Node.subtree]⟩
    | Node.nil, _, hb => simp [rotate_left] at hb
  · match r, h4, h5, hb with
    | Node.mk (Node.mk a b c d e) rk rv rh rr, _, _, hb =>
      simp [rotate_right, rotate_left, update_height] at hb; subst hb
      exact ⟨_, rfl, by simp [Node.entry, Node.subtree]⟩
    | Node.mk Node.nil rk rv rh rr, _, _, hb =>
      simp [rotate_right, rotate_left, update_height] at hb; subst hb
      exact ⟨_, rfl, by simp [Node.entry, Node.subtree]⟩
    | Node.nil, _, _, hb => simp [rotate_left, rotate_right] at hb
  · simp at hb; subst hb
    exact ⟨_, rfl, by simp [Node.entry, Node.subtree]⟩

end Averenkov

namespace Averenkov
variable {K V : Type}

theorem copy_tree_none (h0 : Int) (root : Node K V) (sentinelData : K × V) (fuel : Nat)
    (n : Node K V) : copy_tree h0 root sentinelData fuel n = none := by
  induction fuel generalizing n with
  | zero => cases n <;> rfl
  | succ fuel ih =>
    cases n with
    | nil => simp [copy_tree, ih]
    | mk l k v h r => simp [copy_tree, ih]

theorem depth_eq_get_height (n : Node K V) : (n.depth : Int) = get_height n + 1 := by
  induction n with
  | nil => simp [Node.depth, get_height]
  | mk l k v h r ihl ihr =>
    simp only [Node.depth, get_height]
    push_cast
    omega

theorem find_min_spec (l r : Node K V) (k : K) (v : V) (h : Int) :
    (∀ d ∈ find_min (Node.mk l k v h r), d = Dir.L) ∧
      ∃ k' v' h' r' rest, (Node.mk l k v h r).subtree (find_min (Node.mk l k v h r)) =
          some (Node.mk Node.nil k' v' h' r') ∧
        (Node.mk l k v h r).toList = (k', v') :: rest := by
  induction l generalizing r k v h with
  | nil =>
    exact ⟨by simp [find_min], k, v, h, r, r.toList, by simp [find_min, Node.subtree],
      by simp [Node.toList]⟩
  | mk a b c d e iha _ =>
    obtain ⟨h1, k', v', h', r', rest, h2, h3⟩ := iha e b c d
    refine ⟨?_, k', v', h', r', rest ++ (k, v) :: r.toList, ?_, ?_⟩
    · intro x hx
      simp only [find_min, List.mem_cons] at hx
      rcases hx with hx | hx
      · exact hx
      · exact h1 x hx
    · simp only [find_min, Node.subtree]
      exact h2
    · rw [Node.toList, h3]
      simp

theorem skeleton_idem (n : Node K V) : n.skeleton.skeleton = n.skeleton := by
  induction n with
  | nil => rfl
  | mk l k v h r ihl ihr => simp [Node.skeleton, ihl, ihr]

theorem skeleton_get_height (n : Node K V) : get_height n.skeleton = get_height n := by
  induction n with
  | nil => rfl
  | mk l k v h r ihl ihr => simp [Node.skeleton, get_height, ihl, ihr]

theorem skeleton_get_balance_factor (n : Node K V) :
    get_balance_factor n.skeleton = get_balance_factor n := by
  cases n <;> simp [Node.skeleton, get_balance_factor, skeleton_get_height]

theorem skeleton_keys (n : Node K V) :
    n.skeleton.toList.map Prod.fst = n.toList.map Prod.fst := by
  induction n with
  | nil => rfl
  | mk l k v h r ihl ihr => simp [Node.skeleton, Node.toList, ihl, ihr]

theorem skeleton_depth (n : Node K V) : n.skeleton.depth = n.depth := by
  induction n with
  | nil => rfl
  | mk l k v h r ihl ihr => simp [Node.skeleton, Node.depth, ihl, ihr]

theorem skeleton_find_NodeType (comp : K → K → Bool) (key : K) (n : Node K V) :
    find_NodeType comp key n.skeleton = find_NodeType comp key n := by
  induction n with
  | nil => rfl
  | mk l k v h r ihl ihr => simp [Node.skeleton, find_NodeType, ihl, ihr]

theorem skeleton_rotate_right (n : Node K V) :
    (rotate_right n).skeleton = rotate_right n.skeleton := by
  rcases n with _ | ⟨_ | ⟨ll, lk, lv, lh, lr⟩, k, v, h, r⟩ <;> simp [rotate_right, Node.skeleton]

theorem skeleton_rotate_left (h0 : Int) (n : Node K V) :
    (rotate_left h0 n).map Node.skeleton = (rotate_left 0 n.skeleton).map Node.skeleton := by
  rcases n with _ | ⟨l, k, v, h, _ | ⟨rl, rk, rv, rh, rr⟩⟩ <;>
    simp [rotate_left, Node.skeleton, update_height, skeleton_idem]

theorem skeleton_balance (h0 : Int) (n : Node K V) :
    (balance h0 n).map Node.skeleton = (balance 0 n.skeleton).map Node.skeleton := by
  rcases n with _ | ⟨l, k, v, h, r⟩
  · rfl
  · rcases l with _ | ⟨ll, lk, lv, lh, _ | ⟨lrl, lrk, lrv, lrh, lrr⟩⟩ <;>
    rcases r with _ | ⟨_ | ⟨rll, rlk, rlv, rlh, rlr⟩, rk, rv, rh, rr⟩ <;>
    simp only [balance, Node.skeleton, get_balance_factor, skeleton_get_height, get_height] <;>
    split_ifs <;>
    simp [rotate_left, rotate_right, Node.skeleton, update_height, skeleton_idem]

theorem skeleton_pushRec (h0 : Int) (comp : K → K → Bool) (key : K) (value : V)
    (x : Node K V) :
    (pushRec h0 comp key value x).map Node.skeleton =
      (pushRec 0 comp key () x.skeleton).map Node.skeleton := by
  induction x with
  | nil =>
    simp only [pushRec, Node.skeleton]
    rw [skeleton_balance]
    rfl
  | mk l k v h r ihl ihr =>
    simp only [pushRec, Node.skeleton]
    split_ifs
    · cases hL : pushRec h0 comp key value l <;>
      cases hR : pushRec 0 comp key () l.skeleton <;>
      rw [hL, hR] at ihl <;> simp only [Option.map_none', Option.map_some', Option.some.injEq,
        Option.none_bind, Option.some_bind] at ihl ⊢
      · cases ihl
      · cases ihl
      · rw [skeleton_balance h0]
        conv_rhs => rw [skeleton_balance 0]
        simp only [Node.skeleton, ihl, skeleton_idem]
    · cases hL : pushRec h0 comp key value r <;>
      cases hR : pushRec 0 comp key () r.skeleton <;>
      rw [hL, hR] at ihr <;> simp only [Option.map_none', Option.map_some', Option.some.injEq,
        Option.none_bind, Option.some_bind] at ihr ⊢
      · cases ihr
      · cases ihr
      · rw [skeleton_balance h0]
        conv_rhs => rw [skeleton_balance 0]
        simp only [Node.skeleton, ihr, skeleton_idem]
    · rfl

theorem skeleton_push (h0 h1 : Int) (comp : K → K → Bool) (key : K) (value : V)
    (t : Tree K V) (t' : Tree K Unit) (h : t.root.skeleton = t'.root.skeleton) :
    (push h0 comp t key value).map (fun t => t.root.skeleton) =
      (push h1 comp t' key ()).map (fun t => t.root.skeleton) := by
  rw [push_eq, push_eq]
  have hf : find_NodeType comp key t.root = find_NodeType comp key t'.root := by
    rw [← skeleton_find_NodeType, h, skeleton_find_NodeType]
  rw [hf]
  cases find_NodeType comp key t'.root with
  | some p => simpa using h
  | none =>
    have e1 := skeleton_pushRec h0 comp key value t.root
    have e2 := skeleton_pushRec h1 comp key () t'.root
    rw [h] at e1
    rw [← e2] at e1
    cases hL : pushRec h0 comp key value t.root <;>
    cases hR : pushRec h1 comp key () t'.root <;>
    rw [hL, hR] at e1 <;> simp at e1 ⊢
    exact e1

theorem skeleton_run_push (h0 h1 : Int) (comp : K → K → Bool) (kvs : List (K × V))
    (t : Tree K V) (t' : Tree K Unit) (h : t.root.skeleton = t'.root.skeleton) :
    (run h0 comp t (kvs.map fun kv => Op.push kv.1 kv.2)).map (fun t => t.root.skeleton) =
      (run h1 comp t' (kvs.map fun kv => Op.push kv.1 ())).map
        (fun t => t.root.skeleton) := by
  induction kvs generalizing t t' with
  | nil => simpa [run] using h
  | cons kv kvs ih =>
    have e := skeleton_push h0 h1 comp kv.1 kv.2 t t' h
    simp only [List.map_cons, run]
    cases hL : push h0 comp t kv.1 kv.2 <;>
    cases hR : push h1 comp t' kv.1 () <;>
    rw [hL, hR] at e <;> simp at e ⊢
    exact ih _ _ e

theorem pushAll_keys_depth (h0 : Int) (comp : K → K → Bool) (keys : List K) (vals : K → V) :
    ∃ t u, pushAll h0 comp (keys.map fun k => (k, vals k)) = some t ∧
      pushAll 0 comp (keys.map fun k => (k, ())) = some u ∧
      t.root.toList.map Prod.fst = u.root.toList.map Prod.fst ∧ t.root.depth = u.root.depth := by
  obtain ⟨t, ht⟩ := pushAll_isSome h0 comp (keys.map fun k => (k, vals k))
  obtain ⟨u, hu⟩ := pushAll_isSome 0 comp (keys.map fun k => (k, ()))
  have e := skeleton_run_push h0 0 comp (keys.map fun k => (k, vals k)) Tree.empty Tree.empty rfl
  simp only [pushAll] at ht hu
  simp only [List.map_map, Function.comp_def] at ht hu e
  rw [ht, hu] at e
  simp only [Option.map_some', Option.some.injEq] at e
  refine ⟨t, u, by simpa [pushAll, List.map_map, Function.comp_def] using ht,
    by simpa [pushAll, List.map_map, Function.comp_def] using hu, ?_, ?_⟩
  · rw [← skeleton_keys t.root, e, skeleton_keys]
  · rw [← skeleton_depth t.root, e, skeleton_depth]

end Averenkov

namespace Averenkov

namespace Linked

variable {K V : Type}

theorem forget_setParent (n : PNode K V) (p : Nat) : forget (setParent n p) = forget n := by
  cases n <;> rfl

theorem forget_get_height (n : PNode K V) : Averenkov.get_height (forget n) = get_height n := by
  induction n with
  | nil => rfl
  | mk a p l k v h r ihl ihr => simp [forget, get_height, Averenkov.get_height, ihl, ihr]

theorem forget_get_balance_factor (n : PNode K V) :
    Averenkov.get_balance_factor (forget n) = get_balance_factor n := by
  cases n <;>
    simp [forget, get_balance_factor, Averenkov.get_balance_factor, forget_get_height]

theorem forget_storedHeight (h0 : Int) (n : PNode K V) :
    Averenkov.storedHeight h0 (forget n) = storedHeight h0 n := by
  cases n <;> rfl

theorem forget_update_height (h0 : Int) (n : PNode K V) :
    forget (update_height h0 n) = Averenkov.update_height h0 (forget n) := by
  cases n <;> simp [forget, update_height, Averenkov.update_height, forget_storedHeight]

theorem forget_rotate_right (n : PNode K V) :
    forget (rotate_right n) = Averenkov.rotate_right (forget n) := by
  rcases n with _ | ⟨a, p, _ | ⟨la, lp, ll, lk, lv, lh, lr⟩, k, v, h, r⟩ <;>
    simp [rotate_right, Averenkov.rotate_right, forget, forget_setParent]

theorem storedHeight_setParent (h0 : Int) (n : PNode K V) (p : Nat) :
    storedHeight h0 (setParent n p) = storedHeight h0 n := by
  cases n <;> rfl

theorem storedHeight_mk (h0 : Int) (a p : Nat) (l r : PNode K V) (k : K) (v : V) (h : Int) :
    storedHeight h0 (PNode.mk a p l k v h r) = h := rfl

theorem forget_rotate_left (h0 : Int) (n : PNode K V) :
    (rotate_left h0 n).map forget = Averenkov.rotate_left h0 (forget n) := by
  rcases n with _ | ⟨a, p, l, k, v, h, _ | ⟨ra, rp, rl, rk, rv, rh, rr⟩⟩
  · rfl
  · rfl
  · simp only [rotate_left, Averenkov.rotate_left, forget, Option.map_some', update_height,
      Averenkov.update_height, forget_setParent, storedHeight_mk, storedHeight_setParent,
      ← forget_storedHeight]

theorem forget_balance (h0 : Int) (n : PNode K V) :
    (balance h0 n).map forget = Averenkov.balance h0 (forget n) := by
  rcases n with _ | ⟨a, p, l, k, v, h, r⟩
  · rfl
  · simp only [balance, Averenkov.balance, forget, ← forget_get_balance_factor]
    split_ifs
    · exact congrArg some (forget_rotate_right _)
    · rw [← forget_rotate_left]
      cases rotate_left h0 l with
      | none => rfl
      | some x => exact congrArg some (forget_rotate_right _)
    · exact forget_rotate_left h0 _
    · rw [← forget_rotate_right]
      exact forget_rotate_left h0 _
    · rfl

theorem forget_plug (f : Frame K V) (n : PNode K V) :
    forget (f.plug n) = (forgetFrame f).plug (forget n) := by
  cases f <;> rfl

theorem forget_descend (comp : K → K → Bool) (key : K) (n : PNode K V)
    (path : List (Frame K V)) :
    (descend comp key n path).map (List.map forgetFrame) =
      Averenkov.descend comp key (forget n) (path.map forgetFrame) := by
  induction n generalizing path with
  | nil => rfl
  | mk a p l k v h r ihl ihr =>
    simp only [descend, Averenkov.descend, forget]
    split_ifs
    · rw [ihl]; rfl
    · rw [ihr]; rfl
    · rfl

theorem forget_rebalance_path (h0 : Int) (n : PNode K V) (path : List (Frame K V)) :
    (rebalance_path h0 n path).map forget =
      Averenkov.rebalance_path h0 (forget n) (path.map forgetFrame) := by
  induction path generalizing n with
  | nil => exact forget_balance h0 n
  | cons f rest ih =>
    simp only [rebalance_path, Averenkov.rebalance_path, List.map_cons]
    rw [← forget_balance]
    cases balance h0 n with
    | none => rfl
    | some b => simp [ih, forget_plug]

theorem forget_push (h0 : Int) (comp : K → K → Bool) (t : PTree K V) (key : K) (value : V) :
    (push h0 comp t key value).map forgetTree =
      Averenkov.push h0 comp (forgetTree t) key value := by
  obtain ⟨root, sz, fr⟩ := t
  cases root with
  | nil => rfl
  | mk a p l k v h r =>
    simp only [push, Averenkov.push, forgetTree, forget]
    have e := forget_descend comp key (PNode.mk a p l k v h r) []
    simp only [forget, List.map_nil] at e
    rw [← e]
    cases descend comp key (PNode.mk a p l k v h r) [] with
    | none => rfl
    | some path =>
      simp only [Option.map_some']
      have e2 := forget_rebalance_path h0
        (PNode.mk fr (parentAddr path) PNode.nil key value h0 PNode.nil) path
      simp only [forget] at e2
      rw [Averenkov.newNode, ← e2]
      cases rebalance_path h0
          (PNode.mk fr (parentAddr path) PNode.nil key value h0 PNode.nil) path with
      | none => rfl
      | some nr => simp [forgetTree, forget_setParent]

theorem forget_pushAll (h0 : Int) (comp : K → K → Bool) (kvs : List (K × V)) (t : PTree K V) :
    (pushAll h0 comp t kvs).map forgetTree =
      Averenkov.run h0 comp (forgetTree t) (kvs.map fun kv => Averenkov.Op.push kv.1 kv.2) := by
  induction kvs generalizing t with
  | nil => rfl
  | cons kv kvs ih =>
    simp only [pushAll, List.map_cons, Averenkov.run]
    rw [← forget_push]
    cases push h0 comp t kv.1 kv.2 with
    | none => rfl
    | some t1 => simp [ih]

theorem parentsOk_setParent (n : PNode K V) (p q : Nat) (h : ParentsOk n q) :
    ParentsOk (setParent n p) p := by
  cases n with
  | nil => trivial
  | mk a p' l k v ht r => exact ⟨rfl, h.2⟩

theorem parentsOk_update_height (h0 : Int) (n : PNode K V) (q : Nat) (h : ParentsOk n q) :
    ParentsOk (update_height h0 n) q := by
  cases n with
  | nil => trivial
  | mk a p' l k v ht r => exact h

theorem parentsOk_rotate_right (n : PNode K V) (q : Nat) (h : ParentsOk n q) :
    ParentsOk (rotate_right n) q := by
  rcases n with _ | ⟨a, p, _ | ⟨xa, xp, xl, xk, xv, xh, t2⟩, k, v, ht, r⟩
  · trivial
  · exact h
  · obtain ⟨h1, ⟨_, h3, h4⟩, h5⟩ := h
    exact ⟨h1, h3, rfl, parentsOk_setParent _ _ _ h4, h5⟩

theorem parentsOk_rotate_left (h0 : Int) (n n' : PNode K V) (q : Nat) (h : ParentsOk n q)
    (e : rotate_left h0 n = some n') : ParentsOk n' q := by
  rcases n with _ | ⟨a, p, l, k, v, ht, _ | ⟨ya, yp, yl, yk, yv, yh, yr⟩⟩
  · cases e; trivial
  · cases e
  · simp only [rotate_left, Option.some.injEq] at e
    subst e
    obtain ⟨h1, h2, _, h4, h5⟩ := h
    exact ⟨h1, ⟨rfl, h2, parentsOk_setParent _ _ _ h4⟩, h5⟩

theorem parentsOk_balance (h0 : Int) (n n' : PNode K V) (q : Nat) (h : ParentsOk n q)
    (e : balance h0 n = some n') : ParentsOk n' q := by
  rcases n with _ | ⟨a, p, l, k, v, ht, r⟩
  · cases e; trivial
  · simp only [balance] at e
    split_ifs at e
    · cases e; exact parentsOk_rotate_right _ _ h
    · simp only [Option.bind_eq_some] at e
      obtain ⟨l', hl', e⟩ := e
      cases e
      exact parentsOk_rotate_right _ _ ⟨h.1, parentsOk_rotate_left h0 l l' a h.2.1 hl', h.2.2⟩
    · exact parentsOk_rotate_left h0 _ _ q h e
    · exact parentsOk_rotate_left h0 (PNode.mk a p l k v ht (rotate_right r)) n' q
        ⟨h.1, h.2.1, parentsOk_rotate_right _ _ h.2.2⟩ e
    · cases e; exact h

theorem descend_pathOk (comp : K → K → Bool) (key : K) (n : PNode K V)
    (path frames : List (Frame K V)) (h : ParentsOk n (parentAddr path)) (hp : PathOk path)
    (e : descend comp key n path = some frames) : PathOk frames := by
  induction n generalizing path with
  | nil => cases e; exact hp
  | mk a p l k v ht r ihl ihr =>
    simp only [descend] at e
    split_ifs at e
    · exact ihl (Frame.left a p k v ht r :: path) h.2.1 ⟨h.1, h.2.2, hp⟩ e
    · exact ihr (Frame.right a p l k v ht :: path) h.2.2 ⟨h.1, h.2.1, hp⟩ e

theorem rebalance_path_parentsOk (h0 : Int) (node n' : PNode K V) (path : List (Frame K V))
    (h : ParentsOk node (parentAddr path)) (hp : PathOk path)
    (e : rebalance_path h0 node path = some n') : ParentsOk n' 0 := by
  induction path generalizing node with
  | nil => exact parentsOk_balance h0 node n' 0 h e
  | cons f rest ih =>
    simp only [rebalance_path, Option.bind_eq_some] at e
    obtain ⟨b, hb, e⟩ := e
    have hb' := parentsOk_balance h0 node b _ h hb
    cases f with
    | left a p k v ht r => exact ih (PNode.mk a p b k v ht r) ⟨hp.1, hb', hp.2.1⟩ hp.2.2 e
    | right a p l k v ht => exact ih (PNode.mk a p l k v ht b) ⟨hp.1, hp.2.1, hb'⟩ hp.2.2 e

theorem push_parentsOk (h0 : Int) (comp : K → K → Bool) (t t' : PTree K V) (key : K)
    (value : V) (h : ParentsOk t.root 0) (e : push h0 comp t key value = some t') :
    ParentsOk t'.root 0 := by
  obtain ⟨root, sz, fr⟩ := t
  cases root with
  | nil => simp only [push, Option.some.injEq] at e; subst e; exact ⟨rfl, trivial, trivial⟩
  | mk a p l k v ht r =>
    simp only [push] at e
    cases hd : descend comp key (PNode.mk a p l k v ht r) [] with
    | none => rw [hd] at e; cases e; exact h
    | some path =>
      rw [hd] at e
      simp only [Option.bind_eq_some] at e
      obtain ⟨nr, hnr, e⟩ := e
      cases e
      have hp := descend_pathOk comp key _ [] path h trivial hd
      exact parentsOk_setParent _ _ _
        (rebalance_path_parentsOk h0
          (PNode.mk fr (parentAddr path) PNode.nil key value h0 PNode.nil) nr path
          ⟨rfl, trivial, trivial⟩ hp hnr)

theorem addrs_setParent (n : PNode K V) (p : Nat) : addrs (setParent n p) = addrs n := by
  cases n <;> rfl

theorem addrs_update_height (h0 : Int) (n : PNode K V) :
    addrs (update_height h0 n) = addrs n := by
  cases n <;> rfl

theorem addrs_rotate_right (n : PNode K V) : addrs (rotate_right n) = addrs n := by
  rcases n with _ | ⟨a, p, _ | ⟨xa, xp, xl, xk, xv, xh, t2⟩, k, v, ht, r⟩ <;>
    simp [rotate_right, addrs, addrs_setParent]

theorem addrs_rotate_left (h0 : Int) (n n' : PNode K V) (e : rotate_left h0 n = some n') :
    addrs n' = addrs n := by
  rcases n with _ | ⟨a, p, l, k, v, ht, _ | ⟨ya, yp, yl, yk, yv, yh, yr⟩⟩
  · cases e; rfl
  · cases e
  · simp only [rotate_left, Option.some.injEq] at e
    subst e
    simp [update_height, addrs, addrs_setParent]

theorem addrs_balance (h0 : Int) (n n' : PNode K V) (e : balance h0 n = some n') :
    addrs n' = addrs n := by
  rcases n with _ | ⟨a, p, l, k, v, ht, r⟩
  · cases e; rfl
  · simp only [balance] at e
    split_ifs at e
    · cases e; exact addrs_rotate_right _
    · simp only [Option.bind_eq_some] at e
      obtain ⟨l', hl', e⟩ := e
      cases e
      rw [addrs_rotate_right]
      simp [addrs, addrs_rotate_left h0 l l' hl']
    · exact addrs_rotate_left h0 _ _ e
    · rw [addrs_rotate_left h0 _ _ e]
      simp [addrs, addrs_rotate_right]
    · cases e; rfl

theorem plugAll_perm (n m : PNode K V) (path : List (Frame K V))
    (h : (addrs n).Perm (addrs m)) : (addrs (plugAll n path)).Perm (addrs (plugAll m path)) := by
  induction path generalizing n m with
  | nil => exact h
  | cons f rest ih =>
    apply ih
    cases f with
    | left a p k v ht r => exact List.Perm.append_right _ h
    | right a p l k v ht => exact List.Perm.append_left _ (List.Perm.cons _ h)

theorem plugAll_perm_cons (n m : PNode K V) (x : Nat) (path : List (Frame K V))
    (h : (addrs n).Perm (x :: addrs m)) :
    (addrs (plugAll n path)).Perm (x :: addrs (plugAll m path)) := by
  induction path generalizing n m with
  | nil => exact h
  | cons f rest ih =>
    apply ih
    cases f with
    | left a p k v ht r =>
      exact (List.Perm.append_right _ h).trans (by simp [addrs, Frame.plug])
    | right a p l k v ht =>
      simp only [Frame.plug, addrs]
      exact (List.Perm.append_left _ (List.Perm.cons _ h)).trans
        ((List.Perm.append_left _ (List.Perm.swap _ _ _)).trans List.perm_middle)

theorem rebalance_path_addrs (h0 : Int) (node n' : PNode K V) (path : List (Frame K V))
    (e : rebalance_path h0 node path = some n') :
    (addrs n').Perm (addrs (plugAll node path)) := by
  induction path generalizing node with
  | nil => rw [addrs_balance h0 node n' e]; exact List.Perm.refl _
  | cons f rest ih =>
    simp only [rebalance_path, Option.bind_eq_some] at e
    obtain ⟨b, hb, e⟩ := e
    refine (ih _ e).trans (plugAll_perm _ _ rest ?_)
    cases f <;> simp [Frame.plug, addrs, addrs_balance h0 node b hb]

theorem descend_plugAll (comp : K → K → Bool) (key : K) (n : PNode K V)
    (path frames : List (Frame K V)) (e : descend comp key n path = some frames) :
    plugAll PNode.nil frames = plugAll n path := by
  induction n generalizing path with
  | nil => cases e; rfl
  | mk a p l k v ht r ihl ihr =>
    simp only [descend] at e
    split_ifs at e
    · exact ihl _ e
    · exact ihr _ e

theorem push_addrs (h0 : Int) (comp : K → K → Bool) (t t' : PTree K V) (key : K) (value : V)
    (e : push h0 comp t key value = some t') :
    t' = t ∨ ((addrs t'.root).Perm (t.fresh :: addrs t.root) ∧ t'.fresh = t.fresh + 1) := by
  obtain ⟨root, sz, fr⟩ := t
  cases root with
  | nil =>
    simp only [push, Option.some.injEq] at e
    subst e
    exact Or.inr ⟨by simp [addrs], rfl⟩
  | mk a p l k v ht r =>
    simp only [push] at e
    cases hd : descend comp key (PNode.mk a p l k v ht r) [] with
    | none => rw [hd] at e; cases e; exact Or.inl rfl
    | some path =>
      rw [hd] at e
      simp only [Option.bind_eq_some] at e
      obtain ⟨nr, hnr, e⟩ := e
      cases e
      refine Or.inr ⟨?_, rfl⟩
      simp only [addrs_setParent]
      have h1 := rebalance_path_addrs h0 _ nr path hnr
      have h2 := plugAll_perm_cons
        (PNode.mk fr (parentAddr path) PNode.nil key value h0 PNode.nil) PNode.nil fr path
        (by simp [addrs])
      rw [descend_plugAll comp key _ [] path hd] at h2
      exact h1.trans h2

theorem pushAll_linked (h0 : Int) (comp : K → K → Bool) (kvs : List (K × V)) (t : PTree K V)
    (hp : ParentsOk t.root 0) (hn : (addrs t.root).Nodup)
    (hr : ∀ a ∈ addrs t.root, 0 < a ∧ a < t.fresh) (hf : 0 < t.fresh) :
    ∃ t', pushAll h0 comp t kvs = some t' ∧ ParentsOk t'.root 0 ∧ (addrs t'.root).Nodup ∧
      (∀ a ∈ addrs t'.root, 0 < a ∧ a < t'.fresh) := by
  induction kvs generalizing t with
  | nil => exact ⟨t, rfl, hp, hn, hr⟩
  | cons kv kvs ih =>
    have hsome : ∃ t1, push h0 comp t kv.1 kv.2 = some t1 := by
      obtain ⟨u, hu⟩ := Averenkov.push_isSome h0 comp (forgetTree t) kv.1 kv.2
      rw [← forget_push] at hu
      cases hx : push h0 comp t kv.1 kv.2 with
      | none => rw [hx] at hu; cases hu
      | some t1 => exact ⟨t1, rfl⟩
    obtain ⟨t1, h1⟩ := hsome
    have hp1 := push_parentsOk h0 comp t t1 kv.1 kv.2 hp h1
    have key : (addrs t1.root).Nodup ∧ (∀ a ∈ addrs t1.root, 0 < a ∧ a < t1.fresh) ∧
        0 < t1.fresh := by
      rcases push_addrs h0 comp t t1 kv.1 kv.2 h1 with rfl | ⟨hperm, hfr⟩
      · exact ⟨hn, hr, hf⟩
      · refine ⟨hperm.nodup_iff.2 (List.nodup_cons.2 ⟨fun hm => ?_, hn⟩), ?_, by omega⟩
        · have := (hr _ hm).2
          omega
        · intro x hx
          rcases List.mem_cons.1 (hperm.mem_iff.1 hx) with rfl | hx
          · omega
          · have := hr x hx
            omega
    obtain ⟨t2, h2, r2⟩ := ih t1 hp1 key.1 key.2.1 key.2.2
    exact ⟨t2, by simp [pushAll, h1, h2], r2⟩

end Linked

end Averenkov

namespace Averenkov

variable {K V : Type}

theorem comp_of_lt_of_equiv {comp : K → K → Bool} (hc : StrictWeakOrder comp) (a e k : K)
    (h1 : comp a e = true) (h2 : keyEquiv comp k e = true) : comp a k = true := by
  simp only [keyEquiv, Bool.and_eq_true, Bool.not_eq_true'] at h2
  cases hak : comp a k with
  | true => rfl
  | false =>
    exfalso
    cases hka : comp k a with
    | true =>
      have := hc.trans k a e hka h1
      rw [h2.1] at this; cases this
    | false =>
      have := (hc.equiv_trans a k e hak hka h2.1 h2.2).1
      rw [h1] at this; cases this

theorem comp_of_equiv_of_lt {comp : K → K → Bool} (hc : StrictWeakOrder comp) (k e s : K)
    (h1 : keyEquiv comp k e = true) (h2 : comp e s = true) : comp k s = true := by
  simp only [keyEquiv, Bool.and_eq_true, Bool.not_eq_true'] at h1
  cases hks : comp k s with
  | true => rfl
  | false =>
    exfalso
    cases hsk : comp s k with
    | true =>
      have := hc.trans e s k h2 hsk
      rw [h1.2] at this; cases this
    | false =>
      have := (hc.equiv_trans e k s h1.2 h1.1 hks hsk).1
      rw [h2] at this; cases this

theorem bounds_agree (comp : K → K → Bool) (key : K) (n : Node K V) (pos : Pos)
    (result : Option Pos) (h : ∀ e ∈ n.toList, (!comp e.1 key) = comp key e.1) :
    lower_bound_loop comp key n pos result = upper_bound_loop comp key n pos result := by
  induction n generalizing pos result with
  | nil => rfl
  | mk l k v ht r ihl ihr =>
    have hk := h (k, v) (by simp [Node.toList])
    simp only [lower_bound_loop, upper_bound_loop]
    simp only at hk
    rw [hk]
    rw [ihl _ _ (fun e he => h e (by simp [Node.toList, he])),
      ihr _ _ (fun e he => h e (by simp [Node.toList, he]))]

theorem equal_range_of_equiv {comp : K → K → Bool} (hc : StrictWeakOrder comp)
    (t : Tree K V) (ht : Ascending comp t.root.toList) (k : K) (A B : List (K × V))
    (e : K × V) (hs : t.root.toList = A ++ e :: B) (he : keyEquiv comp k e.1 = true) :
    (∃ p, lower_bound comp t k = some p ∧ t.root.entry p = some e) ∧
      (B = [] → upper_bound comp t k = none) ∧
      (∀ s B', B = s :: B' → ∃ q, upper_bound comp t k = some q ∧ t.root.entry q = some s) := by
  have hasc := ht
  unfold Ascending at hasc
  rw [hs, List.pairwise_append, List.pairwise_cons] at hasc
  obtain ⟨_, ⟨heB, _⟩, hAe⟩ := hasc
  have he' := he
  simp only [keyEquiv, Bool.and_eq_true, Bool.not_eq_true'] at he'
  have hA : ∀ a ∈ A, comp a.1 k = true := fun a ha =>
    comp_of_lt_of_equiv hc _ _ _ (hAe a ha e (List.mem_cons_self _ _)) he
  have hB : ∀ s ∈ B, comp k s.1 = true := fun s hs' =>
    comp_of_equiv_of_lt hc _ _ _ he (heB s hs')
  obtain ⟨_, l2⟩ := lower_bound_loop_spec hc k t.root ht [] none
  obtain ⟨u1, u2⟩ := upper_bound_loop_spec hc k t.root ht [] none
  have hAl : A.find? (fun x => !comp x.1 k) = none := by
    rw [List.find?_eq_none]
    intro x hx
    simp [hA x hx]
  have hAu : A.find? (fun x => comp k x.1) = none := by
    rw [List.find?_eq_none]
    intro x hx
    simp [hc.asymm _ _ (hA x hx)]
  refine ⟨?_, ?_, ?_⟩
  · obtain ⟨q, h1, h2⟩ := l2 e (by
      rw [hs, List.find?_append, hAl]
      simp [he'.2])
    exact ⟨q, by simpa [lower_bound] using h1, h2⟩
  · intro hB'
    subst hB'
    have := u1 (by
      rw [hs, List.find?_append, hAu]
      simp [he'.1])
    simpa [upper_bound] using this
  · intro s B' hB'
    subst hB'
    obtain ⟨q, h1, h2⟩ := u2 s (by
      rw [hs, List.find?_append, hAu]
      simp [he'.1, hB s (List.mem_cons_self _ _)])
    exact ⟨q, by simpa [upper_bound] using h1, h2⟩

theorem lookup_none_of_ne (k : Pos) (l : List (Pos × Int)) (h : ∀ x ∈ l, x.1 ≠ k) :
    l.lookup k = none := by
  induction l with
  | nil => rfl
  | cons a l ih =>
    obtain ⟨q, v⟩ := a
    have hq : q ≠ k := h (q, v) (List.mem_cons_self _ _)
    have hb : (k == q) = false := by
      simp only [beq_eq_false_iff_ne, ne_eq]
      exact fun e => hq e.symm
    simp only [List.lookup, hb]
    exact ih (fun x hx => h x (List.mem_cons_of_mem _ hx))

theorem lookup_under_fresh (p : Pos) (d : Dir) (hs : List (Pos × Int))
    (h : ∀ x ∈ hs, ¬ List.IsPrefix p x.1) : hs.lookup (p ++ [d]) = none := by
  apply lookup_none_of_ne
  intro x hx e
  exact h x hx (e ▸ List.prefix_append p [d])

theorem lookup_other_side (p : Pos) (d d' : Dir) (hd : d ≠ d') (extra : List (Pos × Int))
    (h : ∀ x ∈ extra, List.IsPrefix (p ++ [d]) x.1) : extra.lookup (p ++ [d']) = none := by
  apply lookup_none_of_ne
  intro x hx e
  obtain ⟨t, ht⟩ := h x hx
  rw [e, List.append_assoc, List.append_cancel_left_eq] at ht
  simp only [List.singleton_append, List.cons.injEq] at ht
  exact hd ht.1

theorem not_prefix_other_side (p q : Pos) (d d' : Dir) (hd : d ≠ d')
    (h : List.IsPrefix (p ++ [d]) q) : ¬ List.IsPrefix (p ++ [d']) q := by
  rintro ⟨t', ht'⟩
  obtain ⟨t, ht⟩ := h
  rw [← ht', List.append_assoc, List.append_assoc, List.append_cancel_left_eq] at ht
  simp only [List.singleton_append, List.cons.injEq] at ht
  exact hd ht.1

theorem prefix_of_prefix_snoc (p q : Pos) (d : Dir) (h : List.IsPrefix (p ++ [d]) q) :
    List.IsPrefix p q :=
  List.IsPrefix.trans (List.prefix_append p [d]) h

theorem ne_of_prefix_snoc (p q : Pos) (d : Dir) (h : List.IsPrefix (p ++ [d]) q) : q ≠ p := by
  intro e
  have := h.length_le
  rw [e] at this
  simp at this

theorem lookup_append_some (k : Pos) (a b : List (Pos × Int)) (v : Int)
    (h : a.lookup k = some v) : (a ++ b).lookup k = some v := by
  rw [List.lookup_append, h]
  rfl

theorem lookup_append_none (k : Pos) (a b : List (Pos × Int)) (h : a.lookup k = none) :
    (a ++ b).lookup k = b.lookup k := by
  rw [List.lookup_append, h]
  rfl

theorem lookup_cons_self (k : Pos) (v : Int) (a : List (Pos × Int)) :
    ((k, v) :: a).lookup k = some v := by
  simp [List.lookup]

theorem get_height_loop_subtree (n : Node K V) (hn : n ≠ Node.nil) (p : Pos) :
    ∃ extra steps, steps ≤ 2 * n.count ∧
      (∀ x ∈ extra, List.IsPrefix p x.1) ∧
      extra.lookup p = some (get_height n) ∧
      ∀ fuel rest hs, (∀ x ∈ hs, ¬ List.IsPrefix p x.1) →
        get_height_loop (steps + fuel) ((p, n) :: rest) hs =
          get_height_loop fuel rest (extra ++ hs) := by
  induction n generalizing p with
  | nil => exact absurd rfl hn
  | mk l k v h r ihl ihr =>
    rcases l with _ | ⟨ll, lk, lv, lh, lr⟩ <;> rcases r with _ | ⟨rl, rk, rv, rh, rr⟩
    · refine ⟨[(p, 1 + max (-1) (-1))], 1, by simp [Node.count], ?_, ?_, ?_⟩
      · intro x hx
        simp only [List.mem_singleton] at hx
        subst hx
        exact List.prefix_refl _
      · simp [List.lookup, get_height]
      · intro fuel rest hs _
        rw [Nat.add_comm]
        simp [get_height_loop, heightsFind]
    · obtain ⟨er, sr, hsr, hur, hlr, hrun⟩ := ihr (by simp) (p ++ [Dir.R])
      refine ⟨(p, 1 + max (-1) (get_height (Node.mk rl rk rv rh rr))) :: er, sr + 2,
        by simp only [Node.count] at hsr ⊢; omega, ?_, ?_, ?_⟩
      · intro x hx
        rcases List.mem_cons.1 hx with rfl | hx
        · exact List.prefix_refl _
        · exact prefix_of_prefix_snoc _ _ _ (hur x hx)
      · rw [lookup_cons_self]; rfl
      · intro fuel rest hs hf
        rw [show sr + 2 + fuel = (sr + (1 + fuel)) + 1 by omega]
        simp only [get_height_loop, heightsFind, lookup_under_fresh p Dir.R hs hf]
        rw [hrun (1 + fuel) _ hs (fun x hx hp => hf x hx (prefix_of_prefix_snoc _ _ _ hp))]
        rw [show 1 + fuel = fuel + 1 by omega]
        simp only [get_height_loop, heightsFind, lookup_append_some _ er hs _ hlr,
          List.cons_append]
    · obtain ⟨el, sl, hsl, hul, hll, hrun⟩ := ihl (by simp) (p ++ [Dir.L])
      refine ⟨(p, 1 + max (get_height (Node.mk ll lk lv lh lr)) (-1)) :: el, sl + 2,
        by simp only [Node.count] at hsl ⊢; omega, ?_, ?_, ?_⟩
      · intro x hx
        rcases List.mem_cons.1 hx with rfl | hx
        · exact List.prefix_refl _
        · exact prefix_of_prefix_snoc _ _ _ (hul x hx)
      · rw [lookup_cons_self]; rfl
      · intro fuel rest hs hf
        rw [show sl + 2 + fuel = (sl + (1 + fuel)) + 1 by omega]
        simp only [get_height_loop, heightsFind, lookup_under_fresh p Dir.L hs hf]
        rw [hrun (1 + fuel) _ hs (fun x hx hp => hf x hx (prefix_of_prefix_snoc _ _ _ hp))]
        rw [show 1 + fuel = fuel + 1 by omega]
        simp only [get_height_loop, heightsFind, lookup_append_some _ el hs _ hll,
          List.cons_append]
    · obtain ⟨el, sl, hsl, hul, hll, hrunl⟩ := ihl (by simp) (p ++ [Dir.L])
      obtain ⟨er, sr, hsr, hur, hlr, hrunr⟩ := ihr (by simp) (p ++ [Dir.R])
      refine ⟨(p, 1 + max (get_height (Node.mk ll lk lv lh lr))
          (get_height (Node.mk rl rk rv rh rr))) :: (er ++ el), sl + sr + 2,
        by simp only [Node.count] at hsl hsr ⊢; omega, ?_, ?_, ?_⟩
      · intro x hx
        rcases List.mem_cons.1 hx with rfl | hx
        · exact List.prefix_refl _
        · rcases List.mem_append.1 hx with hx | hx
          · exact prefix_of_prefix_snoc _ _ _ (hur x hx)
          · exact prefix_of_prefix_snoc _ _ _ (hul x hx)
      · rw [lookup_cons_self]; rfl
      · intro fuel rest hs hf
        rw [show sl + sr + 2 + fuel = (sl + (sr + (1 + fuel))) + 1 by omega]
        simp only [get_height_loop, heightsFind, lookup_under_fresh p Dir.L hs hf,
          lookup_under_fresh p Dir.R hs hf]
        rw [hrunl (sr + (1 + fuel)) _ hs
          (fun x hx hp => hf x hx (prefix_of_prefix_snoc _ _ _ hp))]
        rw [hrunr (1 + fuel) _ (el ++ hs) (fun x hx hp => by
          rcases List.mem_append.1 hx with hx | hx
          · exact not_prefix_other_side p x.1 Dir.L Dir.R (by decide) (hul x hx) hp
          · exact hf x hx (prefix_of_prefix_snoc _ _ _ hp))]
        rw [show 1 + fuel = fuel + 1 by omega]
        have e1 : (er ++ (el ++ hs)).lookup (p ++ [Dir.L]) =
            some (get_height (Node.mk ll lk lv lh lr)) := by
          rw [lookup_append_none _ _ _ (lookup_other_side p Dir.R Dir.L (by decide) er hur)]
          exact lookup_append_some _ _ _ _ hll
        have e2 : (er ++ (el ++ hs)).lookup (p ++ [Dir.R]) =
            some (get_height (Node.mk rl rk rv rh rr)) :=
          lookup_append_some _ _ _ _ hlr
        simp only [get_height_loop, heightsFind, e1, e2, List.cons_append, List.append_assoc]

theorem get_height_iterative_eq (n : Node K V) (extra : Nat) :
    get_height_iterative (2 * n.count + extra) n = some (get_height n) := by
  cases n with
  | nil => rfl
  | mk l k v h r =>
    obtain ⟨ex, steps, hs, _, hl, hrun⟩ :=
      get_height_loop_subtree (Node.mk l k v h r) (by simp) []
    have := hrun (2 * (Node.mk l k v h r).count + extra - steps) [] [] (by simp)
    rw [show steps + (2 * (Node.mk l k v h r).count + extra - steps) =
      2 * (Node.mk l k v h r).count + extra by omega] at this
    simp only [get_height_iterative, this, get_height_loop, List.append_nil, Option.map_some',
      hl, Option.getD_some]

end Averenkov

namespace Smirnov
variable {K V : Type}

theorem depth_nonneg (t : Node K V) : 0 ≤ t.depth := by
  induction t with
  | nil => simp [Node.depth]
  | mk l k v h r ihl ihr => simp only [Node.depth]; omega

theorem height_nil : height (Node.nil : Node K V) = 0 := rfl

theorem height_mk (l r : Node K V) (k : K) (v : V) (h : Int) :
    height (Node.mk l k v h r) = h := rfl

theorem height_eq_depth (t : Node K V) (h : t.HeightsOk) : height t = t.depth := by
  cases t with
  | nil => rfl
  | mk l k v ht r => simp only [Node.HeightsOk] at h; simp only [height, Node.depth]; exact h.2.2

theorem updateHeight_eq (l r : Node K V) (k : K) (v : V) (h : Int) :
    updateHeight (Node.mk l k v h r) = some (Node.mk l k v (1 + max (height l) (height r)) r) := by
  simp only [updateHeight, Option.some.injEq, Node.mk.injEq, true_and, and_true]
  split_ifs <;> omega

theorem balance_spec (l r : Node K V) (k : K) (v : V) (h : Int)
    (hl : l.HeightsOk) (hr : r.HeightsOk) (bl : l.Balanced) (br : r.Balanced)
    (d1 : l.depth - r.depth ≤ 2) (d2 : r.depth - l.depth ≤ 2) :
    ∃ t', balance (Node.mk l k v h r) = some t' ∧ t'.HeightsOk ∧ t'.Balanced ∧
      t'.toList = l.toList ++ (k, v) :: r.toList ∧
      t'.depth ≤ 1 + max l.depth r.depth ∧ max l.depth r.depth ≤ t'.depth ∧
      (l.depth - r.depth ≤ 1 → r.depth - l.depth ≤ 1 →
        t' = Node.mk l k v (1 + max l.depth r.depth) r) := by
  by_cases h1 : l.depth - r.depth > 1
  · -- left-heavy: `l` is a node
    match l, hl, bl, h1, d1, d2 with
    | Node.nil, _, _, h1, _, _ =>
      exfalso; simp only [Node.depth] at h1; have := depth_nonneg r; omega
    | Node.mk ll lk lv lh lr, hl, bl, h1, d1, d2 =>
      simp only [Node.HeightsOk] at hl
      simp only [Node.Balanced] at bl
      obtain ⟨hl1, hl2, hl3⟩ := hl
      obtain ⟨bl1, bl2, bl3, bl4⟩ := bl
      subst hl3
      have e1 := height_eq_depth ll hl1
      have er := height_eq_depth r hr
      have := depth_nonneg ll; have := depth_nonneg r
      by_cases h3 : ll.depth - lr.depth < 0
      · match lr, hl2, bl2, h3, bl3, bl4, h1, d1, d2 with
        | Node.nil, _, _, h3, _, _, _, _, _ =>
          exfalso; simp only [Node.depth] at h3; omega
        | Node.mk a b c d e, hl2, bl2, h3, bl3, bl4, h1, d1, d2 =>
          simp only [Node.HeightsOk] at hl2
          simp only [Node.Balanced] at bl2
          obtain ⟨ha, he, hd⟩ := hl2
          obtain ⟨ba, be, b3, b4⟩ := bl2
          subst hd
          have e3 := height_eq_depth a ha
          have e4 := height_eq_depth e he
          have := depth_nonneg a; have := depth_nonneg e
          simp only [Node.depth] at h3 bl3 bl4 h1 d1 d2 ⊢
          refine ⟨Node.mk (Node.mk ll lk lv (1 + max ll.depth a.depth) a) b c
            (1 + max (1 + max ll.depth a.depth) (1 + max e.depth r.depth))
            (Node.mk e k v (1 + max e.depth r.depth) r), ?_, ?_, ?_, ?_, ?_, ?_, ?_⟩
          · simp only [balance, updateHeight_eq, Option.some_bind, getBalanceFactor,
              Node.left, Node.setLeft, height_mk, e1, e3, e4, er, rotateLeft, rotateRight]
            rw [if_pos (by omega), if_pos (by omega)]
          · simp only [Node.HeightsOk, Node.depth]
            exact ⟨⟨hl1, ha, trivial⟩, ⟨he, hr, trivial⟩, trivial⟩
          · simp only [Node.Balanced, Node.depth]
            refine ⟨⟨bl1, ba, ?_, ?_⟩, ⟨be, br, ?_, ?_⟩, ?_, ?_⟩ <;> omega
          · simp [Node.toList]
          · simp only [Node.depth]; omega
          · simp only [Node.depth]; omega
          · intro _ _; omega
      · have e2 := height_eq_depth lr hl2
        have := depth_nonneg lr
        simp only [Node.depth] at h1 d1 d2 ⊢
        refine ⟨Node.mk ll lk lv (1 + max ll.depth (1 + max lr.depth r.depth))
            (Node.mk lr k v (1 + max lr.depth r.depth) r), ?_, ?_, ?_, ?_, ?_, ?_, ?_⟩
        · simp only [balance, updateHeight_eq, Option.some_bind, getBalanceFactor,
            Node.left, Node.setLeft, height_mk, e1, e2, er, rotateLeft, rotateRight]
          rw [if_pos (by omega), if_neg (by omega)]
        · simp only [Node.HeightsOk, Node.depth]
          exact ⟨hl1, ⟨hl2, hr, trivial⟩, trivial⟩
        · simp only [Node.Balanced, Node.depth]
          refine ⟨bl1, ⟨bl2, br, ?_, ?_⟩, ?_, ?_⟩ <;> omega
        · simp [Node.toList]
        · simp only [Node.depth]; omega
        · simp only [Node.depth]; omega
        · intro _ _; omega
  · by_cases h2 : l.depth - r.depth < -1
    · -- right-heavy: `r` is a node
      match r, hr, br, h1, h2, d1, d2 with
      | Node.nil, _, _, _, h2, _, _ =>
        exfalso; simp only [Node.depth] at h2; have := depth_nonneg l; omega
      | Node.mk rl rk rv rh rr, hr, br, h1, h2, d1, d2 =>
        simp only [Node.HeightsOk] at hr
        simp only [Node.Balanced] at br
        obtain ⟨hr1, hr2, hr3⟩ := hr
        obtain ⟨br1, br2, br3, br4⟩ := br
        subst hr3
        have e2 := height_eq_depth rr hr2
        have el := height_eq_depth l hl
        have := depth_nonneg rr; have := depth_nonneg l
        by_cases h3 : rl.depth - rr.depth > 0
        · match rl, hr1, br1, h3, br3, br4, h1, h2, d1, d2 with
          | Node.nil, _, _, h3, _, _, _, _, _, _ =>
            exfalso; simp only [Node.depth] at h3; omega
          | Node.mk a b c d e, hr1, br1, h3, br3, br4, h1, h2, d1, d2 =>
            simp only [Node.HeightsOk] at hr1
            simp only [Node.Balanced] at br1
            obtain ⟨ha, he, hd⟩ := hr1
            obtain ⟨ba, be, b3, b4⟩ := br1
            subst hd
            have e3 := height_eq_depth a ha
            have e4 := height_eq_depth e he
            have := depth_nonneg a; have := depth_nonneg e
            simp only [Node.depth] at h3 br3 br4 h1 h2 d1 d2 ⊢
            refine ⟨Node.mk (Node.mk l k v (1 + max l.depth a.depth) a) b c
              (1 + max (1 + max l.depth a.depth) (1 + max e.depth rr.depth))
              (Node.mk e rk rv (1 + max e.depth rr.depth) rr), ?_, ?_, ?_, ?_, ?_, ?_, ?_⟩
            · simp only [balance, updateHeight_eq, Option.some_bind, getBalanceFactor,
                Node.right, Node.setRight, height_mk, e2, e3, e4, el, rotateLeft, rotateRight]
              rw [if_neg (by omega), if_pos (by omega), if_pos (by omega)]
            · simp only [Node.HeightsOk, Node.depth]
              exact ⟨⟨hl, ha, trivial⟩, ⟨he, hr2, trivial⟩, trivial⟩
            · simp only [Node.Balanced, Node.depth]
              refine ⟨⟨bl, ba, ?_, ?_⟩, ⟨be, br2, ?_, ?_⟩, ?_, ?_⟩ <;> omega
            · simp [Node.toList]
            · simp only [Node.depth]; omega
            · simp only [Node.depth]; omega
            · intro _ _; omega
        · have e1 := height_eq_depth rl hr1
          have := depth_nonneg rl
          simp only [Node.depth] at h1 h2 d1 d2 ⊢
          refine ⟨Node.mk (Node.mk l k v (1 + max l.depth rl.depth) rl) rk rv
              (1 + max (1 + max l.depth rl.depth) rr.depth) rr, ?_, ?_, ?_, ?_, ?_, ?_, ?_⟩
          · simp only [balance, updateHeight_eq, Option.some_bind, getBalanceFactor,
              Node.right, Node.setRight, height_mk, e1, e2, el, rotateLeft, rotateRight]
            rw [if_neg (by omega), if_pos (by omega), if_neg (by omega)]
          · simp only [Node.HeightsOk, Node.depth]
            exact ⟨⟨hl, hr1, trivial⟩, hr2, trivial⟩
          · simp only [Node.Balanced, Node.depth]
            refine ⟨⟨bl, br1, ?_, ?_⟩, br2, ?_, ?_⟩ <;> omega
          · simp [Node.toList]
          · simp only [Node.depth]; omega
          · simp only [Node.depth]; omega
          · intro _ _; omega
    · have el := height_eq_depth l hl
      have er := height_eq_depth r hr
      refine ⟨Node.mk l k v (1 + max l.depth r.depth) r, ?_, ?_, ?_, ?_, ?_, ?_, ?_⟩
      · simp only [balance, updateHeight_eq, Option.some_bind, getBalanceFactor, height_mk,
          el, er]
        rw [if_neg (by omega), if_neg (by omega)]
      · simp only [Node.HeightsOk]; exact ⟨hl, hr, trivial⟩
      · simp only [Node.Balanced]; exact ⟨bl, br, by omega, by omega⟩
      · simp [Node.toList]
      · simp only [Node.depth]; omega
      · simp only [Node.depth]; omega
      · intro _ _; rfl

theorem depth_assign (n : Node K V) (p : Pos) (b : V) : (n.assign p b).depth = n.depth := by
  induction n generalizing p with
  | nil => simp [Node.assign]
  | mk l k v h r ihl ihr =>
    match p with
    | [] => simp [Node.assign, Node.depth]
    | Dir.L :: p => simp [Node.assign, Node.depth, ihl]
    | Dir.R :: p => simp [Node.assign, Node.depth, ihr]

theorem heightsOk_assign (n : Node K V) (p : Pos) (b : V) (h : n.HeightsOk) :
    (n.assign p b).HeightsOk := by
  induction n generalizing p with
  | nil => simpa [Node.assign] using h
  | mk l k v ht r ihl ihr =>
    simp only [Node.HeightsOk] at h
    match p with
    | [] => simpa [Node.assign, Node.HeightsOk] using h
    | Dir.L :: p =>
      simp only [Node.assign, Node.HeightsOk, depth_assign]
      exact ⟨ihl p h.1, h.2.1, h.2.2⟩
    | Dir.R :: p =>
      simp only [Node.assign, Node.HeightsOk, depth_assign]
      exact ⟨h.1, ihr p h.2.1, h.2.2⟩

theorem balanced_assign (n : Node K V) (p : Pos) (b : V) (h : n.Balanced) :
    (n.assign p b).Balanced := by
  induction n generalizing p with
  | nil => simpa [Node.assign] using h
  | mk l k v ht r ihl ihr =>
    simp only [Node.Balanced] at h
    match p with
    | [] => simpa [Node.assign, Node.Balanced] using h
    | Dir.L :: p =>
      simp only [Node.assign, Node.Balanced, depth_assign]
      exact ⟨ihl p h.1, h.2.1, h.2.2⟩
    | Dir.R :: p =>
      simp only [Node.assign, Node.Balanced, depth_assign]
      exact ⟨h.1, ihr p h.2.1, h.2.2⟩

theorem keys_assign (n : Node K V) (p : Pos) (b : V) :
    (n.assign p b).toList.map Prod.fst = n.toList.map Prod.fst := by
  induction n generalizing p with
  | nil => simp [Node.assign]
  | mk l k v h r ihl ihr =>
    match p with
    | [] => simp [Node.assign, Node.toList]
    | Dir.L :: p => simp [Node.assign, Node.toList, ihl]
    | Dir.R :: p => simp [Node.assign, Node.toList, ihr]

theorem ascending_assign (comp : K → K → Bool) (n : Node K V) (p : Pos) (b : V)
    (h : Ascending comp n.toList) : Ascending comp (n.assign p b).toList := by
  have key : ∀ l : List (K × V), Ascending comp l ↔
      (l.map Prod.fst).Pairwise (fun a b => comp a b = true) := by
    intro l; unfold Ascending; rw [List.pairwise_map]
  rw [key, keys_assign, ← key]; exact h

theorem findNode_assign (comp : K → K → Bool) (key : K) (n : Node K V) (p : Pos) (b : V) :
    findNode comp (n.assign p b) key = findNode comp n key := by
  induction n generalizing p with
  | nil => simp [Node.assign]
  | mk l k v h r ihl ihr =>
    match p with
    | [] => simp [Node.assign, findNode]
    | Dir.L :: p => simp [Node.assign, findNode, ihl]
    | Dir.R :: p => simp [Node.assign, findNode, ihr]

theorem avl_entry_assign (n : Node K V) (p : Pos) (b : V) (k : K) (v : V)
    (he : n.entry p = some (k, v)) : (n.assign p b).entry p = some (k, b) := by
  induction n generalizing p with
  | nil => cases p <;> simp [Node.entry, Node.subtree] at he
  | mk l k' v' h r ihl ihr =>
    match p, he with
    | [], he =>
      simp [Node.entry, Node.subtree] at he
      simp [Node.assign, Node.entry, Node.subtree, he.1]
    | Dir.L :: p, he =>
      have := ihl p (by simpa [Node.entry, Node.subtree] using he)
      simpa [Node.assign, Node.entry, Node.subtree] using this
    | Dir.R :: p, he =>
      have := ihr p (by simpa [Node.entry, Node.subtree] using he)
      simpa [Node.assign, Node.entry, Node.subtree] using this

theorem findNode_entry (comp : K → K → Bool) (key : K) (t : Node K V) (p : Pos)
    (hf : findNode comp t key = some p) :
    ∃ k v, t.entry p = some (k, v) ∧ (k, v) ∈ t.toList ∧ keyEquiv comp key k = true := by
  induction t generalizing p with
  | nil => simp [findNode] at hf
  | mk l k v h r ihl ihr =>
    simp only [findNode] at hf
    split_ifs at hf with h1 h2
    · simp only [Option.map_eq_some'] at hf
      obtain ⟨q, hq, rfl⟩ := hf
      obtain ⟨k', v', he, hm, hk⟩ := ihl q hq
      refine ⟨k', v', ?_, ?_, hk⟩
      · simpa [Node.entry, Node.subtree] using he
      · simp [Node.toList, hm]
    · simp only [Option.map_eq_some'] at hf
      obtain ⟨q, hq, rfl⟩ := hf
      obtain ⟨k', v', he, hm, hk⟩ := ihr q hq
      refine ⟨k', v', ?_, ?_, hk⟩
      · simpa [Node.entry, Node.subtree] using he
      · simp [Node.toList, hm]
    · simp only [Option.some.injEq] at hf
      subst hf
      refine ⟨k, v, by simp [Node.entry, Node.subtree], by simp [Node.toList], ?_⟩
      simp only [Bool.not_eq_true] at h1 h2
      simp [keyEquiv, h1, h2]

theorem findNode_of_equiv {comp : K → K → Bool} (hc : StrictWeakOrder comp) (key : K)
    (t : Node K V) (ht : Ascending comp t.toList) (e : K × V) (he : e ∈ t.toList)
    (hk : keyEquiv comp key e.1 = true) : ∃ p, findNode comp t key = some p := by
  induction t with
  | nil => simp [Node.toList] at he
  | mk l k v h r ihl ihr =>
    simp only [keyEquiv, Bool.and_eq_true, Bool.not_eq_true'] at hk
    unfold Ascending at ht ihl ihr
    simp only [Node.toList, List.pairwise_append, List.pairwise_cons, List.mem_cons] at ht
    simp only [Node.toList, List.mem_append, List.mem_cons] at he
    simp only [findNode]
    split_ifs with h1 h2
    · rcases he with he | rfl | he
      · obtain ⟨p, hp⟩ := ihl ht.1 he
        exact ⟨_, by rw [hp]; rfl⟩
      · simp [hk.1] at h1
      · have := hc.trans _ _ _ h1 (ht.2.1.1 e he)
        simp [hk.1] at this
    · rcases he with he | rfl | he
      · have := hc.trans _ _ _ (ht.2.2 e he (k, v) (Or.inl rfl)) h2
        simp [hk.2] at this
      · simp [hk.2] at h2
      · obtain ⟨p, hp⟩ := ihr ht.2.1.2 he
        exact ⟨_, by rw [hp]; rfl⟩
    · exact ⟨_, rfl⟩

theorem not_equiv_of_findNode_none {comp : K → K → Bool} (hc : StrictWeakOrder comp) (key : K)
    (n : Node K V) (hn : Ascending comp n.toList) (hf : findNode comp n key = none) :
    ∀ e ∈ n.toList, keyEquiv comp key e.1 = false := by
  intro e he
  cases hk : keyEquiv comp key e.1 with
  | false => rfl
  | true =>
    obtain ⟨p, hp⟩ := findNode_of_equiv hc key n hn e he hk
    rw [hf] at hp; cases hp

theorem findNode_none_of_not_equiv (comp : K → K → Bool) (key : K) (n : Node K V)
    (hk : ∀ e ∈ n.toList, keyEquiv comp key e.1 = false) : findNode comp n key = none := by
  cases hf : findNode comp n key with
  | none => rfl
  | some p =>
    obtain ⟨k, v, _, hm, he⟩ := findNode_entry comp key n p hf
    have := hk _ hm
    simp [he] at this

/-- What `addOrGet` does to a subtree with consistent heights and balanced nodes. -/
theorem addOrGet_spec {comp : K → K → Bool} (hc : StrictWeakOrder comp) (n : Node K V)
    (key : K) (value : V) (size : Nat) (hn : n.HeightsOk) (bn : n.Balanced) :
    ∃ n' s', addOrGet comp n key value size = some (n', s') ∧ n'.HeightsOk ∧ n'.Balanced ∧
      n.depth ≤ n'.depth ∧ n'.depth ≤ n.depth + 1 ∧
      (findNode comp n key = none → Ascending comp n.toList →
        n'.toList = insertSorted comp key value n.toList ∧ s' = size + 1) ∧
      (∀ p, findNode comp n key = some p → n' = n.assign p value ∧ s' = size) := by
  induction n with
  | nil =>
    refine ⟨newNode key value, size + 1, rfl, ?_, ?_, ?_, ?_, ?_, ?_⟩
    · simp [newNode, Node.HeightsOk, Node.depth]
    · simp [newNode, Node.Balanced, Node.depth]
    · simp [newNode, Node.depth]
    · simp [newNode, Node.depth]
    · intro _ _; simp [newNode, Node.toList, insertSorted]
    · intro p hp; simp [findNode] at hp
  | mk l k v h r ihl ihr =>
    simp only [Node.HeightsOk] at hn
    simp only [Node.Balanced] at bn
    obtain ⟨hl, hr, hh⟩ := hn
    obtain ⟨bl, br, d1, d2⟩ := bn
    simp only [addOrGet, findNode]
    split_ifs with h1 h2
    · obtain ⟨l', s', e1, hl', bl', g1, g2, ha, hp⟩ := ihl hl bl
      obtain ⟨t', f1, f2, f3, f4, f5, f6, f7⟩ :=
        balance_spec l' r k v h hl' hr bl' br (by omega) (by omega)
      refine ⟨t', s', by simp [e1, f1], f2, f3, ?_, ?_, ?_, ?_⟩
      · simp only [Node.depth]
        by_cases hd : l'.depth - r.depth ≤ 1
        · rw [f7 hd (by omega)]; simp only [Node.depth]; omega
        · omega
      · simp only [Node.depth]; omega
      · intro hf hasc
        unfold Ascending at hasc
        simp only [Node.toList, List.pairwise_append, List.pairwise_cons, List.mem_cons] at hasc
        obtain ⟨a1, a2⟩ := ha (by simpa using hf) hasc.1
        refine ⟨?_, a2⟩
        rw [f4, a1]
        simp only [Node.toList]
        rw [insertSorted_append_left comp key value _ _ (k, v) h1]
      · intro p hf
        simp only [Option.map_eq_some'] at hf
        obtain ⟨q, hq, rfl⟩ := hf
        obtain ⟨a1, a2⟩ := hp q hq
        subst a1
        refine ⟨?_, a2⟩
        rw [f7 (by rw [depth_assign]; omega) (by rw [depth_assign]; omega), depth_assign, ← hh]
        rfl
    · obtain ⟨r', s', e1, hr', br', g1, g2, ha, hp⟩ := ihr hr br
      obtain ⟨t', f1, f2, f3, f4, f5, f6, f7⟩ :=
        balance_spec l r' k v h hl hr' bl br' (by omega) (by omega)
      refine ⟨t', s', by simp [e1, f1], f2, f3, ?_, ?_, ?_, ?_⟩
      · simp only [Node.depth]
        by_cases hd : r'.depth - l.depth ≤ 1
        · rw [f7 (by omega) hd]; simp only [Node.depth]; omega
        · omega
      · simp only [Node.depth]; omega
      · intro hf hasc
        unfold Ascending at hasc
        simp only [Node.toList, List.pairwise_append, List.pairwise_cons, List.mem_cons] at hasc
        obtain ⟨a1, a2⟩ := ha (by simpa using hf) hasc.2.1.2
        refine ⟨?_, a2⟩
        rw [f4, a1]
        simp only [Node.toList]
        rw [insertSorted_append_right comp key value _ _ (k, v)]
        · intro a ha'
          exact hc.asymm _ _ (hc.trans _ _ _ (hasc.2.2 a ha' (k, v) (Or.inl rfl)) h2)
        · simpa using h1
      · intro p hf
        simp only [Option.map_eq_some'] at hf
        obtain ⟨q, hq, rfl⟩ := hf
        obtain ⟨a1, a2⟩ := hp q hq
        subst a1
        refine ⟨?_, a2⟩
        rw [f7 (by rw [depth_assign]; omega) (by rw [depth_assign]; omega), depth_assign, ← hh]
        rfl
    · obtain ⟨t', f1, f2, f3, f4, f5, f6, f7⟩ :=
        balance_spec l r k value h hl hr bl br (by omega) (by omega)
      refine ⟨t', size, by simp [f1], f2, f3, ?_, ?_, ?_, ?_⟩
      · rw [f7 d1 d2]; simp only [Node.depth]; omega
      · simp only [Node.depth]; omega
      · intro hf; simp at hf
      · intro p hf
        simp only [Option.some.injEq] at hf
        subst hf
        rw [f7 d1 d2, ← hh]
        exact ⟨rfl, rfl⟩

/-- What the non-const `operator[]` does to a tree whose stored heights are the structural
ones, whose nodes are balanced and whose in-order list is strictly ascending: these three
properties are kept, and the reference designates a pair holding `Value()`. -/
theorem subscript_spec {comp : K → K → Bool} (hc : StrictWeakOrder comp) (dflt : V)
    (t : AvlTree K V) (key : K) (hh : t.root_.HeightsOk) (hb : t.root_.Balanced)
    (ha : Ascending comp t.root_.toList) :
    ∃ t' p, subscript comp dflt t key = some (t', p) ∧
      t'.root_.HeightsOk ∧ t'.root_.Balanced ∧ Ascending comp t'.root_.toList ∧
      (∃ k', t'.root_.entry p = some (k', dflt)) ∧
      ((∀ e ∈ t.root_.toList, keyEquiv comp key e.1 = false) →
        t'.root_.toList = insertSorted comp key dflt t.root_.toList ∧
        t'.size_ = t.size_ + 1 ∧ t'.root_.entry p = some (key, dflt)) ∧
      (∀ q, findNode comp t.root_ key = some q →
        p = q ∧ t' = ⟨t.root_.assign q dflt, t.size_⟩) := by
  obtain ⟨n', s', e1, h1, b1, _, _, habs, hfound⟩ :=
    addOrGet_spec hc t.root_ key dflt t.size_ hh hb
  cases hf : findNode comp t.root_ key with
  | none =>
    obtain ⟨a1, a2⟩ := habs hf ha
    have hasc : Ascending comp n'.toList := by
      rw [a1]
      exact insertSorted_ascending hc key dflt _ ha (not_equiv_of_findNode_none hc key _ ha hf)
    have hmem : (key, dflt) ∈ n'.toList := by
      rw [a1, mem_insertSorted]; exact Or.inl rfl
    obtain ⟨p, hp⟩ := findNode_of_equiv hc key n' hasc (key, dflt) hmem (keyEquiv_refl hc key)
    obtain ⟨k', v', he, hm, hke⟩ := findNode_entry comp key n' p hp
    have heq : ((k', v') : K × V) = (key, dflt) :=
      ascending_equiv_unique _ hasc (k', v') (key, dflt) hm hmem
        (keyEquiv_trans_left hc _ _ _ hke (keyEquiv_refl hc key))
    refine ⟨⟨n', s'⟩, p, by simp [subscript, e1, hp], h1, b1, hasc, ⟨key, by rw [he, heq]⟩,
      fun _ => ⟨a1, a2, by rw [he, heq]⟩, ?_⟩
    intro q hq; cases hq
  | some q =>
    obtain ⟨a1, a2⟩ := hfound q hf
    subst a1 a2
    have hq : findNode comp (t.root_.assign q dflt) key = some q := by
      rw [findNode_assign, hf]
    obtain ⟨k', v', he, hm, hke⟩ := findNode_entry comp key t.root_ q hf
    refine ⟨⟨t.root_.assign q dflt, t.size_⟩, q, by simp [subscript, e1, hq], h1, b1,
      ascending_assign comp _ _ _ ha, ⟨k', avl_entry_assign _ _ _ _ _ he⟩, ?_, ?_⟩
    · intro hall
      have := hall _ hm
      simp [hke] at this
    · intro q' hq'
      cases hq'
      exact ⟨rfl, rfl⟩

theorem run_spec {comp : K → K → Bool} (hc : StrictWeakOrder comp) (dflt : V)
    (ops : List (Op K V)) (t : AvlTree K V) (hh : t.root_.HeightsOk) (hb : t.root_.Balanced)
    (ha : Ascending comp t.root_.toList) :
    ∃ t', run comp dflt t ops = some t' ∧ t'.root_.HeightsOk ∧ t'.root_.Balanced ∧
      Ascending comp t'.root_.toList := by
  induction ops generalizing t with
  | nil => exact ⟨t, rfl, hh, hb, ha⟩
  | cons op ops ih =>
    cases op with
    | get k =>
      obtain ⟨t1, p, e1, h1, b1, a1, _⟩ := subscript_spec hc dflt t k hh hb ha
      obtain ⟨t2, e2, r2⟩ := ih t1 h1 b1 a1
      exact ⟨t2, by simp [run, e1, e2], r2⟩
    | set k v =>
      obtain ⟨t1, p, e1, h1, b1, a1, _⟩ := subscript_spec hc dflt t k hh hb ha
      obtain ⟨t2, e2, r2⟩ := ih ⟨t1.root_.assign p v, t1.size_⟩
        (heightsOk_assign _ _ _ h1) (balanced_assign _ _ _ b1) (ascending_assign comp _ _ _ a1)
      exact ⟨t2, by simp [run, e1, e2], r2⟩

theorem run_from_empty {comp : K → K → Bool} (hc : StrictWeakOrder comp) (dflt : V)
    (ops : List (Op K V)) :
    ∃ t', run comp dflt AvlTree.empty ops = some t' ∧ t'.root_.HeightsOk ∧ t'.root_.Balanced ∧
      Ascending comp t'.root_.toList :=
  run_spec hc dflt ops AvlTree.empty trivial trivial
    (by simp [AvlTree.empty, Node.toList, Ascending])

end Smirnov

namespace Smirnov
variable {K V : Type}

theorem findNode_spec {comp : K → K → Bool} (hc : StrictWeakOrder comp) (key : K)
    (n : Node K V) (hn : Ascending comp n.toList) :
    (∀ e ∈ n.toList, keyEquiv comp key e.1 = true →
        ∃ p, findNode comp n key = some p ∧ n.entry p = some e) ∧
      (findNode comp n key = none ↔ ∀ e ∈ n.toList, keyEquiv comp key e.1 = false) := by
  refine ⟨?_, ⟨not_equiv_of_findNode_none hc key n hn, findNode_none_of_not_equiv comp key n⟩⟩
  intro e he hk
  obtain ⟨p, hp⟩ := findNode_of_equiv hc key n hn e he hk
  obtain ⟨k', v', hent, hm, hke⟩ := findNode_entry comp key n p hp
  have : ((k', v') : K × V) = e :=
    ascending_equiv_unique _ hn (k', v') e hm he (keyEquiv_trans_left hc _ _ _ hke hk)
  exact ⟨p, hp, by rw [hent, this]⟩

theorem avl_at_spec {comp : K → K → Bool} (hc : StrictWeakOrder comp) (key : K)
    (t : AvlTree K V) (ht : Ascending comp t.root_.toList) :
    (AvlTree.at comp t key = none ↔ ∀ e ∈ t.root_.toList, keyEquiv comp key e.1 = false) ∧
      (∀ e ∈ t.root_.toList, keyEquiv comp key e.1 = true →
        AvlTree.at comp t key = some e.2) := by
  obtain ⟨h1, h2⟩ := findNode_spec hc key t.root_ ht
  constructor
  · rw [← h2]
    unfold AvlTree.at
    cases hf : findNode comp t.root_ key with
    | none => simp
    | some p =>
      obtain ⟨k', v', hent, _, _⟩ := findNode_entry comp key t.root_ p hf
      simp [hent]
  · intro e he hk
    obtain ⟨p, hp, hent⟩ := h1 e he hk
    simp [AvlTree.at, hp, hent]

end Smirnov

namespace Smirnov
variable {K V : Type}

theorem storedOk_of_heightsOk (n : Node K V) (h : n.HeightsOk) : n.StoredOk := by
  induction n with
  | nil => trivial
  | mk l k v ht r ihl ihr =>
    simp only [Node.HeightsOk] at h
    simp only [Node.StoredOk]
    exact ⟨ihl h.1, ihr h.2.1, by rw [height_eq_depth l h.1, height_eq_depth r h.2.1]; exact h.2.2⟩

theorem length_insertSorted (comp : K → K → Bool) (k : K) (v : V) (l : List (K × V)) :
    (insertSorted comp k v l).length = l.length + 1 := by
  induction l with
  | nil => simp [insertSorted]
  | cons e es ih =>
    simp only [insertSorted]
    split_ifs
    · simp
    · simp [ih]

theorem insertSorted_last (comp : K → K → Bool) (k : K) (v : V) (l : List (K × V))
    (h : ∀ e ∈ l, comp k e.1 = false) : insertSorted comp k v l = l ++ [(k, v)] := by
  induction l with
  | nil => simp [insertSorted]
  | cons e es ih =>
    have he : comp k e.1 = false := h e (List.mem_cons_self _ _)
    simp only [insertSorted, he, Bool.false_eq_true, if_false, List.cons_append]
    rw [ih (fun x hx => h x (List.mem_cons_of_mem _ hx))]

theorem toList_assign_split (n : Node K V) (p : Pos) (k : K) (d b : V)
    (he : n.entry p = some (k, d)) :
    ∃ A B, n.toList = A ++ (k, d) :: B ∧ (n.assign p b).toList = A ++ (k, b) :: B := by
  induction n generalizing p with
  | nil => cases p <;> simp [Node.entry, Node.subtree] at he
  | mk l k' v' h r ihl ihr =>
    match p, he with
    | [], he =>
      simp only [Node.entry, Node.subtree, Option.some.injEq, Prod.mk.injEq] at he
      obtain ⟨rfl, rfl⟩ := he
      exact ⟨l.toList, r.toList, by simp [Node.toList], by simp [Node.assign, Node.toList]⟩
    | Dir.L :: q, he =>
      have he' : l.entry q = some (k, d) := by
        simpa [Node.entry, Node.subtree] using he
      obtain ⟨A, B, h1, h2⟩ := ihl q he'
      exact ⟨A, B ++ (k', v') :: r.toList, by simp [Node.toList, h1],
        by simp [Node.assign, Node.toList, h2]⟩
    | Dir.R :: q, he =>
      have he' : r.entry q = some (k, d) := by
        simpa [Node.entry, Node.subtree] using he
      obtain ⟨A, B, h1, h2⟩ := ihr q he'
      exact ⟨l.toList ++ (k', v') :: A, B, by simp [Node.toList, h1],
        by simp [Node.assign, Node.toList, h2]⟩

theorem ascending_split_unique {comp : K → K → Bool} (hc : StrictWeakOrder comp)
    (A B A' B' : List (K × V)) (x x' : K × V) (hk : x.1 = x'.1)
    (ha : Ascending comp (A ++ x :: B)) (he : A ++ x :: B = A' ++ x' :: B') :
    A = A' ∧ B = B' := by
  induction A generalizing A' with
  | nil =>
    cases A' with
    | nil => simp at he; exact ⟨rfl, he.2⟩
    | cons a A'' =>
      exfalso
      simp only [List.nil_append, List.cons_append, List.cons.injEq] at he
      obtain ⟨rfl, hB⟩ := he
      unfold Ascending at ha
      simp only [List.nil_append, List.pairwise_cons] at ha
      have := ha.1 x' (by rw [hB]; simp)
      rw [hk, hc.irrefl] at this
      cases this
  | cons a A ih =>
    cases A' with
    | nil =>
      exfalso
      simp only [List.nil_append, List.cons_append, List.cons.injEq] at he
      obtain ⟨rfl, hB⟩ := he
      unfold Ascending at ha
      simp only [List.cons_append, List.pairwise_cons] at ha
      have := ha.1 x (by simp)
      rw [hk, hc.irrefl] at this
      cases this
    | cons a' A'' =>
      simp only [List.cons_append, List.cons.injEq] at he
      obtain ⟨rfl, hrest⟩ := he
      unfold Ascending at ha ih
      simp only [List.cons_append, List.pairwise_cons] at ha
      obtain ⟨h1, h2⟩ := ih A'' ha.2 hrest
      exact ⟨by rw [h1], h2⟩

theorem subscript_size {comp : K → K → Bool} (hc : StrictWeakOrder comp) (dflt : V)
    (t : AvlTree K V) (key : K) (hh : t.root_.HeightsOk) (hb : t.root_.Balanced)
    (ha : Ascending comp t.root_.toList) (hs : t.size_ = t.root_.toList.length) :
    ∃ t1 p, subscript comp dflt t key = some (t1, p) ∧ t1.root_.HeightsOk ∧
      t1.root_.Balanced ∧ Ascending comp t1.root_.toList ∧
      t1.size_ = t1.root_.toList.length := by
  obtain ⟨t1, p, e1, h1, b1, a1, _, habs, hfound⟩ := subscript_spec hc dflt t key hh hb ha
  refine ⟨t1, p, e1, h1, b1, a1, ?_⟩
  cases hf : findNode comp t.root_ key with
  | none =>
    obtain ⟨hl, hsz, _⟩ := habs (((findNode_spec hc key t.root_ ha).2).1 hf)
    rw [hsz, hl, length_insertSorted, hs]
  | some q =>
    obtain ⟨_, rfl⟩ := hfound q hf
    have := congrArg List.length (keys_assign t.root_ q dflt)
    simp only [List.length_map] at this
    simp only [this]
    exact hs

theorem run_size {comp : K → K → Bool} (hc : StrictWeakOrder comp) (dflt : V)
    (ops : List (Op K V)) (t t' : AvlTree K V) (hh : t.root_.HeightsOk)
    (hb : t.root_.Balanced) (ha : Ascending comp t.root_.toList)
    (hs : t.size_ = t.root_.toList.length) (hr : run comp dflt t ops = some t') :
    t'.size_ = t'.root_.toList.length := by
  induction ops generalizing t with
  | nil => simp [run] at hr; subst hr; exact hs
  | cons op ops ih =>
    cases op with
    | get k =>
      obtain ⟨t1, p, e1, h1, b1, a1, hs1⟩ := subscript_size hc dflt t k hh hb ha hs
      simp only [run, e1, Option.some_bind] at hr
      exact ih t1 h1 b1 a1 hs1 hr
    | set k v =>
      obtain ⟨t1, p, e1, h1, b1, a1, hs1⟩ := subscript_size hc dflt t k hh hb ha hs
      simp only [run, e1, Option.some_bind] at hr
      refine ih _ (heightsOk_assign _ _ _ h1) (balanced_assign _ _ _ b1)
        (ascending_assign _ _ _ _ a1) ?_ hr
      have := congrArg List.length (keys_assign t1.root_ p v)
      simp only [List.length_map] at this
      simp only [this]
      exact hs1

theorem run_sets_append {comp : K → K → Bool} (hc : StrictWeakOrder comp) (dflt : V)
    (L : List (K × V)) (t : AvlTree K V) (hh : t.root_.HeightsOk) (hb : t.root_.Balanced)
    (ha : Ascending comp (t.root_.toList ++ L)) :
    ∃ t', run comp dflt t (L.map fun kv => Op.set kv.1 kv.2) = some t' ∧
      t'.root_.toList = t.root_.toList ++ L := by
  induction L generalizing t with
  | nil => exact ⟨t, rfl, by simp⟩
  | cons kv L ih =>
    obtain ⟨k, v⟩ := kv
    have hasc : Ascending comp t.root_.toList ∧ ∀ e ∈ t.root_.toList, comp e.1 k = true := by
      unfold Ascending at ha ⊢
      rw [List.pairwise_append] at ha
      exact ⟨ha.1, fun e he => ha.2.2 e he (k, v) (List.mem_cons_self _ _)⟩
    obtain ⟨hat, hlt⟩ := hasc
    have hne : ∀ e ∈ t.root_.toList, keyEquiv comp k e.1 = false := by
      intro e he
      simp [keyEquiv, hlt e he]
    obtain ⟨t1, p, e1, h1, b1, a1, _, habs, _⟩ := subscript_spec hc dflt t k hh hb hat
    obtain ⟨hl, _, hent⟩ := habs hne
    rw [insertSorted_last comp k dflt _ (fun e he => hc.asymm _ _ (hlt e he))] at hl
    obtain ⟨A, B, hA, hB⟩ := toList_assign_split t1.root_ p k dflt v hent
    have hAB : A = t.root_.toList ∧ B = [] := by
      have := ascending_split_unique hc A B t.root_.toList [] (k, dflt) (k, dflt) rfl
        (by rw [← hA]; exact a1) (by rw [← hA, hl])
      exact this
    obtain ⟨rfl, rfl⟩ := hAB
    obtain ⟨t2, e2, r2⟩ := ih ⟨t1.root_.assign p v, t1.size_⟩ (heightsOk_assign _ _ _ h1)
      (balanced_assign _ _ _ b1) (by
        simp only [hB]
        simpa using ha)
    refine ⟨t2, ?_, ?_⟩
    · simp only [List.map_cons, run, e1, Option.some_bind]
      exact e2
    · rw [r2]
      simp only [hB]
      simp

theorem skeleton_height (n : Node K V) : height n.skeleton = height n := by
  cases n <;> rfl

theorem avl_skeleton_keys (n : Node K V) :
    n.skeleton.toList.map Prod.fst = n.toList.map Prod.fst := by
  induction n with
  | nil => rfl
  | mk l k v h r ihl ihr => simp [Node.skeleton, Node.toList, ihl, ihr]

theorem avl_skeleton_depth (n : Node K V) : n.skeleton.depth = n.depth := by
  induction n with
  | nil => rfl
  | mk l k v h r ihl ihr => simp [Node.skeleton, Node.depth, ihl, ihr]

theorem skeleton_findNode (comp : K → K → Bool) (key : K) (n : Node K V) :
    findNode comp n.skeleton key = findNode comp n key := by
  induction n with
  | nil => rfl
  | mk l k v h r ihl ihr => simp [Node.skeleton, findNode, ihl, ihr]

theorem skeleton_assign (n : Node K V) (p : Pos) (b : V) :
    (n.assign p b).skeleton = n.skeleton := by
  induction n generalizing p with
  | nil => simp [Node.assign]
  | mk l k v h r ihl ihr =>
    match p with
    | [] => simp [Node.assign, Node.skeleton]
    | Dir.L :: q => simp [Node.assign, Node.skeleton, ihl]
    | Dir.R :: q => simp [Node.assign, Node.skeleton, ihr]

theorem skeleton_updateHeight (n : Node K V) :
    (updateHeight n).map Node.skeleton = updateHeight n.skeleton := by
  cases n with
  | nil => rfl
  | mk l k v h r => simp [updateHeight, Node.skeleton, skeleton_height]

theorem skeleton_getBalanceFactor (n : Node K V) :
    getBalanceFactor n.skeleton = getBalanceFactor n := by
  cases n with
  | nil => rfl
  | mk l k v h r => simp [getBalanceFactor, Node.skeleton, skeleton_height]

theorem skeleton_rotateLeft (n : Node K V) :
    (rotateLeft n).map Node.skeleton = rotateLeft n.skeleton := by
  rcases n with _ | ⟨l, k, v, h, _ | ⟨rl, rk, rv, rh, rr⟩⟩
  · rfl
  · rfl
  · simp [rotateLeft, updateHeight, Node.skeleton, skeleton_height, height_mk]

theorem skeleton_rotateRight (n : Node K V) :
    (rotateRight n).map Node.skeleton = rotateRight n.skeleton := by
  rcases n with _ | ⟨_ | ⟨ll, lk, lv, lh, lr⟩, k, v, h, r⟩
  · rfl
  · rfl
  · simp [rotateRight, updateHeight, Node.skeleton, skeleton_height, height_mk]

theorem getBalanceFactor_mk (l r : Node K V) (k : K) (v : V) (h : Int) :
    getBalanceFactor (Node.mk l k v h r) = some (height l - height r) := rfl

theorem avl_skeleton_balance (n : Node K V) :
    (balance n).map Node.skeleton = balance n.skeleton := by
  rcases n with _ | ⟨l, k, v, h, r⟩
  · rfl
  · simp only [balance, updateHeight, Option.some_bind, Node.skeleton, skeleton_height]
    generalize (if height l > height r then height l + 1 else height r + 1) = h'
    simp only [getBalanceFactor_mk, Option.some_bind, Node.left, Node.right, Node.setLeft,
      Node.setRight, skeleton_height]
    split_ifs with h1 h2
    · rw [skeleton_getBalanceFactor]
      cases hg : getBalanceFactor l with
      | none => rfl
      | some lf =>
        simp only [Option.some_bind]
        split_ifs
        · rw [← skeleton_rotateLeft]
          cases hx : rotateLeft l with
          | none => rfl
          | some x =>
            simp only [Option.map_some', Option.some_bind]
            rw [skeleton_rotateRight]
            simp only [Node.skeleton]
        · rw [skeleton_rotateRight]
          simp only [Node.skeleton]
    · rw [skeleton_getBalanceFactor]
      cases hg : getBalanceFactor r with
      | none => rfl
      | some rf =>
        simp only [Option.some_bind]
        split_ifs
        · rw [← skeleton_rotateRight]
          cases hx : rotateRight r with
          | none => rfl
          | some x =>
            simp only [Option.map_some', Option.some_bind]
            rw [skeleton_rotateLeft]
            simp only [Node.skeleton]
        · rw [skeleton_rotateLeft]
          simp only [Node.skeleton]
    · simp only [Option.map_some', Node.skeleton]

theorem skeleton_addOrGet (comp : K → K → Bool) (key : K) (value : V) (size size' : Nat)
    (n : Node K V) :
    (addOrGet comp n key value size).map (fun r => r.1.skeleton) =
      (addOrGet comp n.skeleton key () size').map (fun r => r.1) := by
  induction n with
  | nil => rfl
  | mk l k v h r ihl ihr =>
    simp only [addOrGet, Node.skeleton]
    split_ifs
    · cases hL : addOrGet comp l key value size <;>
      cases hR : addOrGet comp l.skeleton key () size' <;>
      rw [hL, hR] at ihl <;> simp only [Option.map_none', Option.map_some', Option.some.injEq,
        Option.none_bind, Option.some_bind, Option.map_map] at ihl ⊢
      · cases ihl
      · cases ihl
      · rw [← ihl]
        have := avl_skeleton_balance (Node.mk (Prod.fst ‹Node K V × Nat›) k v h r)
        simp only [Node.skeleton] at this
        rw [← this]
        simp [Function.comp_def]
    · cases hL : addOrGet comp r key value size <;>
      cases hR : addOrGet comp r.skeleton key () size' <;>
      rw [hL, hR] at ihr <;> simp only [Option.map_none', Option.map_some', Option.some.injEq,
        Option.none_bind, Option.some_bind, Option.map_map] at ihr ⊢
      · cases ihr
      · cases ihr
      · rw [← ihr]
        have := avl_skeleton_balance (Node.mk l k v h (Prod.fst ‹Node K V × Nat›))
        simp only [Node.skeleton] at this
        rw [← this]
        simp [Function.comp_def]
    · have := avl_skeleton_balance (Node.mk l k value h r)
      simp only [Node.skeleton] at this
      rw [Option.map_map, Option.map_map, ← this]
      simp [Function.comp_def]

theorem skeleton_subscript (comp : K → K → Bool) (dflt : V) (key : K) (t : AvlTree K V)
    (t' : AvlTree K Unit) (h : t'.root_ = t.root_.skeleton) :
    (subscript comp dflt t key).map (fun r => (r.1.root_.skeleton, r.2)) =
      (subscript comp () t' key).map (fun r => (r.1.root_, r.2)) := by
  have e := skeleton_addOrGet comp key dflt t.size_ t'.size_ t.root_
  rw [← h] at e
  simp only [subscript]
  cases hL : addOrGet comp t.root_ key dflt t.size_ <;>
  cases hR : addOrGet comp t'.root_ key () t'.size_ <;>
  rw [hL, hR] at e <;> simp at e ⊢
  rw [← e, skeleton_findNode]
  cases findNode comp (Prod.fst ‹Node K V × Nat›) key <;> simp

theorem skeleton_run (comp : K → K → Bool) (dflt : V) (ops : List (Op K V))
    (t : AvlTree K V) (t' : AvlTree K Unit) (h : t'.root_ = t.root_.skeleton) :
    (run comp dflt t ops).map (fun t => t.root_.skeleton) =
      (run comp () t' (ops.map fun o => Op.get o.key)).map (fun t => t.root_) := by
  induction ops generalizing t t' with
  | nil => simpa [run] using h.symm
  | cons op ops ih =>
    have e := skeleton_subscript comp dflt op.key t t' h
    cases op with
    | get k =>
      simp only [Op.key] at e
      simp only [List.map_cons, run, Op.key]
      cases hL : subscript comp dflt t k <;>
      cases hR : subscript comp () t' k <;>
      rw [hL, hR] at e <;> simp at e ⊢
      exact ih _ _ e.1.symm
    | set k v =>
      simp only [Op.key] at e
      simp only [List.map_cons, run, Op.key]
      cases hL : subscript comp dflt t k <;>
      cases hR : subscript comp () t' k <;>
      rw [hL, hR] at e <;> simp at e ⊢
      exact ih _ _ (by simp [skeleton_assign, e.1])

theorem key_subscriptStmt (k : K) (o : Option V) : (subscriptStmt k o).key = k := by
  cases o <;> rfl

theorem run_keys_depth (comp : K → K → Bool) (dflt : V) (keys : List K) (stmt : K → Option V)
    (t : AvlTree K V)
    (ht : run comp dflt AvlTree.empty (keys.map fun k => subscriptStmt k (stmt k)) = some t) :
    ∃ u, run comp () AvlTree.empty (keys.map fun k => Op.get k) = some u ∧
      t.root_.toList.map Prod.fst = u.root_.toList.map Prod.fst ∧
      t.root_.depth = u.root_.depth := by
  have e := skeleton_run comp dflt (keys.map fun k => subscriptStmt k (stmt k))
    AvlTree.empty AvlTree.empty rfl
  simp only [List.map_map, Function.comp_def, key_subscriptStmt] at e
  rw [ht] at e
  cases hu : run comp () AvlTree.empty (keys.map fun k => Op.get k) with
  | none => rw [hu] at e; simp at e
  | some u =>
    rw [hu] at e
    simp only [Option.map_some', Option.some.injEq] at e
    refine ⟨u, rfl, ?_, ?_⟩
    · rw [← avl_skeleton_keys t.root_, e]
    · rw [← avl_skeleton_depth t.root_, e]

end Smirnov

namespace Averenkov

namespace S2

theorem tdiv_pos_pos (m c : Int) (hm : 0 ≤ m) (hc : 0 < c) (x : Int) :
    (Int.tdiv m c < x ↔ m < x * c) := by
  rw [Int.tdiv_eq_ediv hm (le_of_lt hc)]
  exact Int.ediv_lt_iff_lt_mul hc

end S2

end Averenkov

namespace Smirnov

variable {K V : Type}

theorem pow_le_sq_add (x y dl dr : Nat) (hx : 2 ^ dl ≤ x ^ 2) (hy : 2 ^ dr ≤ y ^ 2)
    (h1 : dl ≤ dr + 1) (h2 : dr ≤ dl + 1) : 2 ^ (1 + max dl dr) ≤ (x + y) ^ 2 := by
  have key : ∀ a b p : Nat, 2 * p ≤ a ^ 2 → p ≤ b ^ 2 → 4 * p ≤ (a + b) ^ 2 := by
    intro a b p ha hb
    rcases le_total a b with hab | hab
    · nlinarith [Nat.mul_le_mul hab hab]
    · nlinarith [Nat.mul_le_mul hab hab]
  rcases Nat.lt_trichotomy dl dr with h | h | h
  · have e : dr = dl + 1 := by omega
    subst e
    rw [max_eq_right (by omega)]
    have := key y x (2 ^ dl) (by rw [pow_succ] at hy; omega) hx
    rw [show 1 + (dl + 1) = dl + 2 by omega, pow_add, add_comm x y]
    omega
  · subst h
    rw [max_self, show 1 + dl = dl + 1 by omega, pow_succ]
    have e3 : (x + y) ^ 2 = x ^ 2 + y ^ 2 + 2 * x * y := by ring
    rw [e3]
    omega
  · have e : dl = dr + 1 := by omega
    subst e
    rw [max_eq_left (by omega)]
    have := key x y (2 ^ dr) (by rw [pow_succ] at hx; omega) hy
    rw [show 1 + (dr + 1) = dr + 2 by omega, pow_add]
    omega

theorem balanced_depth_bound (n : Node K V) (hb : n.Balanced) :
    2 ^ n.depth.toNat ≤ (n.toList.length + 1) ^ 2 := by
  induction n with
  | nil => simp [Node.depth, Node.toList]
  | mk l k v h r ihl ihr =>
    obtain ⟨bl, br, d1, d2⟩ := hb
    have hl := depth_nonneg l
    have hr := depth_nonneg r
    have e : (Node.mk l k v h r).depth.toNat = 1 + max l.depth.toNat r.depth.toNat := by
      simp only [Node.depth]
      omega
    rw [e]
    have e2 : (Node.mk l k v h r).toList.length + 1 =
        (l.toList.length + 1) + (r.toList.length + 1) := by
      simp [Node.toList]; omega
    rw [e2]
    exact pow_le_sq_add _ _ _ _ (ihl bl) (ihr br) (by omega) (by omega)

end Smirnov

namespace Averenkov
variable {K V : Type}

/-- C1. For a tree built from the empty tree by `push` calls and a key `k` equivalent to no
stored key, `push(k, v)` (and `insert({k, v})`, which gives the same tree) returns, the
in-order sequence of pairs afterwards is the previous one with `(k, v)` put at its sorted
position, it is strictly ascending, and `size()` is one more than before. -/
theorem push_new_key_inserts_sorted {comp : K → K → Bool} (hc : StrictWeakOrder comp)
    (h0 : Int) (kvs : List (K × V)) (t : Tree K V) (ht : pushAll h0 comp kvs = some t)
    (k : K) (v : V) (hk : ∀ e ∈ t.root.toList, keyEquiv comp k e.1 = false) :
    ∃ t', push h0 comp t k v = some t' ∧
      (insert h0 comp t (k, v)).map Prod.fst = some t' ∧
      t'.root.toList = insertSorted comp k v t.root.toList ∧
      Ascending comp t'.root.toList ∧
      t'.size = t.size + 1 := by
  have hasc : Ascending comp t.root.toList :=
    run_ascending hc h0 _ Tree.empty t ht (by simp [Tree.empty, Node.toList, Ascending])
  obtain ⟨t', h1, h2, h3, h4⟩ :=
    push_absent hc h0 t k v hasc (find_none_of_not_equiv comp k _ hk)
  exact ⟨t', h1, by simp [insert, h1], h2, h3, h4⟩

/-- An instance of the statement above: key 4 pushed into the tree built from 5, 3, 8. -/
theorem push_new_key_inserts_sorted_witness :
    StrictWeakOrder natLess ∧
    pushAll 0 natLess [(5, 50), (3, 30), (8, 80)] =
        some (⟨Node.mk (newNode 0 3 30) 5 50 0 (newNode 0 8 80), 3⟩ : Tree Nat Nat) ∧
      (∀ e ∈ (Node.mk (newNode 0 3 30) 5 50 0 (newNode 0 8 80) : Node Nat Nat).toList,
        keyEquiv natLess 4 e.1 = false) ∧
      ∃ t', push 0 natLess (⟨Node.mk (newNode 0 3 30) 5 50 0 (newNode 0 8 80), 3⟩ : Tree Nat Nat)
            4 40 = some t' ∧
        (insert 0 natLess (⟨Node.mk (newNode 0 3 30) 5 50 0 (newNode 0 8 80), 3⟩ : Tree Nat Nat)
            (4, 40)).map Prod.fst = some t' ∧
        t'.root.toList = insertSorted natLess 4 40
          (Node.mk (newNode 0 3 30) 5 50 0 (newNode 0 8 80) : Node Nat Nat).toList ∧
        Ascending natLess t'.root.toList ∧
        t'.size = 3 + 1 :=
  ⟨natLess_strictWeakOrder, by decide, by decide,
    push_new_key_inserts_sorted natLess_strictWeakOrder 0 [(5, 50), (3, 30), (8, 80)]
      ⟨Node.mk (newNode 0 3 30) 5 50 0 (newNode 0 8 80), 3⟩ (by decide) 4 40 (by decide)⟩

/-- C5 (fails on the code). After `push(1, 10)`, `push(2, 20)` and `erase` of the root, the
tree has no reachable node while `size()` is 1: `erase` hands `rebalance_path` a stack that
holds only `parent`, here the sentinel, and installs the result as the root. -/
theorem size_differs_from_count_after_erase (h0 : Int) :
    ∃ t : Tree Nat Nat,
      run h0 natLess Tree.empty [Op.push 1 10, Op.push 2 20, Op.erase []] = some t ∧
      t.root.count = 0 ∧ t.size = 1 :=
  ⟨⟨Node.nil, 1⟩, by
    simp [run, push, erase, Tree.empty, descend, natLess, rebalance_path, balance, newNode,
      get_balance_factor, get_height, Frame.plug, Node.subtree, Node.parentOf, eraseParent],
    rfl, rfl⟩

/-- C6 (fails on the code). In the tree built by `push` of 2, 1, 3, 4, `erase(find(4))`
leaves the single pair `(3, 30)` in the in-order sequence, although the pairs of the keys 1
and 2 were stored too, and `size()` is 3: the root becomes the balanced subtree of the
erased node's parent. -/
theorem erase_find_drops_other_elements (h0 : Int) :
    ∃ t t' : Tree Nat Nat,
      pushAll h0 natLess [(2, 20), (1, 10), (3, 30), (4, 40)] = some t ∧
      t.root.toList = [(1, 10), (2, 20), (3, 30), (4, 40)] ∧
      find natLess t 4 = some [Dir.R, Dir.R] ∧
      erase h0 t [Dir.R, Dir.R] = some t' ∧
      t'.root.toList = [(3, 30)] ∧ t'.size = 3 :=
  ⟨⟨Node.mk (newNode h0 1 10) 2 20 h0 (Node.mk Node.nil 3 30 h0 (newNode h0 4 40)), 4⟩,
    ⟨newNode h0 3 30, 3⟩, by
    simp [pushAll, run, push, Tree.empty, descend, natLess, rebalance_path, balance, newNode,
      get_balance_factor, get_height, Frame.plug], by
    simp [Node.toList, newNode], by
    simp [find, find_NodeType, natLess, newNode], by
    simp [erase, Node.subtree, Node.parentOf, eraseParent, rebalance_path, balance, newNode,
      get_balance_factor, get_height], by
    simp [Node.toList, newNode], rfl⟩

/-- C9. For a tree in search-tree order that stores a key equivalent to `k`, `push(k, v2)`
returns with the tree as it was (same nodes, same values, same `size_`), and
`insert({k, v2})` leaves the same tree and returns what `find(k)` gives on it. -/
theorem push_equivalent_key_unchanged {comp : K → K → Bool} (hc : StrictWeakOrder comp)
    (h0 : Int) (t : Tree K V) (ht : Ascending comp t.root.toList) (k : K) (v2 : V)
    (hk : ∃ e ∈ t.root.toList, keyEquiv comp k e.1 = true) :
    push h0 comp t k v2 = some t ∧ insert h0 comp t (k, v2) = some (t, find comp t k) := by
  obtain ⟨e, he, hke⟩ := hk
  obtain ⟨p, hp⟩ := find_NodeType_of_equiv hc k t.root ht e he hke
  have h1 : push h0 comp t k v2 = some t := by rw [push_eq, hp]
  exact ⟨h1, by simp [insert, h1]⟩

/-- An instance of the statement above, scenario C: after `(1, "a")`, `push(1, "b")` and
`insert({1, "b"})` change nothing and `at(1)` is `"a"`. -/
theorem push_equivalent_key_unchanged_witness :
    StrictWeakOrder natLess ∧
      Ascending natLess (newNode 0 1 "a" : Node Nat String).toList ∧
      (∃ e ∈ (newNode 0 1 "a" : Node Nat String).toList, keyEquiv natLess 1 e.1 = true) ∧
      push 0 natLess Tree.empty 1 "a" = some (⟨newNode 0 1 "a", 1⟩ : Tree Nat String) ∧
      push 0 natLess (⟨newNode 0 1 "a", 1⟩ : Tree Nat String) 1 "b" =
        some ⟨newNode 0 1 "a", 1⟩ ∧
      insert 0 natLess (⟨newNode 0 1 "a", 1⟩ : Tree Nat String) (1, "b") =
        some (⟨newNode 0 1 "a", 1⟩, find natLess ⟨newNode 0 1 "a", 1⟩ 1) ∧
      Tree.at natLess (⟨newNode 0 1 "a", 1⟩ : Tree Nat String) 1 = some "a" :=
  ⟨natLess_strictWeakOrder, by simp [Ascending, newNode, Node.toList],
    ⟨(1, "a"), by simp [newNode, Node.toList], by decide⟩, rfl,
    (push_equivalent_key_unchanged natLess_strictWeakOrder 0 ⟨newNode 0 1 "a", 1⟩
      (by simp [Ascending, newNode, Node.toList]) 1 "b"
      ⟨(1, "a"), by simp [newNode, Node.toList], by decide⟩).1,
    (push_equivalent_key_unchanged natLess_strictWeakOrder 0 ⟨newNode 0 1 "a", 1⟩
      (by simp [Ascending, newNode, Node.toList]) 1 "b"
      ⟨(1, "a"), by simp [newNode, Node.toList], by decide⟩).2,
    by simp [Tree.at, find_NodeType, newNode, natLess, Node.entry, Node.subtree]⟩

/-- C10. For a tree in search-tree order and a key `k`, the non-const `tree[k]` returns (no
`out_of_range`, no dereference of `end()`). If `k` is stored, the tree and `size()` are as
before and the reference designates the stored pair. If no stored key is equivalent to `k`,
the pair `(k, Value())` is inserted at its sorted position, `size()` grows by 1 and the
reference designates that pair. In both cases a value assigned through the reference is what
`at(k)` returns afterwards. -/
theorem subscript_returns_stored_or_inserted {comp : K → K → Bool}
    (hc : StrictWeakOrder comp) (h0 : Int) (dflt : V) (t : Tree K V)
    (ht : Ascending comp t.root.toList) (k : K) :
    ∃ t' p, subscript h0 comp dflt t k = some (t', p) ∧
      (∀ e ∈ t.root.toList, keyEquiv comp k e.1 = true →
        t' = t ∧ t.root.entry p = some e) ∧
      ((∀ e ∈ t.root.toList, keyEquiv comp k e.1 = false) →
        t'.root.toList = insertSorted comp k dflt t.root.toList ∧
        t'.size = t.size + 1 ∧ t'.root.entry p = some (k, dflt)) ∧
      ∀ b, Tree.at comp (t'.assign p b) k = some b := by
  cases hf : find_NodeType comp k t.root with
  | some p =>
    obtain ⟨k', v', he, hm, hke⟩ := find_NodeType_entry comp k t.root p hf
    have hpush : push h0 comp t k dflt = some t := by rw [push_eq, hf]
    refine ⟨t, p, ?_, ?_, ?_, ?_⟩
    · simp [subscript, insert, hpush, find, hf, he]
    · intro e hme hee
      have := ascending_equiv_unique _ ht (k', v') e hm hme
        (keyEquiv_trans_left hc _ _ _ hke hee)
      exact ⟨rfl, by rw [he, this]⟩
    · intro hall
      have := hall _ hm
      simp [hke] at this
    · intro b
      simp [Tree.at, Tree.assign, find_NodeType_assign, hf, entry_assign _ _ b _ _ he]
  | none =>
    obtain ⟨t', h1, h2, h3, h4⟩ := push_absent hc h0 t k dflt ht hf
    have hmem : (k, dflt) ∈ t'.root.toList := by
      rw [h2, mem_insertSorted]; exact Or.inl rfl
    obtain ⟨p, hp⟩ := find_NodeType_of_equiv hc k t'.root h3 (k, dflt) hmem (keyEquiv_refl hc k)
    obtain ⟨k', v', he, hm, hke⟩ := find_NodeType_entry comp k t'.root p hp
    have heq : ((k', v') : K × V) = (k, dflt) :=
      ascending_equiv_unique _ h3 (k', v') (k, dflt) hm hmem
        (keyEquiv_trans_left hc _ _ _ hke (keyEquiv_refl hc k))
    refine ⟨t', p, ?_, ?_, ?_, ?_⟩
    · simp [subscript, insert, h1, find, hp, he]
    · intro e hme hee
      have := not_equiv_of_find_none hc k _ ht hf e hme
      simp [hee] at this
    · intro _
      exact ⟨h2, h4, by rw [he, heq]⟩
    · intro b
      simp [Tree.at, Tree.assign, find_NodeType_assign, hp, entry_assign _ _ b _ _ he]

/-- An instance of the statement above, scenario C: `tree[1]` on the tree holding `(1, "a")`. -/
theorem subscript_returns_stored_or_inserted_witness :
    StrictWeakOrder natLess ∧
      Ascending natLess (newNode 0 1 "a" : Node Nat String).toList ∧
      ∃ t' p, subscript 0 natLess "" (⟨newNode 0 1 "a", 1⟩ : Tree Nat String) 1 = some (t', p) ∧
        (∀ e ∈ (newNode 0 1 "a" : Node Nat String).toList, keyEquiv natLess 1 e.1 = true →
          t' = ⟨newNode 0 1 "a", 1⟩ ∧ (newNode 0 1 "a" : Node Nat String).entry p = some e) ∧
        ((∀ e ∈ (newNode 0 1 "a" : Node Nat String).toList, keyEquiv natLess 1 e.1 = false) →
          t'.root.toList = insertSorted natLess 1 "" (newNode 0 1 "a" : Node Nat String).toList ∧
          t'.size = (⟨newNode 0 1 "a", 1⟩ : Tree Nat String).size + 1 ∧
          t'.root.entry p = some (1, "")) ∧
        ∀ b, Tree.at natLess (t'.assign p b) 1 = some b :=
  ⟨natLess_strictWeakOrder, by simp [Ascending, newNode, Node.toList],
    subscript_returns_stored_or_inserted natLess_strictWeakOrder 0 ""
      ⟨newNode 0 1 "a", 1⟩ (by simp [Ascending, newNode, Node.toList]) 1⟩

end Averenkov

namespace Averenkov
variable {K V : Type}

/-- C13. For a tree built by `push` calls, a key `k` equivalent to no stored key and a value
`v`, `insert({k, v})` returns a position that is not `end()` and whose element is `(k, v)`;
`find(k)` on the tree afterwards returns that same position, and `at(k)` is `v`. -/
theorem insert_then_find_roundtrip {comp : K → K → Bool} (hc : StrictWeakOrder comp)
    (h0 : Int) (kvs : List (K × V)) (t : Tree K V) (ht : pushAll h0 comp kvs = some t)
    (k : K) (v : V) (hk : ∀ e ∈ t.root.toList, keyEquiv comp k e.1 = false) :
    ∃ t' p, insert h0 comp t (k, v) = some (t', some p) ∧
      t'.root.entry p = some (k, v) ∧
      find comp t' k = some p ∧
      Tree.at comp t' k = some v := by
  have hasc : Ascending comp t.root.toList :=
    run_ascending hc h0 _ Tree.empty t ht (by simp [Tree.empty, Node.toList, Ascending])
  obtain ⟨t', h1, h2, h3, _⟩ :=
    push_absent hc h0 t k v hasc (find_none_of_not_equiv comp k _ hk)
  have hmem : (k, v) ∈ t'.root.toList := by
    rw [h2, mem_insertSorted]; exact Or.inl rfl
  obtain ⟨p, hp, hent⟩ := (find_NodeType_spec hc k t'.root h3).1 (k, v) hmem (keyEquiv_refl hc k)
  refine ⟨t', p, by simp [insert, h1, find, hp], hent, hp, ?_⟩
  simp [Tree.at, hp, hent]

/-- An instance of the statement above: `insert({4, 40})` into the tree built from 5, 3, 8. -/
theorem insert_then_find_roundtrip_witness :
    StrictWeakOrder natLess ∧
    pushAll 0 natLess [(5, 50), (3, 30), (8, 80)] =
        some (⟨Node.mk (newNode 0 3 30) 5 50 0 (newNode 0 8 80), 3⟩ : Tree Nat Nat) ∧
      (∀ e ∈ (Node.mk (newNode 0 3 30) 5 50 0 (newNode 0 8 80) : Node Nat Nat).toList,
        keyEquiv natLess 4 e.1 = false) ∧
      ∃ t' p, insert 0 natLess (⟨Node.mk (newNode 0 3 30) 5 50 0 (newNode 0 8 80), 3⟩ : Tree Nat Nat)
            (4, 40) = some (t', some p) ∧
        t'.root.entry p = some (4, 40) ∧
        find natLess t' 4 = some p ∧
        Tree.at natLess t' 4 = some 40 :=
  ⟨natLess_strictWeakOrder, by decide, by decide,
    insert_then_find_roundtrip natLess_strictWeakOrder 0 [(5, 50), (3, 30), (8, 80)]
      ⟨Node.mk (newNode 0 3 30) 5 50 0 (newNode 0 8 80), 3⟩ (by decide) 4 40 (by decide)⟩

/-- C15. For a tree in search-tree order and a key `k`, `lower_bound(k)` returns the position
of the first element of the in-order sequence whose key is not less than `k`, which is the
smallest such stored key, and it returns `end()` exactly when every stored key is less than
`k`. -/
theorem lower_bound_first_not_less {comp : K → K → Bool} (hc : StrictWeakOrder comp)
    (t : Tree K V) (ht : Ascending comp t.root.toList) (k : K) :
    (∀ p, lower_bound comp t k = some p →
        ∃ e, t.root.entry p = some e ∧ comp e.1 k = false ∧
          t.root.toList.find? (fun e => !comp e.1 k) = some e ∧
          ∀ e' ∈ t.root.toList, comp e'.1 k = false → e' = e ∨ comp e.1 e'.1 = true) ∧
      (lower_bound comp t k = none ↔ ∀ e ∈ t.root.toList, comp e.1 k = true) := by
  obtain ⟨s1, s2⟩ := lower_bound_loop_spec hc k t.root ht [] none
  cases hf : t.root.toList.find? (fun e => !comp e.1 k) with
  | none =>
    have hnone : lower_bound comp t k = none := s1 hf
    rw [List.find?_eq_none] at hf
    refine ⟨fun p hp => (by rw [hnone] at hp; cases hp), ⟨fun _ => ?_, fun _ => hnone⟩⟩
    intro e he
    simpa using hf e he
  | some e =>
    obtain ⟨q, hq, hent⟩ := s2 e hf
    have hq' : lower_bound comp t k = some q := by simpa [lower_bound] using hq
    obtain ⟨hP, as, bs, hsplit, has⟩ := List.find?_eq_some.1 hf
    have hek : comp e.1 k = false := by simpa using hP
    refine ⟨?_, ⟨fun h => (by rw [hq'] at h; cases h), fun hall => ?_⟩⟩
    · intro p hp
      rw [hq'] at hp
      cases hp
      refine ⟨e, hent, hek, rfl, ?_⟩
      intro e' he' hk'
      unfold Ascending at ht
      rw [hsplit, List.pairwise_append, List.pairwise_cons] at ht
      rw [hsplit, List.mem_append, List.mem_cons] at he'
      rcases he' with h1 | h1 | h1
      · have := has e' h1
        simp [hk'] at this
      · exact Or.inl h1
      · exact Or.inr (ht.2.1.1 e' h1)
    · have : e ∈ t.root.toList := by rw [hsplit]; simp
      have := hall e this
      rw [hek] at this
      cases this

/-- An instance of the statement above: `lower_bound(4)` in the tree holding 3, 5, 8. -/
theorem lower_bound_first_not_less_witness :
    StrictWeakOrder natLess ∧
      Ascending natLess (Node.mk (newNode 0 3 30) 5 50 0 (newNode 0 8 80) : Node Nat Nat).toList ∧
      lower_bound natLess (⟨Node.mk (newNode 0 3 30) 5 50 0 (newNode 0 8 80), 3⟩ : Tree Nat Nat) 4
        = some [] ∧
      ((∀ p, lower_bound natLess
            (⟨Node.mk (newNode 0 3 30) 5 50 0 (newNode 0 8 80), 3⟩ : Tree Nat Nat) 4 = some p →
          ∃ e, (Node.mk (newNode 0 3 30) 5 50 0 (newNode 0 8 80) : Node Nat Nat).entry p = some e ∧
            natLess e.1 4 = false ∧
            (Node.mk (newNode 0 3 30) 5 50 0 (newNode 0 8 80) : Node Nat Nat).toList.find?
              (fun e => !natLess e.1 4) = some e ∧
            ∀ e' ∈ (Node.mk (newNode 0 3 30) 5 50 0 (newNode 0 8 80) : Node Nat Nat).toList,
              natLess e'.1 4 = false → e' = e ∨ natLess e.1 e'.1 = true) ∧
        (lower_bound natLess
            (⟨Node.mk (newNode 0 3 30) 5 50 0 (newNode 0 8 80), 3⟩ : Tree Nat Nat) 4 = none ↔
          ∀ e ∈ (Node.mk (newNode 0 3 30) 5 50 0 (newNode 0 8 80) : Node Nat Nat).toList,
            natLess e.1 4 = true)) :=
  ⟨natLess_strictWeakOrder, by decide, by decide,
    lower_bound_first_not_less natLess_strictWeakOrder
      ⟨Node.mk (newNode 0 3 30) 5 50 0 (newNode 0 8 80), 3⟩ (by decide) 4⟩

/-- C16. For a tree in search-tree order and a key `k`, `upper_bound(k)` returns the position
of the first element of the in-order sequence whose key is greater than `k`, which is the
smallest such stored key, and it returns `end()` exactly when no stored key is greater than
`k`. -/
theorem upper_bound_first_greater {comp : K → K → Bool} (hc : StrictWeakOrder comp)
    (t : Tree K V) (ht : Ascending comp t.root.toList) (k : K) :
    (∀ p, upper_bound comp t k = some p →
        ∃ e, t.root.entry p = some e ∧ comp k e.1 = true ∧
          t.root.toList.find? (fun e => comp k e.1) = some e ∧
          ∀ e' ∈ t.root.toList, comp k e'.1 = true → e' = e ∨ comp e.1 e'.1 = true) ∧
      (upper_bound comp t k = none ↔ ∀ e ∈ t.root.toList, comp k e.1 = false) := by
  obtain ⟨s1, s2⟩ := upper_bound_loop_spec hc k t.root ht [] none
  cases hf : t.root.toList.find? (fun e => comp k e.1) with
  | none =>
    have hnone : upper_bound comp t k = none := s1 hf
    rw [List.find?_eq_none] at hf
    refine ⟨fun p hp => (by rw [hnone] at hp; cases hp), ⟨fun _ => ?_, fun _ => hnone⟩⟩
    intro e he
    simpa using hf e he
  | some e =>
    obtain ⟨q, hq, hent⟩ := s2 e hf
    have hq' : upper_bound comp t k = some q := by simpa [upper_bound] using hq
    obtain ⟨hP, as, bs, hsplit, has⟩ := List.find?_eq_some.1 hf
    refine ⟨?_, ⟨fun h => (by rw [hq'] at h; cases h), fun hall => ?_⟩⟩
    · intro p hp
      rw [hq'] at hp
      cases hp
      refine ⟨e, hent, hP, rfl, ?_⟩
      intro e' he' hk'
      unfold Ascending at ht
      rw [hsplit, List.pairwise_append, List.pairwise_cons] at ht
      rw [hsplit, List.mem_append, List.mem_cons] at he'
      rcases he' with h1 | h1 | h1
      · have := has e' h1
        simp [hk'] at this
      · exact Or.inl h1
      · exact Or.inr (ht.2.1.1 e' h1)
    · have : e ∈ t.root.toList := by rw [hsplit]; simp
      have := hall e this
      rw [hP] at this
      cases this

/-- An instance of the statement above: `upper_bound(5)` in the tree holding 3, 5, 8. -/
theorem upper_bound_first_greater_witness :
    StrictWeakOrder natLess ∧
      Ascending natLess (Node.mk (newNode 0 3 30) 5 50 0 (newNode 0 8 80) : Node Nat Nat).toList ∧
      upper_bound natLess (⟨Node.mk (newNode 0 3 30) 5 50 0 (newNode 0 8 80), 3⟩ : Tree Nat Nat) 5
        = some [Dir.R] ∧
      ((∀ p, upper_bound natLess
            (⟨Node.mk (newNode 0 3 30) 5 50 0 (newNode 0 8 80), 3⟩ : Tree Nat Nat) 5 = some p →
          ∃ e, (Node.mk (newNode 0 3 30) 5 50 0 (newNode 0 8 80) : Node Nat Nat).entry p = some e ∧
            natLess 5 e.1 = true ∧
            (Node.mk (newNode 0 3 30) 5 50 0 (newNode 0 8 80) : Node Nat Nat).toList.find?
              (fun e => natLess 5 e.1) = some e ∧
            ∀ e' ∈ (Node.mk (newNode 0 3 30) 5 50 0 (newNode 0 8 80) : Node Nat Nat).toList,
              natLess 5 e'.1 = true → e' = e ∨ natLess e.1 e'.1 = true) ∧
        (upper_bound natLess
            (⟨Node.mk (newNode 0 3 30) 5 50 0 (newNode 0 8 80), 3⟩ : Tree Nat Nat) 5 = none ↔
          ∀ e ∈ (Node.mk (newNode 0 3 30) 5 50 0 (newNode 0 8 80) : Node Nat Nat).toList,
            natLess 5 e.1 = false)) :=
  ⟨natLess_strictWeakOrder, by decide, by decide,
    upper_bound_first_greater natLess_strictWeakOrder
      ⟨Node.mk (newNode 0 3 30) 5 50 0 (newNode 0 8 80), 3⟩ (by decide) 5⟩

/-- C17. For a tree in search-tree order and a key `k`, `erase(k)` returns 1 when a key
equivalent to `k` is stored and 0 otherwise; when it returns 0 the tree, with its `size_`,
is as before. -/
theorem erase_key_returns_count {comp : K → K → Bool} (hc : StrictWeakOrder comp)
    (h0 : Int) (t : Tree K V) (ht : Ascending comp t.root.toList) (k : K) :
    ((∃ e ∈ t.root.toList, keyEquiv comp k e.1 = true) →
        ∃ t', erase_key h0 comp t k = some (t', 1)) ∧
      ((∀ e ∈ t.root.toList, keyEquiv comp k e.1 = false) →
        erase_key h0 comp t k = some (t, 0)) := by
  obtain ⟨h1, h2⟩ := find_NodeType_spec hc k t.root ht
  constructor
  · rintro ⟨e, he, hk⟩
    obtain ⟨p, hp, hent⟩ := h1 e he hk
    obtain ⟨l, r, hh, hs⟩ := entry_subtree _ _ _ hent
    obtain ⟨t', ht'⟩ := erase_isSome h0 t p l r e.1 e.2 hh hs
    exact ⟨t', by simp [erase_key, find, hp, ht']⟩
  · intro hall
    simp [erase_key, find, h2.2 hall]

/-- An instance of the statement above: `erase(3)` and `erase(4)` on the tree holding 3, 5, 8. -/
theorem erase_key_returns_count_witness :
    StrictWeakOrder natLess ∧
      Ascending natLess (Node.mk (newNode 0 3 30) 5 50 0 (newNode 0 8 80) : Node Nat Nat).toList ∧
      (((∃ e ∈ (Node.mk (newNode 0 3 30) 5 50 0 (newNode 0 8 80) : Node Nat Nat).toList,
            keyEquiv natLess 3 e.1 = true) →
          ∃ t', erase_key 0 natLess
            (⟨Node.mk (newNode 0 3 30) 5 50 0 (newNode 0 8 80), 3⟩ : Tree Nat Nat) 3 =
              some (t', 1)) ∧
        ((∀ e ∈ (Node.mk (newNode 0 3 30) 5 50 0 (newNode 0 8 80) : Node Nat Nat).toList,
            keyEquiv natLess 3 e.1 = false) →
          erase_key 0 natLess
            (⟨Node.mk (newNode 0 3 30) 5 50 0 (newNode 0 8 80), 3⟩ : Tree Nat Nat) 3 =
              some (⟨Node.mk (newNode 0 3 30) 5 50 0 (newNode 0 8 80), 3⟩, 0))) ∧
      erase_key 0 natLess (⟨Node.mk (newNode 0 3 30) 5 50 0 (newNode 0 8 80), 3⟩ : Tree Nat Nat) 4 =
        some (⟨Node.mk (newNode 0 3 30) 5 50 0 (newNode 0 8 80), 3⟩, 0) :=
  ⟨natLess_strictWeakOrder, by decide,
    erase_key_returns_count natLess_strictWeakOrder 0
      ⟨Node.mk (newNode 0 3 30) 5 50 0 (newNode 0 8 80), 3⟩ (by decide) 3,
    (erase_key_returns_count natLess_strictWeakOrder 0
      ⟨Node.mk (newNode 0 3 30) 5 50 0 (newNode 0 8 80), 3⟩ (by decide) 4).2 (by decide)⟩

/-- C14. For a tree built by `push` calls and a stored key `k`, `find(k)` gives a position,
`erase` at that position returns, and `find(k)` on the tree afterwards is `end()`. -/
theorem erase_find_then_find_is_end {comp : K → K → Bool} (hc : StrictWeakOrder comp)
    (h0 : Int) (kvs : List (K × V)) (t : Tree K V) (ht : pushAll h0 comp kvs = some t)
    (k : K) (hk : ∃ e ∈ t.root.toList, keyEquiv comp k e.1 = true) :
    ∃ p t', find comp t k = some p ∧ erase h0 t p = some t' ∧ find comp t' k = none := by
  have hasc : Ascending comp t.root.toList :=
    run_ascending hc h0 _ Tree.empty t ht (by simp [Tree.empty, Node.toList, Ascending])
  obtain ⟨e, he, hke⟩ := hk
  obtain ⟨p, hp, hent⟩ := (find_NodeType_spec hc k t.root hasc).1 e he hke
  obtain ⟨l, r, hh, hs⟩ := entry_subtree _ _ _ hent
  obtain ⟨t', ht'⟩ := erase_isSome h0 t p l r e.1 e.2 hh hs
  obtain ⟨hnot, hsub⟩ := erase_not_mem hc h0 t t' p l r e.1 e.2 hh hasc hs ht'
  refine ⟨p, t', hp, ht', ?_⟩
  apply find_none_of_not_equiv
  intro e' he'
  cases hk' : keyEquiv comp k e'.1 with
  | false => rfl
  | true =>
    have : e = e' :=
      ascending_equiv_unique _ hasc e e' he (hsub.subset he')
        (keyEquiv_trans_left hc _ _ _ hke hk')
    subst this
    exact absurd he' hnot

/-- An instance of the statement above: `erase(find(4))` in the tree built from 2, 1, 3, 4. -/
theorem erase_find_then_find_is_end_witness :
    StrictWeakOrder natLess ∧
      pushAll 0 natLess [(2, 20), (1, 10), (3, 30), (4, 40)] =
        some (⟨Node.mk (newNode 0 1 10) 2 20 0 (Node.mk Node.nil 3 30 0 (newNode 0 4 40)), 4⟩ :
          Tree Nat Nat) ∧
      (∃ e ∈ (Node.mk (newNode 0 1 10) 2 20 0
          (Node.mk Node.nil 3 30 0 (newNode 0 4 40)) : Node Nat Nat).toList,
        keyEquiv natLess 4 e.1 = true) ∧
      ∃ p t', find natLess (⟨Node.mk (newNode 0 1 10) 2 20 0
            (Node.mk Node.nil 3 30 0 (newNode 0 4 40)), 4⟩ : Tree Nat Nat) 4 = some p ∧
        erase 0 (⟨Node.mk (newNode 0 1 10) 2 20 0
            (Node.mk Node.nil 3 30 0 (newNode 0 4 40)), 4⟩ : Tree Nat Nat) p = some t' ∧
        find natLess t' 4 = none :=
  ⟨natLess_strictWeakOrder, by decide, by decide,
    erase_find_then_find_is_end natLess_strictWeakOrder 0
      [(2, 20), (1, 10), (3, 30), (4, 40)]
      ⟨Node.mk (newNode 0 1 10) 2 20 0 (Node.mk Node.nil 3 30 0 (newNode 0 4 40)), 4⟩
      (by decide) 4 (by decide)⟩

/-- C18 (fails on the code). In the tree built by `push` of 2, 1, 3, `erase(find(3))` erases
the element with the largest key, yet the iterator returned is not `end()`: it designates
`parent`, the node holding key 2, which is the root of the tree afterwards. -/
theorem erase_returns_parent_not_successor :
    ∃ t t' : Tree Nat Nat,
      pushAll 0 natLess [(2, 20), (1, 10), (3, 30)] = some t ∧
      t.root.toList = [(1, 10), (2, 20), (3, 30)] ∧
      find natLess t 3 = some [Dir.R] ∧
      erase 0 t [Dir.R] = some t' ∧
      erase_iter 0 t [Dir.R] = some (some []) ∧
      t'.root.entry [] = some (2, 20) :=
  ⟨⟨Node.mk (newNode 0 1 10) 2 20 0 (newNode 0 3 30), 3⟩,
    ⟨Node.mk (newNode 0 1 10) 2 20 0 Node.nil, 2⟩,
    by decide, by decide, by decide, by decide, by decide, by decide⟩

/-- C19 (fails on the code). In the tree built by `push` of 1, 2, `erase(begin(), end())`
ends with no reachable node but `size()` 1. In the tree built by `push` of 2, 1, 3,
`erase(find(3), end())` ends with no reachable node either, although the keys 1 and 2 lie
outside the range. -/
theorem erase_range_loses_elements_and_size :
    ∃ t u : Tree Nat Nat,
      pushAll 0 natLess [(1, 10), (2, 20)] = some t ∧
      t.begin = some [] ∧
      erase_range_to_end 0 2 t t.begin = some ⟨Node.nil, 1⟩ ∧
      pushAll 0 natLess [(2, 20), (1, 10), (3, 30)] = some u ∧
      find natLess u 3 = some [Dir.R] ∧
      erase_range_to_end 0 3 u (some [Dir.R]) = some ⟨Node.nil, 1⟩ :=
  ⟨⟨Node.mk Node.nil 1 10 0 (newNode 0 2 20), 2⟩,
    ⟨Node.mk (newNode 0 1 10) 2 20 0 (newNode 0 3 30), 3⟩,
    by decide, by decide, by decide, by decide, by decide, by decide⟩

/-- C20 (fails on the code). The tree built by `push` of 1, 2 holds 2 elements; after two
`erase` calls at the root, `begin() == end()` but `empty()` is false: the first call already
drops both nodes and leaves `size()` at 1. -/
theorem erase_root_repeatedly_not_empty :
    ∃ t t' : Tree Nat Nat,
      pushAll 0 natLess [(1, 10), (2, 20)] = some t ∧
      t.root.count = 2 ∧
      run 0 natLess t [Op.erase [], Op.erase []] = some t' ∧
      t'.begin = none ∧ t'.isEmpty = false :=
  ⟨⟨Node.mk Node.nil 1 10 0 (newNode 0 2 20), 2⟩, ⟨Node.nil, 1⟩,
    by decide, by decide, by decide, by decide, by decide⟩

end Averenkov

namespace Averenkov

variable {K V : Type}

/-- C24. Copy construction of a `Tree` does not return, whatever tree is copied, the
default-constructed empty one included: `copy_tree` stops only at a null link or at the
sentinel of the tree under construction, the copied tree holds neither, and from its own
sentinel the walk re-enters the root. No depth of recursion suffices. -/
theorem copy_construct_never_returns (h0 : Int) (sentinelData : K × V) (fuel : Nat)
    (other : Tree K V) :
    copy_construct h0 sentinelData fuel other = none ∧
      copy_construct h0 sentinelData fuel (Tree.empty : Tree K V) = none := by
  constructor
  · unfold copy_construct
    rw [copy_tree_none h0 other.root sentinelData fuel other.root]
    rfl
  · unfold copy_construct
    rw [copy_tree_none h0 (Tree.empty : Tree K V).root sentinelData fuel]
    rfl

/-- C26. For a tree built by `push` calls, `begin()` is `end()` exactly when the tree holds
no pair; otherwise `begin()` is reached from the root by `left` links only, stops at a node
without left child, and that node holds the first pair of the in-order sequence, whose key
is less than every other stored key. -/
theorem begin_designates_smallest {comp : K → K → Bool} (hc : StrictWeakOrder comp)
    (h0 : Int) (kvs : List (K × V)) (t : Tree K V) (ht : pushAll h0 comp kvs = some t) :
    (t.begin = none ↔ t.root.toList = []) ∧
      ∀ p, t.begin = some p →
        (∀ d ∈ p, d = Dir.L) ∧
          ∃ k v, t.root.entry p = some (k, v) ∧ t.root.toList.head? = some (k, v) ∧
            (∃ h r, t.root.subtree p = some (Node.mk Node.nil k v h r)) ∧
            ∀ e ∈ t.root.toList, e = (k, v) ∨ comp k e.1 = true := by
  have hasc : Ascending comp t.root.toList :=
    run_ascending hc h0 _ Tree.empty t ht (by simp [Tree.empty, Node.toList, Ascending])
  obtain ⟨root, sz⟩ := t
  cases root with
  | nil => simp [Tree.begin, Node.toList]
  | mk l k v h r =>
    refine ⟨by simp [Tree.begin, Node.toList], ?_⟩
    intro p hp
    simp only [Tree.begin, Option.some.injEq] at hp
    subst hp
    obtain ⟨h1, k', v', h', r', rest, h2, h3⟩ := find_min_spec l r k v h
    refine ⟨h1, k', v', ?_, ?_, ⟨h', r', h2⟩, ?_⟩
    · simp [Node.entry, h2]
    · simp only [h3, List.head?_cons]
    · intro e he
      simp only [h3] at hasc he
      unfold Ascending at hasc
      rw [List.pairwise_cons] at hasc
      rcases List.mem_cons.1 he with he | he
      · exact Or.inl he
      · exact Or.inr (hasc.1 e he)

/-- An instance of the statement above: after `push` of the keys 5, 3, 8 `begin()` is the
left child of the root, holding key 3. -/
theorem begin_designates_smallest_witness :
    StrictWeakOrder natLess ∧
      pushAll 0 natLess [(5, 50), (3, 30), (8, 80)] =
        some ⟨Node.mk (newNode 0 3 30) 5 50 0 (newNode 0 8 80), 3⟩ ∧
      (Tree.begin (⟨Node.mk (newNode 0 3 30) 5 50 0 (newNode 0 8 80), 3⟩ : Tree Nat Nat) =
        some [Dir.L]) ∧
      ((Tree.begin (⟨Node.mk (newNode 0 3 30) 5 50 0 (newNode 0 8 80), 3⟩ : Tree Nat Nat) =
          none ↔
        (Node.mk (newNode 0 3 30) 5 50 0 (newNode 0 8 80) : Node Nat Nat).toList = []) ∧
      ∀ p, Tree.begin (⟨Node.mk (newNode 0 3 30) 5 50 0 (newNode 0 8 80), 3⟩ : Tree Nat Nat) =
          some p →
        (∀ d ∈ p, d = Dir.L) ∧
          ∃ k v, (Node.mk (newNode 0 3 30) 5 50 0 (newNode 0 8 80) : Node Nat Nat).entry p =
              some (k, v) ∧
            (Node.mk (newNode 0 3 30) 5 50 0 (newNode 0 8 80) : Node Nat Nat).toList.head? =
              some (k, v) ∧
            (∃ h r, (Node.mk (newNode 0 3 30) 5 50 0 (newNode 0 8 80) : Node Nat Nat).subtree p =
              some (Node.mk Node.nil k v h r)) ∧
            ∀ e ∈ (Node.mk (newNode 0 3 30) 5 50 0 (newNode 0 8 80) : Node Nat Nat).toList,
              e = (k, v) ∨ natLess k e.1 = true) :=
  ⟨natLess_strictWeakOrder, by decide, by decide,
    begin_designates_smallest natLess_strictWeakOrder 0 [(5, 50), (3, 30), (8, 80)]
      ⟨Node.mk (newNode 0 3 30) 5 50 0 (newNode 0 8 80), 3⟩ (by decide)⟩

/-- C29. Stored heights are not kept by `push`: whatever value `h0` the node constructor
gives the `height` of a fresh node, after `push(1, _)`, `push(2, _)` into an empty tree some
node's stored height differs from one plus the larger stored height of its children (an
absent child counting 0); and `rotate_right` hands back both relinked nodes with the
stored heights they came with. -/
theorem stored_heights_stale_after_push (h0 : Int) :
    (∃ t, pushAll h0 natLess [(1, 0), (2, 0)] = some t ∧ ¬ t.root.StoredHeightsOk) ∧
      ∀ (xl t2 yr : Node K V) (xk yk : K) (xv yv : V) (xh yh : Int),
        rotate_right (Node.mk (Node.mk xl xk xv xh t2) yk yv yh yr) =
          Node.mk xl xk xv xh (Node.mk t2 yk yv yh yr) := by
  refine ⟨⟨⟨Node.mk Node.nil 1 0 h0 (Node.mk Node.nil 2 0 h0 Node.nil), 2⟩, ?_, ?_⟩, ?_⟩
  · simp [pushAll, run, push, Tree.empty, newNode, descend, natLess, rebalance_path, balance,
      get_balance_factor, get_height, Frame.plug]
  · simp only [Node.StoredHeightsOk, storedHeight]
    omega
  · intros
    rfl

end Averenkov

namespace Averenkov

variable {K V : Type}

/-- C30. Parent links after pushes. Every sequence of `push` calls on an empty tree returns,
and in the tree it leaves (the root being what the sentinel's `left` holds) the `parent`
member of the root holds the sentinel's address, every other node's `parent` member holds
the address of the node whose `left` or `right` holds it, and no two nodes share an address
or have the sentinel's. Without addresses and `parent` members the tree is the one `push`
builds in the model that leaves them out. -/
theorem parent_links_after_pushes (h0 : Int) (comp : K → K → Bool) (kvs : List (K × V)) :
    ∃ t, Linked.pushAll h0 comp Linked.empty kvs = some t ∧
      Linked.ParentsOk t.root 0 ∧ (Linked.addrs t.root).Nodup ∧ 0 ∉ Linked.addrs t.root ∧
      pushAll h0 comp kvs = some (Linked.forgetTree t) := by
  obtain ⟨t, h1, h2, h3, h4⟩ := Linked.pushAll_linked h0 comp kvs Linked.empty trivial
    (by simp [Linked.empty, Linked.addrs]) (by simp [Linked.empty, Linked.addrs])
    (by simp [Linked.empty])
  refine ⟨t, h1, h2, h3, fun h => absurd (h4 0 h).1 (by decide), ?_⟩
  have e := Linked.forget_pushAll h0 comp kvs Linked.empty
  rw [h1] at e
  exact e.symm

end Averenkov

namespace Averenkov

variable {K V : Type}

/-- C32. For a tree in search-tree order and a key `k`, `equal_range(k)` spans at most one
element: `lower_bound(k) == upper_bound(k)` exactly when no stored key is equivalent to
`k`; when the element `e` has a key equivalent to `k`, `lower_bound(k)` designates `e` and
`upper_bound(k)` the element that follows `e` in the in-order sequence, or is `end()` when
`e` is the last one. -/
theorem equal_range_spans_at_most_one {comp : K → K → Bool} (hc : StrictWeakOrder comp)
    (t : Tree K V) (ht : Ascending comp t.root.toList) (k : K) :
    ((equal_range comp t k).1 = (equal_range comp t k).2 ↔
        ∀ e ∈ t.root.toList, keyEquiv comp k e.1 = false) ∧
      ∀ A e B, t.root.toList = A ++ e :: B → keyEquiv comp k e.1 = true →
        (∃ p, (equal_range comp t k).1 = some p ∧ t.root.entry p = some e) ∧
          (B = [] → (equal_range comp t k).2 = none) ∧
          (∀ s B', B = s :: B' →
            ∃ q, (equal_range comp t k).2 = some q ∧ t.root.entry q = some s) := by
  refine ⟨⟨fun heq => ?_, fun hno => ?_⟩, fun A e B hs he =>
    equal_range_of_equiv hc t ht k A B e hs he⟩
  · intro e hm
    cases hk : keyEquiv comp k e.1 with
    | false => rfl
    | true =>
      exfalso
      obtain ⟨A, B, hs⟩ := List.append_of_mem hm
      obtain ⟨⟨p, hp, hpe⟩, hnil, hcons⟩ := equal_range_of_equiv hc t ht k A B e hs hk
      simp only [equal_range] at heq
      cases B with
      | nil =>
        rw [hp, hnil rfl] at heq
        cases heq
      | cons s B' =>
        obtain ⟨q, hq, hqe⟩ := hcons s B' rfl
        rw [hp, hq] at heq
        cases heq
        rw [hpe] at hqe
        cases hqe
        have hasc := ht
        unfold Ascending at hasc
        rw [hs, List.pairwise_append, List.pairwise_cons] at hasc
        have := hasc.2.1.1 e (List.mem_cons_self _ _)
        rw [hc.irrefl] at this
        cases this
  · simp only [equal_range, lower_bound, upper_bound]
    apply bounds_agree
    intro e hm
    have := hno e hm
    simp only [keyEquiv, Bool.and_eq_false_iff, Bool.not_eq_false'] at this
    rcases this with h | h
    · rw [h, hc.asymm _ _ h]; rfl
    · rw [h]
      cases hke : comp k e.1 with
      | false => rfl
      | true =>
        rw [hc.asymm _ _ hke] at h
        cases h

/-- An instance of the statement above: `equal_range(5)` on the tree with the keys 3, 5, 8
runs from the root to its right child. -/
theorem equal_range_spans_at_most_one_witness :
    StrictWeakOrder natLess ∧
      Ascending natLess
        (Node.mk (newNode 0 3 30) 5 50 0 (newNode 0 8 80) : Node Nat Nat).toList ∧
      equal_range natLess
          (⟨Node.mk (newNode 0 3 30) 5 50 0 (newNode 0 8 80), 3⟩ : Tree Nat Nat) 5 =
        (some [], some [Dir.R]) ∧
      (((equal_range natLess
              (⟨Node.mk (newNode 0 3 30) 5 50 0 (newNode 0 8 80), 3⟩ : Tree Nat Nat) 5).1 =
            (equal_range natLess
              (⟨Node.mk (newNode 0 3 30) 5 50 0 (newNode 0 8 80), 3⟩ : Tree Nat Nat) 5).2 ↔
          ∀ e ∈ (Node.mk (newNode 0 3 30) 5 50 0 (newNode 0 8 80) : Node Nat Nat).toList,
            keyEquiv natLess 5 e.1 = false) ∧
        ∀ A e B,
          (Node.mk (newNode 0 3 30) 5 50 0 (newNode 0 8 80) : Node Nat Nat).toList =
              A ++ e :: B →
            keyEquiv natLess 5 e.1 = true →
            (∃ p, (equal_range natLess
                    (⟨Node.mk (newNode 0 3 30) 5 50 0 (newNode 0 8 80), 3⟩ : Tree Nat Nat)
                    5).1 = some p ∧
                (Node.mk (newNode 0 3 30) 5 50 0 (newNode 0 8 80) : Node Nat Nat).entry p =
                  some e) ∧
              (B = [] →
                (equal_range natLess
                  (⟨Node.mk (newNode 0 3 30) 5 50 0 (newNode 0 8 80), 3⟩ : Tree Nat Nat)
                  5).2 = none) ∧
              (∀ s B', B = s :: B' →
                ∃ q, (equal_range natLess
                      (⟨Node.mk (newNode 0 3 30) 5 50 0 (newNode 0 8 80), 3⟩ : Tree Nat Nat)
                      5).2 = some q ∧
                  (Node.mk (newNode 0 3 30) 5 50 0 (newNode 0 8 80) : Node Nat Nat).entry q =
                    some s)) :=
  ⟨natLess_strictWeakOrder, by decide, by decide,
    equal_range_spans_at_most_one natLess_strictWeakOrder
      ⟨Node.mk (newNode 0 3 30) 5 50 0 (newNode 0 8 80), 3⟩ (by decide) 5⟩

/-- C33. The iterative `get_height` is the recursive height. On every subtree the
stack-and-map loop of `get_height` ends (twice the number of nodes bounds its iterations)
and returns the height defined by recursion, which is -1 for the sentinel and one more than
the larger height of the two children otherwise; `get_balance_factor` then is the height of
the left child minus the height of the right child, 0 for the sentinel. -/
theorem get_height_iterative_is_recursive (n : Node K V) (extra : Nat) :
    get_height_iterative (2 * n.count + extra) n = some (get_height n) ∧
      get_balance_factor_iterative (2 * n.count + extra) n = some (get_balance_factor n) ∧
      get_height (Node.nil : Node K V) = -1 ∧
      get_balance_factor (Node.nil : Node K V) = 0 ∧
      ∀ (l r : Node K V) (k : K) (v : V) (h : Int),
        get_height (Node.mk l k v h r) = 1 + max (get_height l) (get_height r) ∧
          get_balance_factor (Node.mk l k v h r) = get_height l - get_height r := by
  refine ⟨get_height_iterative_eq n extra, ?_, rfl, rfl, fun l r k v h => ⟨rfl, rfl⟩⟩
  cases n with
  | nil => rfl
  | mk l k v h r =>
    have hl : ∀ m : Node K V, m.count ≤ (Node.mk l k v h r).count →
        get_height_iterative (2 * (Node.mk l k v h r).count + extra) m =
          some (get_height m) := by
      intro m hm
      have := get_height_iterative_eq m
        (2 * (Node.mk l k v h r).count + extra - 2 * m.count)
      rw [show 2 * m.count + (2 * (Node.mk l k v h r).count + extra - 2 * m.count) =
        2 * (Node.mk l k v h r).count + extra by omega] at this
      exact this
    have e1 := hl l (by simp only [Node.count]; omega)
    have e2 := hl r (by simp only [Node.count]; omega)
    rcases l with _ | ⟨ll, lk, lv, lh, lr⟩ <;> rcases r with _ | ⟨rl, rk, rv, rh, rr⟩ <;>
      simp only [get_balance_factor_iterative, e1, e2, Option.some_bind, Option.map_some',
        get_balance_factor, get_height]

end Averenkov

namespace Averenkov

namespace Heap

end Heap

end Averenkov

namespace Smirnov
variable {K V : Type}

/-- C3. Every sequence of non-const `operator[]` calls (bare or assigned through) from the
empty tree runs to completion, and afterwards every node has children whose structural
heights, an absent child counting 0, differ by at most 1. -/
theorem balanced_after_subscripts {comp : K → K → Bool} (hc : StrictWeakOrder comp)
    (dflt : V) (ops : List (Op K V)) :
    ∃ t, run comp dflt AvlTree.empty ops = some t ∧ t.root_.Balanced := by
  obtain ⟨t, h1, _, h3, _⟩ := run_from_empty hc dflt ops
  exact ⟨t, h1, h3⟩

/-- An instance of the statement above: four `operator[]` statements on natural-number keys. -/
theorem balanced_after_subscripts_witness :
    StrictWeakOrder natLess ∧
      ∃ t, run natLess 0 AvlTree.empty [Op.set 1 10, Op.set 2 20, Op.get 3, Op.set 2 21] =
        some t ∧ t.root_.Balanced :=
  ⟨natLess_strictWeakOrder,
    balanced_after_subscripts natLess_strictWeakOrder 0
      [Op.set 1 10, Op.set 2 20, Op.get 3, Op.set 2 21]⟩

/-- C7 (fails on the code). With 5 stored under key 1, the non-const `tree[1]` leaves
`Value()`, here 0, under key 1 and returns a reference to that 0: `addOrGet` assigns its
`value` argument to the node it finds. -/
theorem subscript_existing_key_overwrites :
    ∃ t t' : AvlTree Nat Nat, ∃ p : Pos,
      run natLess 0 AvlTree.empty [Op.set 1 5] = some t ∧
      AvlTree.at natLess t 1 = some 5 ∧
      subscript natLess 0 t 1 = some (t', p) ∧
      t'.root_.entry p = some (1, 0) ∧
      AvlTree.at natLess t' 1 = some 0 ∧ t'.size = t.size :=
  ⟨⟨Node.mk Node.nil 1 5 1 Node.nil, 1⟩, ⟨Node.mk Node.nil 1 0 1 Node.nil, 1⟩, [],
    by decide, by decide, by decide, by decide, by decide, rfl⟩

/-- C8. For a tree built by `operator[]` calls and a key `k` equivalent to no stored key, the
non-const `tree[k]` returns a reference to a new pair `(k, Value())`: the in-order sequence
afterwards is the previous one with that pair put at its sorted position, so every pair
stored before is still there with its value; it is strictly ascending; `size()` is one more
than before. -/
theorem subscript_new_key_inserts {comp : K → K → Bool} (hc : StrictWeakOrder comp)
    (dflt : V) (ops : List (Op K V)) (t : AvlTree K V)
    (ht : run comp dflt AvlTree.empty ops = some t) (k : K)
    (hk : ∀ e ∈ t.root_.toList, keyEquiv comp k e.1 = false) :
    ∃ t' p, subscript comp dflt t k = some (t', p) ∧
      t'.root_.entry p = some (k, dflt) ∧
      t'.root_.toList = insertSorted comp k dflt t.root_.toList ∧
      (∀ e ∈ t.root_.toList, e ∈ t'.root_.toList) ∧
      Ascending comp t'.root_.toList ∧
      t'.size = t.size + 1 := by
  obtain ⟨t0, h0, hh, hb, ha⟩ := run_from_empty hc dflt ops
  rw [ht] at h0
  cases h0
  obtain ⟨t', p, e1, _, _, a1, _, habs, _⟩ := subscript_spec hc dflt t k hh hb ha
  obtain ⟨g1, g2, g3⟩ := habs hk
  refine ⟨t', p, e1, g3, g1, ?_, a1, g2⟩
  intro e he
  rw [g1, mem_insertSorted]
  exact Or.inr he

/-- An instance of the statement above: `tree[4]` on the tree built by `tree[5] = 50; tree[3] = 30;`. -/
theorem subscript_new_key_inserts_witness :
    StrictWeakOrder natLess ∧
      run natLess 0 AvlTree.empty [Op.set 5 50, Op.set 3 30] =
        some (⟨Node.mk (newNode 3 30) 5 50 2 Node.nil, 2⟩ : AvlTree Nat Nat) ∧
      (∀ e ∈ (Node.mk (newNode 3 30) 5 50 2 Node.nil : Node Nat Nat).toList,
        keyEquiv natLess 4 e.1 = false) ∧
      ∃ t' p, subscript natLess 0 (⟨Node.mk (newNode 3 30) 5 50 2 Node.nil, 2⟩ : AvlTree Nat Nat)
            4 = some (t', p) ∧
        t'.root_.entry p = some (4, 0) ∧
        t'.root_.toList = insertSorted natLess 4 0
          (Node.mk (newNode 3 30) 5 50 2 Node.nil : Node Nat Nat).toList ∧
        (∀ e ∈ (Node.mk (newNode 3 30) 5 50 2 Node.nil : Node Nat Nat).toList,
          e ∈ t'.root_.toList) ∧
        Ascending natLess t'.root_.toList ∧
        t'.size = 2 + 1 :=
  ⟨natLess_strictWeakOrder, by decide, by decide,
    subscript_new_key_inserts natLess_strictWeakOrder 0 [Op.set 5 50, Op.set 3 30]
      ⟨Node.mk (newNode 3 30) 5 50 2 Node.nil, 2⟩ (by decide) 4 (by decide)⟩

end Smirnov

namespace Smirnov

variable {K V : Type}

/-- C23. For a tree `t` built by `operator[]` calls on an empty `AvlTree`, the copy
constructor and the copy assignment (to any other object) both return, give a tree with the
in-order sequence of key-value pairs of `t` and the `size()` of `t`, and leave `t` as it
was. -/
theorem copy_keeps_sequence_and_size {comp : K → K → Bool} (hc : StrictWeakOrder comp)
    (dflt : V) (ops : List (Op K V)) (t : AvlTree K V)
    (ht : run comp dflt AvlTree.empty ops = some t) :
    (∃ c, copy_construct comp dflt t = some (c, t) ∧ c.root_.toList = t.root_.toList ∧
        c.size = t.size) ∧
      ∀ self : AvlTree K V, ∃ c, copy_assign comp dflt self t = some (c, t) ∧
        c.root_.toList = t.root_.toList ∧ c.size = t.size := by
  obtain ⟨t0, e0, hh, hb, ha⟩ := run_from_empty hc dflt ops
  rw [ht] at e0
  cases e0
  have hsz : t.size_ = t.root_.toList.length :=
    run_size hc dflt ops AvlTree.empty t trivial trivial
      (by simp [AvlTree.empty, Node.toList, Ascending]) rfl ht
  obtain ⟨c, hc1, hc2⟩ := run_sets_append hc dflt t.root_.toList ⟨Node.nil, 0⟩ trivial trivial
    (by simpa [Node.toList] using ha)
  have hc3 : c.size_ = c.root_.toList.length :=
    run_size hc dflt _ ⟨Node.nil, 0⟩ c trivial trivial
      (by simp [Node.toList, Ascending]) rfl hc1
  simp only [Node.toList, List.nil_append] at hc2
  have key : run comp dflt ⟨Node.nil, 0⟩ (copy_ops t) = some c := hc1
  refine ⟨⟨c, by simp [copy_construct, key], hc2, ?_⟩,
    fun self => ⟨c, by simp [copy_assign, key], hc2, ?_⟩⟩ <;>
  simp only [AvlTree.size, hc3, hc2, hsz]

/-- An instance of the statement above: the tree after `t[2] = 20; t[1] = 10; t[3];`. -/
theorem copy_keeps_sequence_and_size_witness :
    StrictWeakOrder natLess ∧
      run natLess 0 AvlTree.empty [Op.set 2 20, Op.set 1 10, Op.get 3] =
        some ⟨Node.mk (newNode 1 10) 2 20 2 (newNode 3 0), 3⟩ ∧
      ((∃ c, copy_construct natLess 0 ⟨Node.mk (newNode 1 10) 2 20 2 (newNode 3 0), 3⟩ =
            some (c, ⟨Node.mk (newNode 1 10) 2 20 2 (newNode 3 0), 3⟩) ∧
          c.root_.toList = (Node.mk (newNode 1 10) 2 20 2 (newNode 3 0)).toList ∧
          c.size = AvlTree.size ⟨Node.mk (newNode 1 10) 2 20 2 (newNode 3 0), 3⟩) ∧
        ∀ self : AvlTree Nat Nat,
          ∃ c, copy_assign natLess 0 self ⟨Node.mk (newNode 1 10) 2 20 2 (newNode 3 0), 3⟩ =
              some (c, ⟨Node.mk (newNode 1 10) 2 20 2 (newNode 3 0), 3⟩) ∧
            c.root_.toList = (Node.mk (newNode 1 10) 2 20 2 (newNode 3 0)).toList ∧
            c.size = AvlTree.size ⟨Node.mk (newNode 1 10) 2 20 2 (newNode 3 0), 3⟩) :=
  ⟨natLess_strictWeakOrder, by decide,
    copy_keeps_sequence_and_size natLess_strictWeakOrder 0
      [Op.set 2 20, Op.set 1 10, Op.get 3]
      ⟨Node.mk (newNode 1 10) 2 20 2 (newNode 3 0), 3⟩ (by decide)⟩

/-- C28. After any sequence of non-const `operator[]` calls (bare or assigned through) on an
empty `AvlTree`, the calls all return and every node's stored `height` is
`1 + max(height(left), height(right))`, `height` giving 0 for an absent child; a freshly
created leaf carries height 1. -/
theorem stored_height_is_one_plus_max {comp : K → K → Bool} (hc : StrictWeakOrder comp)
    (dflt : V) (ops : List (Op K V)) :
    (∃ t, run comp dflt AvlTree.empty ops = some t ∧ t.root_.StoredOk) ∧
      ∀ k : K, height (newNode k dflt) = 1 ∧ (newNode k dflt).StoredOk := by
  obtain ⟨t, h1, h2, _⟩ := run_from_empty hc dflt ops
  exact ⟨⟨t, h1, storedOk_of_heightsOk _ h2⟩, fun k => ⟨rfl, by simp [newNode, Node.StoredOk, height]⟩⟩

/-- An instance of the statement above: `t[1]; t[2] = 5; t[3];` on an empty tree. -/
theorem stored_height_is_one_plus_max_witness :
    StrictWeakOrder natLess ∧
      run natLess 0 AvlTree.empty [Op.get 1, Op.set 2 5, Op.get 3] =
        some ⟨Node.mk (newNode 1 0) 2 5 2 (newNode 3 0), 3⟩ ∧
      ((∃ t, run natLess 0 AvlTree.empty [Op.get 1, Op.set 2 5, Op.get 3] = some t ∧
          t.root_.StoredOk) ∧
        ∀ k : Nat, height (newNode k 0) = 1 ∧ (newNode k 0).StoredOk) :=
  ⟨natLess_strictWeakOrder, by decide,
    stored_height_is_one_plus_max natLess_strictWeakOrder 0 [Op.get 1, Op.set 2 5, Op.get 3]⟩

end Smirnov

namespace Smirnov

variable {K V : Type}

/-- C31. Height is logarithmic in the size. Every sequence of non-const `operator[]` calls
on an empty `AvlTree` returns and leaves a tree whose `size()` is the number `n` of keys it
holds and whose height `h` in nodes (0 for the empty tree) satisfies `2^h <= (n + 1)^2`. -/
theorem height_logarithmic_in_size {comp : K → K → Bool} (hc : StrictWeakOrder comp)
    (dflt : V) (ops : List (Op K V)) :
    ∃ t, run comp dflt AvlTree.empty ops = some t ∧ t.size = t.root_.toList.length ∧
      2 ^ t.root_.depth.toNat ≤ (t.size + 1) ^ 2 := by
  obtain ⟨t, h1, _, hb, _⟩ := run_from_empty hc dflt ops
  have hsz : t.size_ = t.root_.toList.length :=
    run_size hc dflt ops AvlTree.empty t trivial trivial
      (by simp [AvlTree.empty, Node.toList, Ascending]) rfl h1
  refine ⟨t, h1, hsz, ?_⟩
  rw [AvlTree.size, hsz]
  exact balanced_depth_bound t.root_ hb

/-- An instance of the statement above: `t[1]; t[2]; t[3]; t[4];` on an empty tree gives
height 3 with 4 keys. -/
theorem height_logarithmic_in_size_witness :
    StrictWeakOrder natLess ∧
      (run natLess 0 AvlTree.empty [Op.get 1, Op.get 2, Op.get 3, Op.get 4]).map
          (fun t => (t.size, t.root_.depth)) = some (4, 3) ∧
      ∃ t, run natLess 0 AvlTree.empty [Op.get 1, Op.get 2, Op.get 3, Op.get 4] = some t ∧
        t.size = t.root_.toList.length ∧ 2 ^ t.root_.depth.toNat ≤ (t.size + 1) ^ 2 :=
  ⟨natLess_strictWeakOrder, by decide,
    height_logarithmic_in_size natLess_strictWeakOrder 0
      [Op.get 1, Op.get 2, Op.get 3, Op.get 4]⟩

/-- C34. Left and right rotation of `AvlTree` undo each other. For a node `x` with a right
child whose subtree has consistent stored heights, `rotateRight(rotateLeft(x))` returns the
subtree of `x` as it was: same shape, same pairs, same stored heights. For a node with a
left child `rotateLeft(rotateRight(x))` does. -/
theorem rotations_mutually_inverse (a b c : Node K V) (k ck : K) (v cv : V) (h ch : Int) :
    ((Node.mk a k v h (Node.mk b ck cv ch c)).StoredOk →
        (rotateLeft (Node.mk a k v h (Node.mk b ck cv ch c))).bind rotateRight =
          some (Node.mk a k v h (Node.mk b ck cv ch c))) ∧
      ((Node.mk (Node.mk a ck cv ch b) k v h c).StoredOk →
        (rotateRight (Node.mk (Node.mk a ck cv ch b) k v h c)).bind rotateLeft =
          some (Node.mk (Node.mk a ck cv ch b) k v h c)) := by
  constructor
  · intro hs
    obtain ⟨_, ⟨_, _, e1⟩, e2⟩ := hs
    rw [height_mk] at e2
    simp only [rotateLeft, rotateRight, updateHeight, Option.some_bind, height_mk,
      Option.some.injEq, Node.mk.injEq, true_and, and_true]
    constructor
    · split_ifs <;> omega
    · split_ifs <;> omega
  · intro hs
    obtain ⟨⟨_, _, e1⟩, _, e2⟩ := hs
    rw [height_mk] at e2
    simp only [rotateLeft, rotateRight, updateHeight, Option.some_bind, height_mk,
      Option.some.injEq, Node.mk.injEq, true_and, and_true]
    constructor
    · split_ifs <;> omega
    · split_ifs <;> omega

/-- An instance of the statement above: the three-node chains 1, 2, 3 leaning right and
leaning left. -/
theorem rotations_mutually_inverse_witness :
    (Node.mk Node.nil 1 10 3 (Node.mk Node.nil 2 20 2 (newNode 3 30))).StoredOk ∧
      (Node.mk (Node.mk (newNode 1 10) 2 20 2 Node.nil) 3 30 3 Node.nil).StoredOk ∧
      (rotateLeft (Node.mk Node.nil 1 10 3 (Node.mk Node.nil 2 20 2 (newNode 3 30)))).bind
          rotateRight =
        some (Node.mk Node.nil 1 10 3 (Node.mk Node.nil 2 20 2 (newNode 3 30))) ∧
      (rotateRight (Node.mk (Node.mk (newNode 1 10) 2 20 2 Node.nil) 3 30 3 Node.nil)).bind
          rotateLeft =
        some (Node.mk (Node.mk (newNode 1 10) 2 20 2 Node.nil) 3 30 3 Node.nil) :=
  ⟨by decide, by decide,
    (rotations_mutually_inverse Node.nil Node.nil (newNode 3 30) 1 2 10 20 3 2).1 (by decide),
    (rotations_mutually_inverse (newNode 1 10) Node.nil Node.nil 3 2 30 20 3 2).2 (by decide)⟩

end Smirnov

/-- C11. In both trees, for a tree in search-tree order and a key `k`: `at(k)`, mutable and
const, and the const `operator[]` take the `std::out_of_range` exit exactly when no stored
key is equivalent to `k`, and otherwise return the value stored under the equivalent key.
They only read the tree: all three give the same result on the same tree. -/
theorem at_raises_iff_no_equivalent_key {K V : Type} {comp : K → K → Bool}
    (hc : StrictWeakOrder comp) (t : Averenkov.Tree K V) (s : Smirnov.AvlTree K V)
    (ht : Ascending comp t.root.toList) (hs : Ascending comp s.root_.toList) (k : K) :
    ((Averenkov.Tree.at comp t k = none ↔
          ∀ e ∈ t.root.toList, keyEquiv comp k e.1 = false) ∧
        (∀ e ∈ t.root.toList, keyEquiv comp k e.1 = true →
          Averenkov.Tree.at comp t k = some e.2) ∧
        Averenkov.Tree.at_const comp t k = Averenkov.Tree.at comp t k ∧
        Averenkov.Tree.subscript_const comp t k = Averenkov.Tree.at comp t k) ∧
      ((Smirnov.AvlTree.at comp s k = none ↔
          ∀ e ∈ s.root_.toList, keyEquiv comp k e.1 = false) ∧
        (∀ e ∈ s.root_.toList, keyEquiv comp k e.1 = true →
          Smirnov.AvlTree.at comp s k = some e.2) ∧
        Smirnov.AvlTree.at_const comp s k = Smirnov.AvlTree.at comp s k ∧
        Smirnov.AvlTree.subscript_const comp s k = Smirnov.AvlTree.at comp s k) := by
  obtain ⟨a1, a2⟩ := Averenkov.at_spec hc k t ht
  obtain ⟨b1, b2⟩ := Smirnov.avl_at_spec hc k s hs
  exact ⟨⟨a1, a2, rfl, rfl⟩, ⟨b1, b2, rfl, rfl⟩⟩

/-- An instance of the statement above: `at(3)` on trees holding the keys 3 and 5. -/
theorem at_raises_iff_no_equivalent_key_witness :
    StrictWeakOrder natLess ∧
      Ascending natLess
        (Averenkov.Node.mk (Averenkov.newNode 0 3 30) 5 50 0 Averenkov.Node.nil).toList ∧
      Ascending natLess
        (Smirnov.Node.mk (Smirnov.newNode 3 30) 5 50 2 Smirnov.Node.nil).toList ∧
      Averenkov.Tree.at natLess
        ⟨Averenkov.Node.mk (Averenkov.newNode 0 3 30) 5 50 0 Averenkov.Node.nil, 2⟩ 3 = some 30 ∧
      Averenkov.Tree.at natLess
        ⟨Averenkov.Node.mk (Averenkov.newNode 0 3 30) 5 50 0 Averenkov.Node.nil, 2⟩ 4 = none ∧
      ((Averenkov.Tree.at natLess
            ⟨Averenkov.Node.mk (Averenkov.newNode 0 3 30) 5 50 0 Averenkov.Node.nil, 2⟩ 3 = none ↔
          ∀ e ∈ (Averenkov.Node.mk (Averenkov.newNode 0 3 30) 5 50 0
              Averenkov.Node.nil).toList, keyEquiv natLess 3 e.1 = false) ∧
        (∀ e ∈ (Averenkov.Node.mk (Averenkov.newNode 0 3 30) 5 50 0
              Averenkov.Node.nil).toList, keyEquiv natLess 3 e.1 = true →
          Averenkov.Tree.at natLess
            ⟨Averenkov.Node.mk (Averenkov.newNode 0 3 30) 5 50 0 Averenkov.Node.nil, 2⟩ 3 =
              some e.2) ∧
        Averenkov.Tree.at_const natLess
            ⟨Averenkov.Node.mk (Averenkov.newNode 0 3 30) 5 50 0 Averenkov.Node.nil, 2⟩ 3 =
          Averenkov.Tree.at natLess
            ⟨Averenkov.Node.mk (Averenkov.newNode 0 3 30) 5 50 0 Averenkov.Node.nil, 2⟩ 3 ∧
        Averenkov.Tree.subscript_const natLess
            ⟨Averenkov.Node.mk (Averenkov.newNode 0 3 30) 5 50 0 Averenkov.Node.nil, 2⟩ 3 =
          Averenkov.Tree.at natLess
            ⟨Averenkov.Node.mk (Averenkov.newNode 0 3 30) 5 50 0 Averenkov.Node.nil, 2⟩ 3) ∧
      ((Smirnov.AvlTree.at natLess
            ⟨Smirnov.Node.mk (Smirnov.newNode 3 30) 5 50 2 Smirnov.Node.nil, 2⟩ 3 = none ↔
          ∀ e ∈ (Smirnov.Node.mk (Smirnov.newNode 3 30) 5 50 2 Smirnov.Node.nil).toList,
            keyEquiv natLess 3 e.1 = false) ∧
        (∀ e ∈ (Smirnov.Node.mk (Smirnov.newNode 3 30) 5 50 2 Smirnov.Node.nil).toList,
            keyEquiv natLess 3 e.1 = true →
          Smirnov.AvlTree.at natLess
            ⟨Smirnov.Node.mk (Smirnov.newNode 3 30) 5 50 2 Smirnov.Node.nil, 2⟩ 3 = some e.2) ∧
        Smirnov.AvlTree.at_const natLess
            ⟨Smirnov.Node.mk (Smirnov.newNode 3 30) 5 50 2 Smirnov.Node.nil, 2⟩ 3 =
          Smirnov.AvlTree.at natLess
            ⟨Smirnov.Node.mk (Smirnov.newNode 3 30) 5 50 2 Smirnov.Node.nil, 2⟩ 3 ∧
        Smirnov.AvlTree.subscript_const natLess
            ⟨Smirnov.Node.mk (Smirnov.newNode 3 30) 5 50 2 Smirnov.Node.nil, 2⟩ 3 =
          Smirnov.AvlTree.at natLess
            ⟨Smirnov.Node.mk (Smirnov.newNode 3 30) 5 50 2 Smirnov.Node.nil, 2⟩ 3) :=
  ⟨natLess_strictWeakOrder, by decide, by decide, by decide, by decide,
    at_raises_iff_no_equivalent_key natLess_strictWeakOrder
      ⟨Averenkov.Node.mk (Averenkov.newNode 0 3 30) 5 50 0 Averenkov.Node.nil, 2⟩
      ⟨Smirnov.Node.mk (Smirnov.newNode 3 30) 5 50 2 Smirnov.Node.nil, 2⟩
      (by decide) (by decide) 3⟩

/-- C12. In both trees, for a tree in search-tree order and a key `k`: `find(k)` returns the
position of the stored element whose key is equivalent to `k` when there is one, and
`end()` / `cend()` exactly when there is none, as on the empty tree. It always returns. -/
theorem find_returns_equivalent_element {K V : Type} {comp : K → K → Bool}
    (hc : StrictWeakOrder comp) (t : Averenkov.Tree K V) (s : Smirnov.AvlTree K V)
    (ht : Ascending comp t.root.toList) (hs : Ascending comp s.root_.toList) (k : K) :
    ((∀ e ∈ t.root.toList, keyEquiv comp k e.1 = true →
          ∃ p, Averenkov.find comp t k = some p ∧ t.root.entry p = some e) ∧
        (Averenkov.find comp t k = none ↔
          ∀ e ∈ t.root.toList, keyEquiv comp k e.1 = false) ∧
        Averenkov.find comp (Averenkov.Tree.empty : Averenkov.Tree K V) k = none) ∧
      ((∀ e ∈ s.root_.toList, keyEquiv comp k e.1 = true →
          ∃ p, Smirnov.find comp s k = some p ∧ s.root_.entry p = some e) ∧
        (Smirnov.find comp s k = none ↔
          ∀ e ∈ s.root_.toList, keyEquiv comp k e.1 = false) ∧
        Smirnov.find comp (Smirnov.AvlTree.empty : Smirnov.AvlTree K V) k = none) := by
  obtain ⟨a1, a2⟩ := Averenkov.find_NodeType_spec hc k t.root ht
  obtain ⟨b1, b2⟩ := Smirnov.findNode_spec hc k s.root_ hs
  exact ⟨⟨a1, a2, rfl⟩, ⟨b1, b2, rfl⟩⟩

/-- An instance of the statement above: `find(3)` on trees holding the keys 3 and 5. -/
theorem find_returns_equivalent_element_witness :
    StrictWeakOrder natLess ∧
      Ascending natLess
        (Averenkov.Node.mk (Averenkov.newNode 0 3 30) 5 50 0 Averenkov.Node.nil).toList ∧
      Ascending natLess
        (Smirnov.Node.mk (Smirnov.newNode 3 30) 5 50 2 Smirnov.Node.nil).toList ∧
      Averenkov.find natLess
        ⟨Averenkov.Node.mk (Averenkov.newNode 0 3 30) 5 50 0 Averenkov.Node.nil, 2⟩ 3 =
          some [Dir.L] ∧
      Smirnov.find natLess
        ⟨Smirnov.Node.mk (Smirnov.newNode 3 30) 5 50 2 Smirnov.Node.nil, 2⟩ 4 = none ∧
      ((∀ e ∈ (Averenkov.Node.mk (Averenkov.newNode 0 3 30) 5 50 0
              Averenkov.Node.nil).toList, keyEquiv natLess 3 e.1 = true →
          ∃ p, Averenkov.find natLess
              ⟨Averenkov.Node.mk (Averenkov.newNode 0 3 30) 5 50 0 Averenkov.Node.nil, 2⟩ 3 =
                some p ∧
            (Averenkov.Node.mk (Averenkov.newNode 0 3 30) 5 50 0 Averenkov.Node.nil).entry p =
              some e) ∧
        (Averenkov.find natLess
            ⟨Averenkov.Node.mk (Averenkov.newNode 0 3 30) 5 50 0 Averenkov.Node.nil, 2⟩ 3 = none ↔
          ∀ e ∈ (Averenkov.Node.mk (Averenkov.newNode 0 3 30) 5 50 0
              Averenkov.Node.nil).toList, keyEquiv natLess 3 e.1 = false) ∧
        Averenkov.find natLess (Averenkov.Tree.empty : Averenkov.Tree Nat Nat) 3 = none) ∧
      ((∀ e ∈ (Smirnov.Node.mk (Smirnov.newNode 3 30) 5 50 2 Smirnov.Node.nil).toList,
            keyEquiv natLess 3 e.1 = true →
          ∃ p, Smirnov.find natLess
              ⟨Smirnov.Node.mk (Smirnov.newNode 3 30) 5 50 2 Smirnov.Node.nil, 2⟩ 3 = some p ∧
            (Smirnov.Node.mk (Smirnov.newNode 3 30) 5 50 2 Smirnov.Node.nil).entry p = some e) ∧
        (Smirnov.find natLess
            ⟨Smirnov.Node.mk (Smirnov.newNode 3 30) 5 50 2 Smirnov.Node.nil, 2⟩ 3 = none ↔
          ∀ e ∈ (Smirnov.Node.mk (Smirnov.newNode 3 30) 5 50 2 Smirnov.Node.nil).toList,
            keyEquiv natLess 3 e.1 = false) ∧
        Smirnov.find natLess (Smirnov.AvlTree.empty : Smirnov.AvlTree Nat Nat) 3 = none) :=
  ⟨natLess_strictWeakOrder, by decide, by decide, by decide, by decide,
    find_returns_equivalent_element natLess_strictWeakOrder
      ⟨Averenkov.Node.mk (Averenkov.newNode 0 3 30) 5 50 0 Averenkov.Node.nil, 2⟩
      ⟨Smirnov.Node.mk (Smirnov.newNode 3 30) 5 50 2 Smirnov.Node.nil, 2⟩
      (by decide) (by decide) 3⟩

/-- C25. Move construction in both trees: the new tree has the in-order sequence and the
`size()` the source tree had; the source is left with `size() == 0`, `empty()` true and
`begin() == end()` (`cbegin() == cend()` for `AvlTree`). -/
theorem move_construct_takes_over_and_empties {K V : Type} (t : Averenkov.Tree K V)
    (s : Smirnov.AvlTree K V) :
    ((Averenkov.move_construct t).1.root.toList = t.root.toList ∧
        (Averenkov.move_construct t).1.size = t.size ∧
        (Averenkov.move_construct t).2.size = 0 ∧
        (Averenkov.move_construct t).2.isEmpty = true ∧
        (Averenkov.move_construct t).2.begin = none) ∧
      ((Smirnov.move_construct s).1.root_.toList = s.root_.toList ∧
        (Smirnov.move_construct s).1.size = s.size ∧
        (Smirnov.move_construct s).2.size = 0 ∧
        (Smirnov.move_construct s).2.isEmpty = true ∧
        (Smirnov.move_construct s).2.cbegin = none) :=
  ⟨⟨rfl, rfl, rfl, rfl, rfl⟩, ⟨rfl, rfl, rfl, rfl, rfl⟩⟩

/-- C27. Rotations keep the in-order sequence. For a node `x` with a right child,
`rotate_left(x)` of `Tree` and `rotateLeft(x)` of `AvlTree` return a subtree with the
in-order sequence of `x`, whose root is the former right child of `x` with `x` below it on
the left; for a node with a left child `rotate_right` and `rotateRight` do the mirror
image. -/
theorem rotations_preserve_inorder {K V : Type} (h0 : Int) (k ck : K) (v cv : V) (h ch : Int) :
    (∀ a b c : Averenkov.Node K V,
        (∃ y h1 h2, Averenkov.rotate_left h0
              (Averenkov.Node.mk a k v h (Averenkov.Node.mk b ck cv ch c)) = some y ∧
            y = Averenkov.Node.mk (Averenkov.Node.mk a k v h1 b) ck cv h2 c ∧
            y.toList = (Averenkov.Node.mk a k v h (Averenkov.Node.mk b ck cv ch c)).toList) ∧
          (∃ h1 h2, Averenkov.rotate_right
                (Averenkov.Node.mk (Averenkov.Node.mk a ck cv ch b) k v h c) =
              Averenkov.Node.mk a ck cv h1 (Averenkov.Node.mk b k v h2 c)) ∧
          (Averenkov.rotate_right
              (Averenkov.Node.mk (Averenkov.Node.mk a ck cv ch b) k v h c)).toList =
            (Averenkov.Node.mk (Averenkov.Node.mk a ck cv ch b) k v h c).toList) ∧
      (∀ a b c : Smirnov.Node K V,
        (∃ y h1 h2, Smirnov.rotateLeft
              (Smirnov.Node.mk a k v h (Smirnov.Node.mk b ck cv ch c)) = some y ∧
            y = Smirnov.Node.mk (Smirnov.Node.mk a k v h1 b) ck cv h2 c ∧
            y.toList = (Smirnov.Node.mk a k v h (Smirnov.Node.mk b ck cv ch c)).toList) ∧
          (∃ y h1 h2, Smirnov.rotateRight
              (Smirnov.Node.mk (Smirnov.Node.mk a ck cv ch b) k v h c) = some y ∧
            y = Smirnov.Node.mk a ck cv h1 (Smirnov.Node.mk b k v h2 c) ∧
            y.toList = (Smirnov.Node.mk (Smirnov.Node.mk a ck cv ch b) k v h c).toList)) := by
  refine ⟨fun a b c => ⟨⟨_, _, _, rfl, rfl, ?_⟩, ⟨_, _, rfl⟩, ?_⟩,
    fun a b c => ⟨⟨_, _, _, rfl, rfl, ?_⟩, ⟨_, _, _, rfl, rfl, ?_⟩⟩⟩ <;>
  simp [Averenkov.rotate_right, Averenkov.Node.toList, Smirnov.Node.toList]

/-- C21. Scenario A: inserting the keys 5, 3, 8, 1, 4, 7, 9 in that order into an empty
tree, by `Tree::push` with any values or by `AvlTree::operator[]` statements of either form,
returns each time and yields a tree whose in-order key sequence is 1, 3, 4, 5, 7, 8, 9 and
whose height counted in nodes is at most 4. -/
theorem scenario_a_keys_and_height {V : Type} (h0 : Int) (vals : Nat → V) (dflt : V)
    (stmt : Nat → Option V) :
    (∃ t, Averenkov.pushAll h0 natLess ([5, 3, 8, 1, 4, 7, 9].map fun k => (k, vals k)) =
          some t ∧
        t.root.toList.map Prod.fst = [1, 3, 4, 5, 7, 8, 9] ∧ t.root.depth ≤ 4) ∧
      (∃ s, Smirnov.run natLess dflt Smirnov.AvlTree.empty
            ([5, 3, 8, 1, 4, 7, 9].map fun k => Smirnov.subscriptStmt k (stmt k)) = some s ∧
        s.root_.toList.map Prod.fst = [1, 3, 4, 5, 7, 8, 9] ∧ s.root_.depth ≤ 4) := by
  constructor
  · obtain ⟨t, u, ht, hu, hk, hd⟩ :=
      Averenkov.pushAll_keys_depth h0 natLess [5, 3, 8, 1, 4, 7, 9] vals
    have d : (Averenkov.pushAll 0 natLess ([5, 3, 8, 1, 4, 7, 9].map fun k => (k, ()))).map
        (fun u => (u.root.toList.map Prod.fst, decide (u.root.depth ≤ 4))) =
        some ([1, 3, 4, 5, 7, 8, 9], true) := by decide
    rw [hu] at d
    simp only [Option.map_some', Option.some.injEq, Prod.mk.injEq, decide_eq_true_eq] at d
    exact ⟨t, ht, hk.trans d.1, hd ▸ d.2⟩
  · obtain ⟨s, hs, _⟩ := Smirnov.run_from_empty natLess_strictWeakOrder dflt
      ([5, 3, 8, 1, 4, 7, 9].map fun k => Smirnov.subscriptStmt k (stmt k))
    obtain ⟨u, hu, hk, hd⟩ :=
      Smirnov.run_keys_depth natLess dflt [5, 3, 8, 1, 4, 7, 9] stmt s hs
    have d : (Smirnov.run natLess () Smirnov.AvlTree.empty
          ([5, 3, 8, 1, 4, 7, 9].map fun k => Smirnov.Op.get k)).map
        (fun u => (u.root_.toList.map Prod.fst, decide (u.root_.depth ≤ 4))) =
        some ([1, 3, 4, 5, 7, 8, 9], true) := by decide
    rw [hu] at d
    simp only [Option.map_some', Option.some.injEq, Prod.mk.injEq, decide_eq_true_eq] at d
    exact ⟨s, hs, hk.trans d.1, hd ▸ d.2⟩

/-- C22. Scenario D: inserting the keys 1, 2, ..., 100 in ascending order into an empty
tree, by `Tree::push` with any values or by `AvlTree::operator[]` statements of either form,
returns each time and yields a tree that holds exactly the keys 1 to 100 and whose height
counted in nodes is at most 8. -/
theorem scenario_d_keys_and_height {V : Type} (h0 : Int) (vals : Nat → V) (dflt : V)
    (stmt : Nat → Option V) :
    (∃ t, Averenkov.pushAll h0 natLess ((List.range' 1 100).map fun k => (k, vals k)) =
          some t ∧
        t.root.toList.map Prod.fst = List.range' 1 100 ∧ t.root.depth ≤ 8) ∧
      (∃ s, Smirnov.run natLess dflt Smirnov.AvlTree.empty
            ((List.range' 1 100).map fun k => Smirnov.subscriptStmt k (stmt k)) = some s ∧
        s.root_.toList.map Prod.fst = List.range' 1 100 ∧ s.root_.depth ≤ 8) := by
  constructor
  · obtain ⟨t, u, ht, hu, hk, hd⟩ :=
      Averenkov.pushAll_keys_depth h0 natLess (List.range' 1 100) vals
    have d : (Averenkov.pushAll 0 natLess ((List.range' 1 100).map fun k => (k, ()))).map
        (fun u => (u.root.toList.map Prod.fst, decide (u.root.depth ≤ 8))) =
        some (List.range' 1 100, true) := by decide
    rw [hu] at d
    simp only [Option.map_some', Option.some.injEq, Prod.mk.injEq, decide_eq_true_eq] at d
    exact ⟨t, ht, hk.trans d.1, hd ▸ d.2⟩
  · obtain ⟨s, hs, _⟩ := Smirnov.run_from_empty natLess_strictWeakOrder dflt
      ((List.range' 1 100).map fun k => Smirnov.subscriptStmt k (stmt k))
    obtain ⟨u, hu, hk, hd⟩ :=
      Smirnov.run_keys_depth natLess dflt (List.range' 1 100) stmt s hs
    have d : (Smirnov.run natLess () Smirnov.AvlTree.empty
          ((List.range' 1 100).map fun k => Smirnov.Op.get k)).map
        (fun u => (u.root_.toList.map Prod.fst, decide (u.root_.depth ≤ 8))) =
        some (List.range' 1 100, true) := by decide
    rw [hu] at d
    simp only [Option.map_some', Option.some.injEq, Prod.mk.injEq, decide_eq_true_eq] at d
    exact ⟨s, hs, hk.trans d.1, hd ▸ d.2⟩

namespace Averenkov

namespace S2

/-- C35. For all 64-bit signed `a` and `b`, `isOverflow(a, b)` returns, performing no
division by zero and no `LLONG_MIN / -1`, and its result is true exactly when the exact
product `a * b` lies outside `[LLONG_MIN, LLONG_MAX]`. -/
theorem isOverflow_exact (a b : Int) (ha : InRange a) (hb : InRange b) :
    isOverflow a b = some (decide (a * b < LLONG_MIN ∨ LLONG_MAX < a * b)) := by
  unfold InRange at ha hb
  unfold isOverflow
  by_cases h0 : a = 0 ∨ b = 0
  · rw [if_pos h0]
    rcases h0 with rfl | rfl <;> simp [LLONG_MIN, LLONG_MAX]
  · rw [if_neg h0]
    push_neg at h0
    obtain ⟨ha0, hb0⟩ := h0
    by_cases hap : a > 0
    · rw [if_pos hap]
      by_cases hbp : b > 0
      · rw [if_pos hbp]
        have hd : div LLONG_MAX b = some (Int.tdiv LLONG_MAX b) := by
          unfold div
          rw [if_neg]
          simp only [LLONG_MAX, LLONG_MIN]
          omega
        rw [hd]
        simp only [Option.map_some', Option.some.injEq, decide_eq_decide, gt_iff_lt]
        rw [tdiv_pos_pos LLONG_MAX b (by decide) hbp a]
        have : 0 < a * b := Int.mul_pos hap hbp
        simp only [LLONG_MIN] at *
        constructor
        · intro h; exact Or.inr h
        · rintro (h | h)
          · omega
          · exact h
      · rw [if_neg hbp]
        have hbn : b < 0 := by omega
        have hd : div LLONG_MIN a = some (Int.tdiv LLONG_MIN a) := by
          unfold div
          rw [if_neg]
          simp only [LLONG_MAX, LLONG_MIN]
          omega
        rw [hd]
        simp only [Option.map_some', Option.some.injEq, decide_eq_decide]
        have e : Int.tdiv LLONG_MIN a = -Int.tdiv 9223372036854775808 a := by
          rw [← Int.neg_tdiv]; rfl
        rw [e]
        have key := tdiv_pos_pos 9223372036854775808 a (by decide) hap (-b)
        have hneg : a * b < 0 := Int.mul_neg_of_pos_of_neg hap hbn
        have hmul : -b * a = -(a * b) := by ring
        rw [hmul] at key
        simp only [LLONG_MIN, LLONG_MAX]
        constructor
        · intro h
          have := key.1 (by omega)
          exact Or.inl (by omega)
        · rintro (h | h)
          · have := key.2 (by omega)
            omega
          · omega
    · rw [if_neg hap]
      have han : a < 0 := by omega
      by_cases hbp : b > 0
      · rw [if_pos hbp]
        have hd : div LLONG_MIN b = some (Int.tdiv LLONG_MIN b) := by
          unfold div
          rw [if_neg]
          simp only [LLONG_MAX, LLONG_MIN]
          omega
        rw [hd]
        simp only [Option.map_some', Option.some.injEq, decide_eq_decide]
        have e : Int.tdiv LLONG_MIN b = -Int.tdiv 9223372036854775808 b := by
          rw [← Int.neg_tdiv]; rfl
        rw [e]
        have key := tdiv_pos_pos 9223372036854775808 b (by decide) hbp (-a)
        have hneg : a * b < 0 := Int.mul_neg_of_neg_of_pos han hbp
        have hmul : -a * b = -(a * b) := by ring
        rw [hmul] at key
        simp only [LLONG_MIN, LLONG_MAX]
        constructor
        · intro h
          have := key.1 (by omega)
          exact Or.inl (by omega)
        · rintro (h | h)
          · have := key.2 (by omega)
            omega
          · omega
      · rw [if_neg hbp]
        have hbn : b < 0 := by omega
        have hd : div LLONG_MAX b = some (Int.tdiv LLONG_MAX b) := by
          unfold div
          rw [if_neg]
          simp only [LLONG_MAX, LLONG_MIN]
          omega
        rw [hd]
        simp only [Option.map_some', Option.some.injEq, decide_eq_decide]
        have e : Int.tdiv LLONG_MAX b = -Int.tdiv LLONG_MAX (-b) := by
          rw [← Int.tdiv_neg, neg_neg]
        rw [e]
        have key := tdiv_pos_pos LLONG_MAX (-b) (by decide) (by omega) (-a)
        have hpos : 0 < a * b := Int.mul_pos_of_neg_of_neg han hbn
        have hmul : -a * -b = a * b := by ring
        rw [hmul] at key
        simp only [LLONG_MIN] at *
        constructor
        · intro h
          exact Or.inr (key.1 (by omega))
        · rintro (h | h)
          · omega
          · have := key.2 h
            omega

/-- An instance of the statement above: `isOverflow(LLONG_MIN, -1)` is true. -/
theorem isOverflow_exact_witness :
    InRange (-9223372036854775808) ∧ InRange (-1) ∧
      isOverflow (-9223372036854775808) (-1) = some true ∧
      isOverflow (-9223372036854775808) (-1) =
        some (decide ((-9223372036854775808 : Int) * -1 < LLONG_MIN ∨
          LLONG_MAX < (-9223372036854775808 : Int) * -1)) :=
  ⟨⟨by decide, by decide⟩, ⟨by decide, by decide⟩, by decide,
    isOverflow_exact (-9223372036854775808) (-1) ⟨by decide, by decide⟩
      ⟨by decide, by decide⟩⟩

/-- C36. The additive steps of `evaluatePostfix` do not catch every overflow. The `'+'`
step raises the overflow error only when both operands are positive and the sum exceeds
`LLONG_MAX`: on `a = -9223372036854775807`, `b = -2`, whose exact sum is below `LLONG_MIN`,
it pushes the wrapped value `9223372036854775807`. The `'-'` step raises only when `b` is
positive and the difference is below `LLONG_MIN`: on `a = 9223372036854775807`, `b = -1` it
pushes the wrapped value `-9223372036854775808`. -/
theorem additive_steps_miss_overflow :
    (InRange (-9223372036854775807) ∧ InRange (-2) ∧
        ¬ InRange (-9223372036854775807 + -2) ∧
        addStep (-9223372036854775807) (-2) = some 9223372036854775807) ∧
      (InRange 9223372036854775807 ∧ InRange (-1) ∧
        ¬ InRange (9223372036854775807 - -1) ∧
        subStep 9223372036854775807 (-1) = some (-9223372036854775808)) ∧
      (∀ a b : Int, addStep a b = none ↔ (0 < a ∧ 0 < b ∧ LLONG_MAX < a + b)) ∧
      (∀ a b : Int, subStep a b = none ↔ (0 < b ∧ a - b < LLONG_MIN)) := by
  refine ⟨⟨⟨by decide, by decide⟩, ⟨by decide, by decide⟩, ?_, by decide⟩,
    ⟨⟨by decide, by decide⟩, ⟨by decide, by decide⟩, ?_, by decide⟩, ?_, ?_⟩
  · unfold InRange LLONG_MIN LLONG_MAX; omega
  · unfold InRange LLONG_MIN LLONG_MAX; omega
  · intro a b
    unfold addStep LLONG_MAX
    split_ifs with h
    · simp only [true_iff]; omega
    · simp only [reduceCtorEq, false_iff]; omega
  · intro a b
    unfold subStep LLONG_MIN
    split_ifs with h
    · simp only [true_iff]; omega
    · simp only [reduceCtorEq, false_iff]; omega

end S2

end Averenkov
